import Mathlib

/-
Shallow embedding of `src/hash_tree.h` (namespace Byte): a keyed map whose
entries form a single rooted multi-way tree over a slot store, with a
chained hash index.  Machine integers are modelled as Nat; the C++ empty
sentinel `std::numeric_limits<size_t>::max()` is the Nat `2 ^ 64 - 1`.
Undefined behaviour of the source (indexing the slot store with an
unresolved identifier, modulo by a zero table size, walking a chain through
a dead slot, unbounded loops) is modelled by returning `none`; every defined
execution path of the C++ code is a `some`.  Load-factor comparisons
(`size / (double)table_size` against 0.9 and 0.2) are modelled exactly as
the rational comparisons `10 * size > 9 * table_size` and
`5 * size < table_size`, which agree with the double comparisons on all
states reachable here.
-/

set_option maxRecDepth 8000

namespace Byte

def _EMPTY_INDEX : Nat := 2 ^ 64 - 1

/-- One stored node: key, value, cached hash, ordered children slots, parent
slot (empty sentinel for the root), hash-chain successor slot. -/
structure hash_tree_node (K V : Type) where
  key : K
  value : V
  hash_value : Nat
  childs : List Nat
  parent_index : Nat
  next_index : Nat
  deriving DecidableEq, Repr

/-- Total list lookup returning `none` out of range. -/
def lGet {α : Type} : List α → Nat → Option α
  | [], _ => none
  | a :: _, 0 => some a
  | _ :: l, n + 1 => lGet l n

/-- Pointwise list update; out-of-range updates are dropped. -/
def lSet {α : Type} : List α → Nat → α → List α
  | [], _, _ => []
  | _ :: l, 0, b => b :: l
  | a :: l, n + 1, b => a :: lSet l n b

/-- Modelled from the spec: the backing slot store `sparse_vector` is a
collaborator whose header is not part of this repository; spec section 6
gives its contract (emplace returning a stable slot identifier, erase of
exactly one record with identifiers of survivors unchanged, indexed access,
size, clear, iteration over live records in slot order).  We realise it as a
list of optional records indexed by slot. -/
structure sparse_vector (α : Type) where
  data : List (Option α)
  deriving DecidableEq, Repr

def sparse_vector.get {α : Type} (sv : sparse_vector α) (i : Nat) : Option α :=
  (lGet sv.data i).getD none

def sparse_vector.setSlot {α : Type} (sv : sparse_vector α) (i : Nat) (a : α) :
    sparse_vector α :=
  ⟨lSet sv.data i (some a)⟩

def sparse_vector.eraseSlot {α : Type} (sv : sparse_vector α) (i : Nat) :
    sparse_vector α :=
  ⟨lSet sv.data i none⟩

/-- Number of live records. -/
def svCount {α : Type} : List (Option α) → Nat
  | [] => 0
  | none :: l => svCount l
  | some _ :: l => svCount l + 1

def sparse_vector.size {α : Type} (sv : sparse_vector α) : Nat := svCount sv.data

/-- First free slot, if any. -/
def svFree {α : Type} : List (Option α) → Option Nat
  | [] => none
  | none :: _ => some 0
  | some _ :: l => (svFree l).map (fun n => n + 1)

/-- Modelled from the spec: `emplace` stores a record and returns a stable
slot identifier; reuse of previously erased slots is the collaborator's
internal strategy (spec section 6), realised here as first-free-slot reuse. -/
def sparse_vector.emplace {α : Type} (sv : sparse_vector α) (a : α) :
    Nat × sparse_vector α :=
  match svFree sv.data with
  | some i => (i, sv.setSlot i a)
  | none => (sv.data.length, ⟨sv.data ++ [some a]⟩)

/-- The container state: slot store of nodes, bucket table of slot
identifiers, root slot identifier.  The C++ default constructor gives a
2-bucket table and an empty root. -/
structure hash_tree (K V : Type) where
  _nodes : sparse_vector (hash_tree_node K V)
  _table : List Nat
  _head_index : Nat
  deriving DecidableEq, Repr

def hash_tree.init (K V : Type) : hash_tree K V :=
  ⟨⟨[]⟩, [_EMPTY_INDEX, _EMPTY_INDEX], _EMPTY_INDEX⟩

def hash_tree.size {K V : Type} (ht : hash_tree K V) : Nat := ht._nodes.size

def hash_tree.table_size {K V : Type} (ht : hash_tree K V) : Nat := ht._table.length

/-- `a % b` with the C++ undefined behaviour of `b = 0` made explicit. -/
def mod? (a b : Nat) : Option Nat :=
  if b = 0 then none else some (a % b)

/-- The chain walk of `hash_tree::index`: starting from a bucket head, check
cached hash then key equality at every node, following `next_index`,
returning the first matching slot or the empty sentinel after the last node.
Fuel bounds the walk; running out models a non-terminating corrupt chain. -/
def index_chain {K V : Type} [DecidableEq K]
    (nodes : sparse_vector (hash_tree_node K V)) (hv : Nat) (key : K) :
    Nat → Nat → Option Nat
  | 0, _ => none
  | fuel + 1, i =>
    match nodes.get i with
    | none => none
    | some nd =>
      if nd.next_index = _EMPTY_INDEX then
        if nd.hash_value = hv ∧ nd.key = key then some i else some _EMPTY_INDEX
      else
        if nd.hash_value = hv ∧ nd.key = key then some i
        else index_chain nodes hv key fuel nd.next_index

/-- `hash_tree::index`: resolve a key to a slot identifier, or to the empty
sentinel when absent. -/
def hash_tree.index {K V : Type} [DecidableEq K] (hasher : K → Nat)
    (ht : hash_tree K V) (key : K) : Option Nat := do
  let hv := hasher key
  let b ← mod? hv ht.table_size
  match lGet ht._table b with
  | none => none
  | some i =>
    if i = _EMPTY_INDEX then
      return _EMPTY_INDEX
    else
      index_chain ht._nodes hv key (ht._nodes.data.length + 1) i

/-- The tail walk of `hash_tree::insert_map`: append `node_index` at the end
of the chain starting at `i`. -/
def insert_map_chain {K V : Type}
    (nodes : sparse_vector (hash_tree_node K V)) (node_index : Nat) :
    Nat → Nat → Option (sparse_vector (hash_tree_node K V))
  | 0, _ => none
  | fuel + 1, i =>
    match nodes.get i with
    | none => none
    | some nd =>
      if nd.next_index = _EMPTY_INDEX then
        some (nodes.setSlot i { nd with next_index := node_index })
      else
        insert_map_chain nodes node_index fuel nd.next_index

/-- `hash_tree::insert_map`: set the bucket head, or append at the chain tail. -/
def hash_tree.insert_map {K V : Type} (ht : hash_tree K V)
    (map_index node_index : Nat) : Option (hash_tree K V) :=
  match lGet ht._table map_index with
  | none => none
  | some i =>
    if i = _EMPTY_INDEX then
      some { ht with _table := lSet ht._table map_index node_index }
    else
      (insert_map_chain ht._nodes node_index (ht._nodes.data.length + 1) i).map
        (fun nodes => { ht with _nodes := nodes })

/-- `hash_tree::rehash`: clear every `next_index`, reset the bucket table to
`new_size` empty buckets, and re-insert every live node in slot order using
its cached hash. -/
def hash_tree.rehash {K V : Type} (ht : hash_tree K V) (new_size : Nat) :
    Option (hash_tree K V) :=
  let nodes1 : sparse_vector (hash_tree_node K V) :=
    ⟨ht._nodes.data.map (Option.map (fun nd => { nd with next_index := _EMPTY_INDEX }))⟩
  let ht1 : hash_tree K V :=
    { ht with _nodes := nodes1, _table := List.replicate new_size _EMPTY_INDEX }
  (List.range nodes1.data.length).foldlM
    (fun acc i =>
      match acc._nodes.get i with
      | none => some acc
      | some nd => do
        let b ← mod? nd.hash_value new_size
        acc.insert_map b i)
    ht1

/-- `hash_tree::_insert`: grow-and-rehash if the load factor exceeds
MAX_LOAD, store the node, register it in the hash index, return its slot. -/
def hash_tree._insert {K V : Type} [DecidableEq K] (hasher : K → Nat)
    (ht : hash_tree K V) (key : K) (value : V) :
    Option (Nat × hash_tree K V) := do
  let ht ←
    if 10 * ht.size > 9 * ht.table_size then ht.rehash (ht.table_size * 2)
    else some ht
  let hv := hasher key
  let p := ht._nodes.emplace
    { key := key, value := value, hash_value := hv, childs := []
      parent_index := _EMPTY_INDEX, next_index := _EMPTY_INDEX }
  let ht1 : hash_tree K V := { ht with _nodes := p.2 }
  let b ← mod? hv ht1.table_size
  let ht2 ← ht1.insert_map b p.1
  return (p.1, ht2)

/-- Parentless `hash_tree::insert`: first node becomes the root, later nodes
are appended as the last child of the current root. -/
def hash_tree.insert {K V : Type} [DecidableEq K] (hasher : K → Nat)
    (ht : hash_tree K V) (key : K) (value : V) : Option (hash_tree K V) := do
  let r ← ht._insert hasher key value
  let i := r.1
  let ht := r.2
  if ht._head_index = _EMPTY_INDEX then
    return { ht with _head_index := i }
  else
    match ht._nodes.get ht._head_index with
    | none => none
    | some hd =>
      let nodes := ht._nodes.setSlot ht._head_index { hd with childs := hd.childs ++ [i] }
      match nodes.get i with
      | none => none
      | some nd =>
        return { ht with _nodes := nodes.setSlot i { nd with parent_index := ht._head_index } }

/-- `hash_tree::insert` with an explicit parent key: store the node, then
resolve the parent and append the new slot to its children.  An unresolved
parent makes the code index the store with the empty sentinel: undefined
behaviour, hence `none` here, but only after `_insert` already ran. -/
def hash_tree.insert_with_parent {K V : Type} [DecidableEq K] (hasher : K → Nat)
    (ht : hash_tree K V) (key : K) (value : V) (parent : K) :
    Option (hash_tree K V) := do
  let r ← ht._insert hasher key value
  let i := r.1
  let ht := r.2
  let p ← ht.index hasher parent
  match ht._nodes.get p with
  | none => none
  | some pnd =>
    let nodes := ht._nodes.setSlot p { pnd with childs := pnd.childs ++ [i] }
    match nodes.get i with
    | none => none
    | some nd =>
      return { ht with _nodes := nodes.setSlot i { nd with parent_index := p } }

/-- `hash_tree::remove_child`: delete every occurrence of `child_index` from
its parent's child list (`std::remove` + `erase`). -/
def remove_child {K V : Type} (nodes : sparse_vector (hash_tree_node K V))
    (child_index : Nat) : Option (sparse_vector (hash_tree_node K V)) :=
  match nodes.get child_index with
  | none => none
  | some cnd =>
    match nodes.get cnd.parent_index with
    | none => none
    | some pnd =>
      some (nodes.setSlot cnd.parent_index
        { pnd with childs := pnd.childs.filter (fun c => c ≠ child_index) })

/-- The breadth-first deletion loop of `hash_tree::erase`: pop the queue
front, enqueue its children, erase it from the store. -/
def cascade {K V : Type} :
    Nat → sparse_vector (hash_tree_node K V) → List Nat →
    Option (sparse_vector (hash_tree_node K V))
  | _, nodes, [] => some nodes
  | 0, _, _ :: _ => none
  | fuel + 1, nodes, q :: rest =>
    match nodes.get q with
    | none => none
    | some nd => cascade fuel (nodes.eraseSlot q) (rest ++ nd.childs)

/-- `hash_tree::clear`: unset the root, clear the bucket table and the store.
Note the bucket table is left with zero buckets. -/
def hash_tree.clear {K V : Type} (_ht : hash_tree K V) : hash_tree K V :=
  ⟨⟨[]⟩, [], _EMPTY_INDEX⟩

/-- `hash_tree::erase`: erasing the root clears the whole map; otherwise
unlink the node from its parent, cascade-delete its subtree breadth-first,
then shrink-and-rehash if the load factor fell below MIN_LOAD. -/
def hash_tree.erase {K V : Type} [DecidableEq K] (hasher : K → Nat)
    (ht : hash_tree K V) (key : K) : Option (hash_tree K V) := do
  let i ← ht.index hasher key
  if i = ht._head_index then
    return ht.clear
  else
    let nodes1 ←
      match ht._nodes.get i with
      | none => none
      | some nd =>
        if nd.parent_index ≠ _EMPTY_INDEX then remove_child ht._nodes i
        else some ht._nodes
    let nodes2 ← cascade (nodes1.size + 1) nodes1 [i]
    let ht1 : hash_tree K V := { ht with _nodes := nodes2 }
    if 5 * ht1.size < ht1.table_size then
      ht1.rehash (ht1.table_size / 2)
    else
      return ht1

/-- The non-positional `hash_tree::_set_parent` (the positional overload of
`set_parent` redeclares its own parameter and is ill-formed): unlink from
the old parent if any, append at the end of the new parent's children, and
update the parent link.  The caller takes the insertion iterator (declared
with the slot store's iterator type, though a child-list iterator is
passed) before the unlink runs; we model the intended append at the end of
the new parent's child list. -/
def _set_parent {K V : Type} (nodes : sparse_vector (hash_tree_node K V))
    (i parent_index : Nat) : Option (sparse_vector (hash_tree_node K V)) := do
  let nodes1 ←
    match nodes.get i with
    | none => none
    | some nd =>
      if nd.parent_index ≠ _EMPTY_INDEX then remove_child nodes i
      else some nodes
  match nodes1.get parent_index with
  | none => none
  | some pnd =>
    let nodes2 := nodes1.setSlot parent_index { pnd with childs := pnd.childs ++ [i] }
    match nodes2.get i with
    | none => none
    | some nd => some (nodes2.setSlot i { nd with parent_index := parent_index })

/-- `hash_tree::set_parent` (two-argument form). -/
def hash_tree.set_parent {K V : Type} [DecidableEq K] (hasher : K → Nat)
    (ht : hash_tree K V) (key new_parent : K) : Option (hash_tree K V) := do
  let i ← ht.index hasher key
  let p ← ht.index hasher new_parent
  let nodes ← _set_parent ht._nodes i p
  return { ht with _nodes := nodes }

/-- `hash_tree::at`: resolve the key and return the stored value; an
unresolved key indexes the store with the empty sentinel (undefined
behaviour in the source, `none` here). -/
def hash_tree.at_ {K V : Type} [DecidableEq K] (hasher : K → Nat)
    (ht : hash_tree K V) (key : K) : Option V := do
  let i ← ht.index hasher key
  match ht._nodes.get i with
  | none => none
  | some nd => return nd.value

/-- The breadth-first iterator: a node array view, the materialised
visitation sequence, and the position counter. -/
structure hash_tree_iterator (K V : Type) where
  _nodes : sparse_vector (hash_tree_node K V)
  _visit : List Nat
  _index : Nat
  deriving DecidableEq, Repr

/-- Iterator dereference `_nodes[_visit[_index]].pair.second`. -/
def hash_tree_iterator.deref {K V : Type} (it : hash_tree_iterator K V) :
    Option V :=
  match lGet it._visit it._index with
  | none => none
  | some s =>
    match it._nodes.get s with
    | none => none
    | some nd => some nd.value

/-- Iterator increment: append all children of the node at the current
position to the visitation sequence, then advance the position. -/
def hash_tree_iterator.step {K V : Type} (it : hash_tree_iterator K V) :
    Option (hash_tree_iterator K V) :=
  match lGet it._visit it._index with
  | none => none
  | some s =>
    match it._nodes.get s with
    | none => none
    | some nd =>
      some { it with _visit := it._visit ++ nd.childs, _index := it._index + 1 }

/-- Iterator equality compares position counters only. -/
def hash_tree_iterator.eqIter {K V : Type} (a b : hash_tree_iterator K V) : Prop :=
  a._index = b._index

instance {K V : Type} (a b : hash_tree_iterator K V) : Decidable (a.eqIter b) := by
  unfold hash_tree_iterator.eqIter; infer_instance

def hash_tree.begin {K V : Type} (ht : hash_tree K V) : hash_tree_iterator K V :=
  ⟨ht._nodes, [ht._head_index], 0⟩

def hash_tree.end_ {K V : Type} (ht : hash_tree K V) : hash_tree_iterator K V :=
  ⟨ht._nodes, [ht._head_index], ht.size⟩

/-- Iterate `operator++` n times. -/
def stepN {K V : Type} : Nat → hash_tree_iterator K V → Option (hash_tree_iterator K V)
  | 0, it => some it
  | n + 1, it => (it.step).bind (stepN n)

/-- A public operation of the container. -/
inductive Op (K V : Type) where
  | ins (key : K) (value : V)
  | insP (key : K) (value : V) (parent : K)
  | er (key : K)
  | setPar (key : K) (newParent : K)
  deriving DecidableEq, Repr

/-- One public operation, exactly as the source performs it. -/
def step {K V : Type} [DecidableEq K] (hasher : K → Nat)
    (ht : hash_tree K V) : Op K V → Option (hash_tree K V)
  | Op.ins k v => ht.insert hasher k v
  | Op.insP k v p => ht.insert_with_parent hasher k v p
  | Op.er k => ht.erase hasher k
  | Op.setPar k p => ht.set_parent hasher k p

/-- Run a list of public operations from the freshly constructed container. -/
def runFrom {K V : Type} [DecidableEq K] (hasher : K → Nat)
    (ht : hash_tree K V) : List (Op K V) → Option (hash_tree K V)
  | [] => some ht
  | op :: ops => (step hasher ht op).bind (fun ht1 => runFrom hasher ht1 ops)

def run {K V : Type} [DecidableEq K] (hasher : K → Nat)
    (ops : List (Op K V)) : Option (hash_tree K V) :=
  runFrom hasher (hash_tree.init K V) ops

/-- The guarded public step: the same operations as `step`, restricted to
the preconditions under which the reference is well defined — an insert with
an explicit parent requires a non-empty map, and `set_parent` must not
target the slot stored as the root. -/
def stepSafe {K V : Type} [DecidableEq K] (hasher : K → Nat)
    (ht : hash_tree K V) : Op K V → Option (hash_tree K V)
  | Op.ins k v => ht.insert hasher k v
  | Op.insP k v p =>
      if ht.size = 0 then none else ht.insert_with_parent hasher k v p
  | Op.er k => ht.erase hasher k
  | Op.setPar k p =>
      match ht.index hasher k with
      | none => none
      | some i =>
        if i = ht._head_index then none else ht.set_parent hasher k p

def runSafeFrom {K V : Type} [DecidableEq K] (hasher : K → Nat)
    (ht : hash_tree K V) : List (Op K V) → Option (hash_tree K V)
  | [] => some ht
  | op :: ops => (stepSafe hasher ht op).bind (fun ht1 => runSafeFrom hasher ht1 ops)

def runSafe {K V : Type} [DecidableEq K] (hasher : K → Nat)
    (ops : List (Op K V)) : Option (hash_tree K V) :=
  runSafeFrom hasher (hash_tree.init K V) ops

/-- The load-factor slack the code actually maintains between public
operations: `size` may exceed `MAX_LOAD * table_size` by at most one node,
because the growth check runs before the node is stored. -/
def LoadInv {K V : Type} (ht : hash_tree K V) : Prop :=
  10 * ht.size ≤ 9 * ht.table_size + 10

/-- Record preservation sufficient to re-run a bucket-chain walk: every live
slot keeps its key, cached hash and value, and keeps its successor pointer
whenever that pointer was not the empty sentinel. -/
def NextPres {K V : Type} (nodes nodes' : sparse_vector (hash_tree_node K V)) : Prop :=
  ∀ j nd, nodes.get j = some nd → ∃ nd', nodes'.get j = some nd' ∧
    nd'.key = nd.key ∧ nd'.hash_value = nd.hash_value ∧ nd'.value = nd.value ∧
    (nd.next_index ≠ _EMPTY_INDEX → nd'.next_index = nd.next_index)

/-- The invariant of the breadth-first iteration after `m` increments from
`begin`: the position counter is `m`, the visitation sequence starts at the
root seed, holds only distinct live slots, every processed position has its
children appended contiguously at a later offset, and every entry except the
seed is a child of some processed entry. -/
def BfsInv {K V : Type} (ht : hash_tree K V) (m : Nat)
    (it : hash_tree_iterator K V) : Prop :=
  it._nodes = ht._nodes ∧
  it._index = m ∧
  lGet it._visit 0 = some ht._head_index ∧
  it._visit.Nodup ∧
  (∀ j ∈ it._visit, (ht._nodes.get j).isSome = true) ∧
  (∀ t, t < m → ∃ p nd off, lGet it._visit t = some p ∧
    ht._nodes.get p = some nd ∧ t < off ∧
    off + nd.childs.length ≤ it._visit.length ∧
    (∀ q c, lGet nd.childs q = some c → lGet it._visit (off + q) = some c)) ∧
  (∀ s c, 0 < s → lGet it._visit s = some c →
    ∃ t p nd, t < m ∧ lGet it._visit t = some p ∧
      ht._nodes.get p = some nd ∧ c ∈ nd.childs) ∧
  m ≤ it._visit.length

/-- Containment as the specification mandates it: the key resolves through
the hash index to a live slot.  Modelled from the spec: the source's
`contains` calls `index()` without its key argument, which does not name any
member overload and cannot compile, so this definition follows the spec's
words (lookup with the supplied key succeeds) for comparison. -/
def contains_spec {K V : Type} [DecidableEq K] (hasher : K → Nat)
    (ht : hash_tree K V) (key : K) : Bool :=
  match ht.index hasher key with
  | none => false
  | some i => i != _EMPTY_INDEX

/-! Concrete container states used as evaluation examples: each is the
result of running a short operation sequence from the fresh container with
`Nat` keys and the identity hasher. -/

/-- `run id [ins 0 0]`: a single root node. -/
def exSingle : hash_tree Nat Nat :=
  ⟨⟨[some ⟨0, 0, 0, [], _EMPTY_INDEX, _EMPTY_INDEX⟩]⟩, [0, _EMPTY_INDEX], 0⟩

/-- `exSingle.insert id 0 7`: a duplicate key 0 chained after the first. -/
def exSingleDup : hash_tree Nat Nat :=
  ⟨⟨[some ⟨0, 0, 0, [1], _EMPTY_INDEX, 1⟩, some ⟨0, 7, 0, [], 0, _EMPTY_INDEX⟩]⟩,
    [0, _EMPTY_INDEX], 0⟩

/-- `run id [ins 0 0, ins 1 1]`: a root with one child. -/
def exPair : hash_tree Nat Nat :=
  ⟨⟨[some ⟨0, 0, 0, [1], _EMPTY_INDEX, _EMPTY_INDEX⟩,
     some ⟨1, 1, 1, [], 0, _EMPTY_INDEX⟩]⟩, [0, 1], 0⟩

/-- `step id exPair (ins 2 2)`: the third insert doubles the table. -/
def exPairIns : hash_tree Nat Nat :=
  ⟨⟨[some ⟨0, 0, 0, [1, 2], _EMPTY_INDEX, _EMPTY_INDEX⟩,
     some ⟨1, 1, 1, [], 0, _EMPTY_INDEX⟩,
     some ⟨2, 2, 2, [], 0, _EMPTY_INDEX⟩]⟩, [0, 1, 2, _EMPTY_INDEX], 0⟩

/-- `run id [ins 0 0, ins 1 1, insP 2 2 1]`: a three-node chain. -/
def exChain3 : hash_tree Nat Nat :=
  ⟨⟨[some ⟨0, 0, 0, [1], _EMPTY_INDEX, _EMPTY_INDEX⟩,
     some ⟨1, 1, 1, [2], 0, _EMPTY_INDEX⟩,
     some ⟨2, 2, 2, [], 1, _EMPTY_INDEX⟩]⟩, [0, 1, 2, _EMPTY_INDEX], 0⟩

/-- `exChain3.erase id 1`: the subtree below the root removed. -/
def exChain3Erased : hash_tree Nat Nat :=
  ⟨⟨[some ⟨0, 0, 0, [], _EMPTY_INDEX, _EMPTY_INDEX⟩, none, none]⟩,
    [0, 1, 2, _EMPTY_INDEX], 0⟩

/-- `run id [insP 5 7 5]`: the parent key resolves to the freshly inserted
node itself, producing a self-linked node while the root stays unset. -/
def exSelfLoop : hash_tree Nat Nat :=
  ⟨⟨[some ⟨5, 7, 5, [0], 0, _EMPTY_INDEX⟩]⟩, [_EMPTY_INDEX, 0], _EMPTY_INDEX⟩

/-- `run id [ins 0 0, ins 1 1, setPar 0 1, er 1]`: reparenting the root and
erasing the new parent empties the store but leaves the root identifier set. -/
def exDangling : hash_tree Nat Nat :=
  ⟨⟨[none, none]⟩, [_EMPTY_INDEX], 0⟩

/-- `run id [ins 0 0, er 0]`: erasing the root clears the bucket table to
zero buckets. -/
def exCleared : hash_tree Nat Nat :=
  ⟨⟨[]⟩, [], _EMPTY_INDEX⟩

/-- `run id [ins 0 0, ins 1 1, insP 2 2 1, setPar 1 2]`: a detached
two-node cycle unreachable from the root. -/
def exCycle : hash_tree Nat Nat :=
  ⟨⟨[some ⟨0, 0, 0, [], _EMPTY_INDEX, _EMPTY_INDEX⟩,
     some ⟨1, 1, 1, [2], 2, _EMPTY_INDEX⟩,
     some ⟨2, 2, 2, [1], 1, _EMPTY_INDEX⟩]⟩, [0, 1, 2, _EMPTY_INDEX], 0⟩

/-- `run id [ins 0 0, insP 1 1 0, insP 2 2 1, ..., insP 8 8 7]`: a
nine-node chain grown to a sixteen-bucket table. -/
def exChain9 : hash_tree Nat Nat :=
  ⟨⟨[some ⟨0, 0, 0, [1], _EMPTY_INDEX, _EMPTY_INDEX⟩,
     some ⟨1, 1, 1, [2], 0, _EMPTY_INDEX⟩,
     some ⟨2, 2, 2, [3], 1, _EMPTY_INDEX⟩,
     some ⟨3, 3, 3, [4], 2, _EMPTY_INDEX⟩,
     some ⟨4, 4, 4, [5], 3, _EMPTY_INDEX⟩,
     some ⟨5, 5, 5, [6], 4, _EMPTY_INDEX⟩,
     some ⟨6, 6, 6, [7], 5, _EMPTY_INDEX⟩,
     some ⟨7, 7, 7, [8], 6, _EMPTY_INDEX⟩,
     some ⟨8, 8, 8, [], 7, _EMPTY_INDEX⟩]⟩,
    [0, 1, 2, 3, 4, 5, 6, 7, 8, _EMPTY_INDEX, _EMPTY_INDEX, _EMPTY_INDEX,
     _EMPTY_INDEX, _EMPTY_INDEX, _EMPTY_INDEX, _EMPTY_INDEX], 0⟩

/-- `step id exChain9 (er 1)`: erasing the root's child cascades through
the chain and halves the table, leaving the load factor below MIN_LOAD. -/
def exChain9Erased : hash_tree Nat Nat :=
  ⟨⟨[some ⟨0, 0, 0, [], _EMPTY_INDEX, _EMPTY_INDEX⟩,
     none, none, none, none, none, none, none, none]⟩,
    [0, _EMPTY_INDEX, _EMPTY_INDEX, _EMPTY_INDEX, _EMPTY_INDEX, _EMPTY_INDEX,
     _EMPTY_INDEX, _EMPTY_INDEX], 0⟩

/-! Basic facts about the list primitives and the slot store. -/

theorem lSet_length {α : Type} (l : List α) (i : Nat) (b : α) :
    (lSet l i b).length = l.length := by
  induction l generalizing i with
  | nil => rfl
  | cons a l ih =>
    cases i with
    | zero => rfl
    | succ n => simpa [lSet] using ih n

theorem lGet_some_lt {α : Type} {l : List α} {i : Nat} {a : α}
    (h : lGet l i = some a) : i < l.length := by
  induction l generalizing i with
  | nil => simp [lGet] at h
  | cons b l ih =>
    cases i with
    | zero => simp
    | succ n =>
      have := ih (i := n) (by simpa [lGet] using h)
      simp only [List.length_cons]
      omega

theorem lGet_eq_none {α : Type} {l : List α} {i : Nat}
    (h : l.length ≤ i) : lGet l i = none := by
  induction l generalizing i with
  | nil => rfl
  | cons b l ih =>
    cases i with
    | zero => simp at h
    | succ n => simpa [lGet] using ih (by simpa using h)

theorem lGet_lt_isSome {α : Type} {l : List α} {i : Nat}
    (h : i < l.length) : ∃ a, lGet l i = some a := by
  induction l generalizing i with
  | nil => simp at h
  | cons b l ih =>
    cases i with
    | zero => exact ⟨b, rfl⟩
    | succ n => simpa [lGet] using ih (by simpa using h)

theorem lGet_lSet_self {α : Type} {l : List α} {i : Nat} (b : α)
    (h : i < l.length) : lGet (lSet l i b) i = some b := by
  induction l generalizing i with
  | nil => simp at h
  | cons a l ih =>
    cases i with
    | zero => rfl
    | succ n => simpa [lGet, lSet] using ih (by simpa using h)

theorem lGet_lSet_ne {α : Type} (l : List α) {i j : Nat} (b : α)
    (h : j ≠ i) : lGet (lSet l i b) j = lGet l j := by
  induction l generalizing i j with
  | nil => rfl
  | cons a l ih =>
    cases i with
    | zero =>
      cases j with
      | zero => exact absurd rfl h
      | succ m => rfl
    | succ n =>
      cases j with
      | zero => rfl
      | succ m => simpa [lGet, lSet] using ih (i := n) (j := m) (by omega)

theorem lGet_append_left {α : Type} {l : List α} {i : Nat} (t : List α)
    (h : i < l.length) : lGet (l ++ t) i = lGet l i := by
  induction l generalizing i with
  | nil => simp at h
  | cons a l ih =>
    cases i with
    | zero => rfl
    | succ n => simpa [lGet] using ih (by simpa using h)

theorem lGet_append_right {α : Type} (l t : List α) (i : Nat) :
    lGet (l ++ t) (l.length + i) = lGet t i := by
  induction l with
  | nil => simp [lGet]
  | cons a l ih => simpa [lGet, Nat.succ_add] using ih

/-! Liveness and counting in the slot store. -/

def sparse_vector.live {α : Type} (sv : sparse_vector α) (i : Nat) : Prop :=
  (sv.get i).isSome = true

theorem svCount_le_length {α : Type} (l : List (Option α)) :
    svCount l ≤ l.length := by
  induction l with
  | nil => simp [svCount]
  | cons a l ih => cases a <;> simp [svCount] <;> omega

theorem sv_get_eq_lGet_join {α : Type} (sv : sparse_vector α) (i : Nat) :
    sv.get i = (lGet sv.data i).getD none := rfl

theorem sv_live_lt {α : Type} {sv : sparse_vector α} {i : Nat} {a : α}
    (h : sv.get i = some a) : i < sv.data.length := by
  rcases hll : lGet sv.data i with _ | o
  · rw [sparse_vector.get, hll] at h; simp at h
  · exact lGet_some_lt hll

theorem sv_get_of_lGet {α : Type} {sv : sparse_vector α} {i : Nat} {o : Option α}
    (h : lGet sv.data i = some o) : sv.get i = o := by
  rw [sparse_vector.get, h]; rfl

theorem sv_get_ge {α : Type} (sv : sparse_vector α) {i : Nat}
    (h : sv.data.length ≤ i) : sv.get i = none := by
  rw [sparse_vector.get, lGet_eq_none h]; rfl

theorem sv_get_lt_cases {α : Type} (sv : sparse_vector α) {i : Nat}
    (h : i < sv.data.length) : lGet sv.data i = some (sv.get i) := by
  rcases lGet_lt_isSome h with ⟨o, ho⟩
  rw [sparse_vector.get, ho]; cases o <;> rfl

theorem sv_setSlot_get_self {α : Type} {sv : sparse_vector α} {i : Nat} (a : α)
    (h : i < sv.data.length) : (sv.setSlot i a).get i = some a := by
  rw [sparse_vector.get, sparse_vector.setSlot, lGet_lSet_self _ (by simpa using h)]; rfl

theorem sv_setSlot_get_ne {α : Type} (sv : sparse_vector α) {i j : Nat} (a : α)
    (h : j ≠ i) : (sv.setSlot i a).get j = sv.get j := by
  rw [sparse_vector.get, sparse_vector.setSlot, lGet_lSet_ne _ _ h]; rfl

theorem sv_eraseSlot_get_self {α : Type} (sv : sparse_vector α) (i : Nat) :
    (sv.eraseSlot i).get i = none := by
  rcases Nat.lt_or_ge i sv.data.length with h | h
  · rw [sparse_vector.get, sparse_vector.eraseSlot, lGet_lSet_self _ (by simpa using h)]; rfl
  · rw [sparse_vector.get, sparse_vector.eraseSlot, lGet_eq_none (by simpa [lSet_length] using h)]
    rfl

theorem sv_eraseSlot_get_ne {α : Type} (sv : sparse_vector α) {i j : Nat}
    (h : j ≠ i) : (sv.eraseSlot i).get j = sv.get j := by
  rw [sparse_vector.get, sparse_vector.eraseSlot, lGet_lSet_ne _ _ h]; rfl

theorem sv_setSlot_length {α : Type} (sv : sparse_vector α) (i : Nat) (a : α) :
    (sv.setSlot i a).data.length = sv.data.length := by
  simp [sparse_vector.setSlot, lSet_length]

theorem sv_eraseSlot_length {α : Type} (sv : sparse_vector α) (i : Nat) :
    (sv.eraseSlot i).data.length = sv.data.length := by
  simp [sparse_vector.eraseSlot, lSet_length]

theorem svCount_lSet_none {α : Type} {l : List (Option α)} {i : Nat} {a : α}
    (h : lGet l i = some (some a)) :
    svCount (lSet l i none) + 1 = svCount l := by
  induction l generalizing i with
  | nil => simp [lGet] at h
  | cons o l ih =>
    cases i with
    | zero =>
      cases o with
      | none => simp [lGet] at h
      | some b => simp [lSet, svCount]
    | succ n =>
      have := ih (i := n) (by simpa [lGet] using h)
      cases o <;> simp [lSet, svCount] <;> omega

theorem svCount_lSet_some {α : Type} {l : List (Option α)} {i : Nat} (a : α)
    (h : lGet l i = some none) :
    svCount (lSet l i (some a)) = svCount l + 1 := by
  induction l generalizing i with
  | nil => simp [lGet] at h
  | cons o l ih =>
    cases i with
    | zero =>
      cases o with
      | none => simp [lSet, svCount]
      | some b => simp [lGet] at h
    | succ n =>
      have := ih (i := n) (by simpa [lGet] using h)
      cases o <;> simp [lSet, svCount] <;> omega

theorem svCount_lSet_some_of_some {α : Type} {l : List (Option α)} {i : Nat} (a : α) {b : α}
    (h : lGet l i = some (some b)) :
    svCount (lSet l i (some a)) = svCount l := by
  induction l generalizing i with
  | nil => simp [lGet] at h
  | cons o l ih =>
    cases i with
    | zero =>
      cases o with
      | none => simp [lGet] at h
      | some c => simp [lSet, svCount]
    | succ n =>
      have := ih (i := n) (by simpa [lGet] using h)
      cases o <;> simp [lSet, svCount] <;> omega

theorem svCount_append_some {α : Type} (l : List (Option α)) (a : α) :
    svCount (l ++ [some a]) = svCount l + 1 := by
  induction l with
  | nil => simp [svCount]
  | cons o l ih => cases o <;> simp [svCount, ih]

theorem sv_setSlot_size_of_live {α : Type} {sv : sparse_vector α} {i : Nat} (a : α) {b : α}
    (h : sv.get i = some b) : (sv.setSlot i a).size = sv.size := by
  have hlt : i < sv.data.length := sv_live_lt h
  have := sv_get_lt_cases sv hlt
  rw [h] at this
  exact svCount_lSet_some_of_some a this

theorem sv_eraseSlot_size {α : Type} {sv : sparse_vector α} {i : Nat} {b : α}
    (h : sv.get i = some b) : (sv.eraseSlot i).size + 1 = sv.size := by
  have hlt : i < sv.data.length := sv_live_lt h
  have := sv_get_lt_cases sv hlt
  rw [h] at this
  exact svCount_lSet_none this

/-- A duplicate-free list of live slots cannot be longer than the live count. -/
theorem nodup_live_length_le {α : Type} :
    ∀ (L : List Nat) (sv : sparse_vector α), L.Nodup →
      (∀ s ∈ L, (sv.get s).isSome = true) → L.length ≤ sv.size
  | [], _, _, _ => Nat.zero_le _
  | s :: L, sv, hnd, hlive => by
    have hs : (sv.get s).isSome = true := hlive s (by simp)
    rcases Option.isSome_iff_exists.mp hs with ⟨a, ha⟩
    have hrec := nodup_live_length_le L (sv.eraseSlot s)
      (List.Nodup.of_cons hnd)
      (by
        intro x hx
        have hxs : x ≠ s := by
          intro he; exact (List.nodup_cons.mp hnd).1 (he ▸ hx)
        rw [sv_eraseSlot_get_ne _ hxs]
        exact hlive x (by simp [hx]))
    have hsz := sv_eraseSlot_size ha
    simp only [List.length_cons]
    omega

/-- svFree finds a dead in-range slot. -/
theorem svFree_spec {α : Type} {l : List (Option α)} {i : Nat}
    (h : svFree l = some i) : lGet l i = some none := by
  induction l generalizing i with
  | nil => simp [svFree] at h
  | cons o l ih =>
    cases o with
    | none =>
      simp [svFree] at h
      simp [← h, lGet]
    | some a =>
      simp only [svFree, Option.map_eq_some'] at h
      rcases h with ⟨n, hn, hfn⟩
      subst hfn
      simpa [lGet] using ih hn

theorem emplace_cases {α : Type} (sv : sparse_vector α) (a : α) :
    (∃ i, svFree sv.data = some i ∧ lGet sv.data i = some none ∧
        sv.emplace a = (i, sv.setSlot i a)) ∨
      (svFree sv.data = none ∧
        sv.emplace a = (sv.data.length, ⟨sv.data ++ [some a]⟩)) := by
  rw [sparse_vector.emplace]
  rcases hf : svFree sv.data with _ | i
  · exact Or.inr ⟨rfl, rfl⟩
  · exact Or.inl ⟨i, rfl, svFree_spec hf, rfl⟩

theorem emplace_fresh {α : Type} (sv : sparse_vector α) (a : α) :
    sv.get (sv.emplace a).1 = none := by
  rcases emplace_cases sv a with ⟨i, _, hge, he⟩ | ⟨_, he⟩ <;> rw [he]
  · simpa using sv_get_of_lGet hge
  · exact sv_get_ge sv (Nat.le_refl _)

theorem emplace_get_self {α : Type} (sv : sparse_vector α) (a : α) :
    (sv.emplace a).2.get (sv.emplace a).1 = some a := by
  rcases emplace_cases sv a with ⟨i, _, hge, he⟩ | ⟨_, he⟩ <;> rw [he]
  · exact sv_setSlot_get_self a (lGet_some_lt hge)
  · show sparse_vector.get _ _ = _
    rw [sparse_vector.get]
    have h0 : lGet (sv.data ++ [some a]) (sv.data.length + 0) = some (some a) := by
      rw [lGet_append_right]; rfl
    rw [show sv.data.length + 0 = sv.data.length from rfl] at h0
    rw [h0]
    rfl

theorem emplace_get_ne {α : Type} (sv : sparse_vector α) (a : α) {j : Nat}
    (h : j ≠ (sv.emplace a).1) : (sv.emplace a).2.get j = sv.get j := by
  rcases emplace_cases sv a with ⟨i, _, hge, he⟩ | ⟨_, he⟩ <;> rw [he] at h ⊢
  · exact sv_setSlot_get_ne sv _ h
  · show sparse_vector.get _ _ = _
    simp only at h
    rcases Nat.lt_or_ge j sv.data.length with hj | hj
    · rw [sparse_vector.get, sparse_vector.get, lGet_append_left _ hj]
    · have hj2 : sv.data.length + 1 ≤ j := by omega
      rw [sv_get_ge _ hj, sparse_vector.get, lGet_eq_none (by simpa using hj2)]
      rfl

theorem emplace_size {α : Type} (sv : sparse_vector α) (a : α) :
    (sv.emplace a).2.size = sv.size + 1 := by
  rcases emplace_cases sv a with ⟨i, _, hge, he⟩ | ⟨_, he⟩ <;> rw [he]
  · exact svCount_lSet_some a hge
  · exact svCount_append_some _ _

theorem emplace_length {α : Type} (sv : sparse_vector α) (a : α) :
    (sv.emplace a).2.data.length = sv.data.length ∨
      (sv.emplace a).2.data.length = sv.data.length + 1 := by
  rcases emplace_cases sv a with ⟨i, _, hge, he⟩ | ⟨_, he⟩ <;> rw [he]
  · left; exact sv_setSlot_length sv i a
  · right; simp

theorem emplace_idx_le {α : Type} (sv : sparse_vector α) (a : α) :
    (sv.emplace a).1 ≤ sv.data.length := by
  rcases emplace_cases sv a with ⟨i, _, hge, he⟩ | ⟨_, he⟩
  · rw [he]; exact Nat.le_of_lt (lGet_some_lt hge)
  · rw [he]

/-! The hash index (rehash, chain insertion) never changes the tree data of
a node: key, value, children and parent link are preserved, only
`next_index` fields and the bucket table move. -/

def treeView {K V : Type} (nd : hash_tree_node K V) : K × V × Nat × List Nat × Nat :=
  (nd.key, nd.value, nd.hash_value, nd.childs, nd.parent_index)

def sameTree {K V : Type} (n n' : sparse_vector (hash_tree_node K V)) : Prop :=
  ∀ i, (n.get i).map treeView = (n'.get i).map treeView

theorem sameTree_refl {K V : Type} (n : sparse_vector (hash_tree_node K V)) :
    sameTree n n := fun _ => rfl

theorem sameTree_trans {K V : Type}
    {a b c : sparse_vector (hash_tree_node K V)}
    (h1 : sameTree a b) (h2 : sameTree b c) : sameTree a c :=
  fun i => (h1 i).trans (h2 i)

theorem sameTree_symm {K V : Type}
    {a b : sparse_vector (hash_tree_node K V)}
    (h : sameTree a b) : sameTree b a :=
  fun i => (h i).symm

theorem sameTree_get_some {K V : Type}
    {n n' : sparse_vector (hash_tree_node K V)}
    (h : sameTree n n') {i : Nat} {nd : hash_tree_node K V}
    (hg : n.get i = some nd) :
    ∃ nd', n'.get i = some nd' ∧ nd'.key = nd.key ∧ nd'.value = nd.value ∧
      nd'.hash_value = nd.hash_value ∧
      nd'.childs = nd.childs ∧ nd'.parent_index = nd.parent_index := by
  have := h i
  rw [hg] at this
  rcases hg' : n'.get i with _ | nd'
  · rw [hg'] at this; simp at this
  · rw [hg'] at this
    simp only [Option.map_some', Option.some.injEq, treeView, Prod.mk.injEq] at this
    exact ⟨nd', rfl, this.1.symm, this.2.1.symm, this.2.2.1.symm, this.2.2.2.1.symm,
      this.2.2.2.2.symm⟩

theorem sameTree_get_none {K V : Type}
    {n n' : sparse_vector (hash_tree_node K V)}
    (h : sameTree n n') {i : Nat} (hg : n.get i = none) : n'.get i = none := by
  have := h i
  rw [hg] at this
  rcases hg' : n'.get i with _ | nd'
  · rfl
  · rw [hg'] at this; simp at this

theorem sameTree_setSlot_next {K V : Type}
    (n : sparse_vector (hash_tree_node K V)) {i : Nat}
    {nd : hash_tree_node K V} (hg : n.get i = some nd) (x : Nat) :
    sameTree n (n.setSlot i { nd with next_index := x }) := by
  intro j
  by_cases hj : j = i
  · subst hj
    rw [hg, sv_setSlot_get_self _ (sv_live_lt hg)]
    rfl
  · rw [sv_setSlot_get_ne _ _ hj]

theorem insert_map_chain_props {K V : Type}
    {x : Nat} :
    ∀ {fuel i : Nat} {nodes out : sparse_vector (hash_tree_node K V)},
      insert_map_chain nodes x fuel i = some out →
      sameTree nodes out ∧ out.size = nodes.size ∧
        out.data.length = nodes.data.length
  | 0, _, _, _, h => by simp [insert_map_chain] at h
  | fuel + 1, i, nodes, out, h => by
    rw [insert_map_chain] at h
    split at h
    · exact absurd h (by simp)
    · next nd hg =>
      split at h
      · cases h
        exact ⟨sameTree_setSlot_next nodes hg x,
          sv_setSlot_size_of_live _ hg, sv_setSlot_length _ _ _⟩
      · exact insert_map_chain_props h

theorem insert_map_props {K V : Type}
    {ht ht' : hash_tree K V} {b x : Nat}
    (h : ht.insert_map b x = some ht') :
    ht'._head_index = ht._head_index ∧ sameTree ht._nodes ht'._nodes ∧
      ht'.size = ht.size ∧ ht'._nodes.data.length = ht._nodes.data.length ∧
      ht'._table.length = ht._table.length := by
  rw [hash_tree.insert_map] at h
  split at h
  · exact absurd h (by simp)
  · split at h
    · cases h
      exact ⟨rfl, sameTree_refl _, rfl, rfl, lSet_length _ _ _⟩
    · rcases Option.map_eq_some'.mp h with ⟨nodes, hn, rfl⟩
      rcases insert_map_chain_props hn with ⟨h1, h2, h3⟩
      exact ⟨rfl, h1, h2, h3, rfl⟩

theorem lGet_map {α β : Type} (f : α → β) :
    ∀ (l : List α) (i : Nat), lGet (l.map f) i = (lGet l i).map f
  | [], _ => rfl
  | _ :: _, 0 => rfl
  | _ :: l, n + 1 => lGet_map f l n

theorem svCount_map {α β : Type} (f : α → β) :
    ∀ l : List (Option α), svCount (l.map (Option.map f)) = svCount l
  | [] => rfl
  | none :: l => by simpa [svCount] using svCount_map f l
  | some _ :: l => by simpa [svCount] using svCount_map f l

/-- A generic invariant for `foldlM` over `Option`. -/
theorem foldlM_invariant {β σ : Type} (P : σ → Prop) (f : σ → β → Option σ) :
    ∀ (l : List β) (init res : σ),
      (∀ s b s', P s → f s b = some s' → P s') →
      P init → l.foldlM f init = some res → P res
  | [], init, res, _, hinit, h => by
    simp only [List.foldlM_nil, Option.pure_def, Option.some.injEq] at h
    exact h ▸ hinit
  | b :: l, init, res, hstep, hinit, h => by
    simp only [List.foldlM_cons, Option.bind_eq_bind] at h
    rcases Option.bind_eq_some.mp h with ⟨s1, hs1, hrest⟩
    exact foldlM_invariant P f l s1 res hstep (hstep init b s1 hinit hs1) hrest

theorem sameTree_map_next {K V : Type} (n : sparse_vector (hash_tree_node K V)) :
    sameTree n
      ⟨n.data.map (Option.map (fun nd => { nd with next_index := _EMPTY_INDEX }))⟩ := by
  intro i
  show (n.get i).map treeView = ((lGet (n.data.map _) i).getD none).map treeView
  rw [lGet_map]
  rcases hg : lGet n.data i with _ | o
  · rw [sparse_vector.get, hg]; rfl
  · rw [sparse_vector.get, hg]; cases o <;> rfl

theorem rehash_props {K V : Type} {ht ht' : hash_tree K V} {n : Nat}
    (h : ht.rehash n = some ht') :
    ht'._head_index = ht._head_index ∧ sameTree ht._nodes ht'._nodes ∧
      ht'.size = ht.size ∧ ht'._nodes.data.length = ht._nodes.data.length ∧
      ht'._table.length = n := by
  rw [hash_tree.rehash] at h
  set nodes1 : sparse_vector (hash_tree_node K V) :=
    ⟨ht._nodes.data.map (Option.map (fun nd => { nd with next_index := _EMPTY_INDEX }))⟩
    with hn1
  have hsame1 : sameTree ht._nodes nodes1 := by
    rw [hn1]; exact sameTree_map_next ht._nodes
  have hsz1 : nodes1.size = ht.size := by
    rw [hn1]; exact svCount_map _ _
  have hlen1 : nodes1.data.length = ht._nodes.data.length := by
    rw [hn1]; simp
  set ht1 : hash_tree K V :=
    { ht with _nodes := nodes1, _table := List.replicate n _EMPTY_INDEX } with hht1
  have := foldlM_invariant
    (fun acc : hash_tree K V =>
      acc._head_index = ht._head_index ∧ sameTree ht._nodes acc._nodes ∧
        acc.size = ht.size ∧ acc._nodes.data.length = ht._nodes.data.length ∧
        acc._table.length = n)
    _ _ ht1 ht'
    (by
      intro s i s' hP hstep
      rcases hP with ⟨p1, p2, p3, p4, p5⟩
      split at hstep
      · cases hstep
        exact ⟨p1, p2, p3, p4, p5⟩
      · simp only [Option.bind_eq_bind] at hstep
        rcases Option.bind_eq_some.mp hstep with ⟨b, _, him⟩
        rcases insert_map_props him with ⟨q1, q2, q3, q4, q5⟩
        exact ⟨q1.trans p1, sameTree_trans p2 q2, q3.trans p3, q4.trans p4,
          q5.trans p5⟩)
    (by
      refine ⟨rfl, hsame1, hsz1, hlen1, ?_⟩
      simp [hht1])
    h
  exact this

/-! Lookup characterisation: whenever `index` resolves a key to a non-empty
slot, that slot is live and its node matches the key's hash and the key. -/

theorem index_chain_live {K V : Type} [DecidableEq K]
    {nodes : sparse_vector (hash_tree_node K V)} {hv : Nat} {key : K} :
    ∀ {fuel i r : Nat}, index_chain nodes hv key fuel i = some r →
      r ≠ _EMPTY_INDEX →
      ∃ nd, nodes.get r = some nd ∧ nd.hash_value = hv ∧ nd.key = key
  | 0, _, _, h, _ => by simp [index_chain] at h
  | fuel + 1, i, r, h, hr => by
    rw [index_chain] at h
    split at h
    · exact absurd h (by simp)
    · next nd hg =>
      split at h
      · split at h
        · next hm => cases h; exact ⟨nd, hg, hm.1, hm.2⟩
        · cases h; exact absurd rfl hr
      · split at h
        · next hm => cases h; exact ⟨nd, hg, hm.1, hm.2⟩
        · exact index_chain_live h hr

theorem index_live {K V : Type} [DecidableEq K] {hasher : K → Nat}
    {ht : hash_tree K V} {key : K} {r : Nat}
    (h : ht.index hasher key = some r) (hr : r ≠ _EMPTY_INDEX) :
    ∃ nd, ht._nodes.get r = some nd ∧ nd.hash_value = hasher key ∧
      nd.key = key := by
  rw [hash_tree.index] at h
  simp only [Option.bind_eq_bind] at h
  rcases Option.bind_eq_some.mp h with ⟨b, _, h2⟩
  split at h2
  · exact absurd h2 (by simp)
  · split at h2
    · simp only [Option.pure_def, Option.some.injEq] at h2
      exact absurd h2.symm hr
    · exact index_chain_live h2 hr

/-! Well-formedness: the inductive invariant that all public operations
preserve (as long as no reparent targets the root and no insert with an
explicit parent runs on an empty map). -/

structure WF {K V : Type} (ht : hash_tree K V) : Prop where
  len_lt : ht._nodes.data.length < _EMPTY_INDEX
  head_iff : ht._head_index = _EMPTY_INDEX ↔ ht.size = 0
  head_live : ht._head_index ≠ _EMPTY_INDEX →
    (ht._nodes.get ht._head_index).isSome = true
  head_root : ∀ hd, ht._nodes.get ht._head_index = some hd →
    hd.parent_index = _EMPTY_INDEX
  parent_link : ∀ i nd, ht._nodes.get i = some nd → i ≠ ht._head_index →
    nd.parent_index ≠ _EMPTY_INDEX ∧
      ∃ pnd, ht._nodes.get nd.parent_index = some pnd ∧ i ∈ pnd.childs
  child_link : ∀ i nd, ht._nodes.get i = some nd → ∀ j ∈ nd.childs,
    ∃ jnd, ht._nodes.get j = some jnd ∧ jnd.parent_index = i
  childs_nodup : ∀ i nd, ht._nodes.get i = some nd → nd.childs.Nodup

theorem wf_live_ne_empty {K V : Type} {ht : hash_tree K V} (hwf : WF ht)
    {i : Nat} {nd : hash_tree_node K V} (h : ht._nodes.get i = some nd) :
    i ≠ _EMPTY_INDEX := by
  have h1 : i < ht._nodes.data.length := sv_live_lt h
  have h2 := hwf.len_lt
  omega

theorem wf_head_notin_childs {K V : Type} {ht : hash_tree K V} (hwf : WF ht)
    {i : Nat} {nd : hash_tree_node K V} (h : ht._nodes.get i = some nd) :
    ht._head_index ∉ nd.childs := by
  intro hmem
  rcases hwf.child_link i nd h ht._head_index hmem with ⟨jnd, hj, hp⟩
  have := hwf.head_root jnd hj
  rw [this] at hp
  exact wf_live_ne_empty hwf h hp.symm

theorem wf_unique_parent {K V : Type} {ht : hash_tree K V} (hwf : WF ht)
    {i k j : Nat} {ndi ndk : hash_tree_node K V}
    (hi : ht._nodes.get i = some ndi) (hk : ht._nodes.get k = some ndk)
    (hji : j ∈ ndi.childs) (hjk : j ∈ ndk.childs) : i = k := by
  rcases hwf.child_link i ndi hi j hji with ⟨jnd, hj, hp⟩
  rcases hwf.child_link k ndk hk j hjk with ⟨jnd', hj', hp'⟩
  rw [hj] at hj'
  cases hj'
  rw [← hp, ← hp']

/-- The single-root property claimed by the specification: every live node
with an empty parent link is the stored root, and the map is empty exactly
when the stored root identifier is the empty sentinel. -/
def C1Prop {K V : Type} (ht : hash_tree K V) : Prop :=
  (∀ i nd, ht._nodes.get i = some nd → nd.parent_index = _EMPTY_INDEX →
    i = ht._head_index) ∧
  (ht.size = 0 ↔ ht._head_index = _EMPTY_INDEX)

theorem wf_c1prop {K V : Type} {ht : hash_tree K V} (hwf : WF ht) : C1Prop ht := by
  constructor
  · intro i nd hg hp
    by_contra hne
    exact (hwf.parent_link i nd hg hne).1 hp
  · exact Iff.symm hwf.head_iff

/-- Executable well-formedness check for one slot. -/
def nodeOKb {K V : Type} (nodes : sparse_vector (hash_tree_node K V))
    (head i : Nat) : Bool :=
  match nodes.get i with
  | none => true
  | some nd =>
    (if i = head then true
     else
       (!(nd.parent_index == _EMPTY_INDEX)) &&
       (match nodes.get nd.parent_index with
        | none => false
        | some pnd => decide (i ∈ pnd.childs))) &&
    (nd.childs.all (fun j =>
       match nodes.get j with
       | none => false
       | some jnd => jnd.parent_index == i)) &&
    decide nd.childs.Nodup

/-- Executable well-formedness check for the whole container. -/
def wfb {K V : Type} (ht : hash_tree K V) : Bool :=
  decide (ht._nodes.data.length < _EMPTY_INDEX) &&
  (decide (ht._head_index = _EMPTY_INDEX) == decide (ht.size = 0)) &&
  (if ht._head_index = _EMPTY_INDEX then true
   else (ht._nodes.get ht._head_index).isSome) &&
  (match ht._nodes.get ht._head_index with
   | none => true
   | some hd => hd.parent_index == _EMPTY_INDEX) &&
  (List.range ht._nodes.data.length).all
    (fun i => nodeOKb ht._nodes ht._head_index i)

theorem wf_of_wfb {K V : Type} {ht : hash_tree K V} (h : wfb ht = true) :
    WF ht := by
  rw [wfb] at h
  simp only [Bool.and_eq_true, beq_iff_eq, decide_eq_true_eq,
    List.all_eq_true, List.mem_range] at h
  rcases h with ⟨⟨⟨⟨h1, h2⟩, h3⟩, h4⟩, h5⟩
  have hnode : ∀ i nd, ht._nodes.get i = some nd →
      nodeOKb ht._nodes ht._head_index i = true := by
    intro i nd hg
    exact h5 i (sv_live_lt hg)
  refine ⟨h1, ?_, ?_, ?_, ?_, ?_, ?_⟩
  · constructor
    · intro hh
      have : decide (ht._head_index = _EMPTY_INDEX) = true := decide_eq_true hh
      rw [this] at h2
      exact of_decide_eq_true h2.symm
    · intro hs
      have : decide (ht.size = 0) = true := decide_eq_true hs
      rw [this] at h2
      exact of_decide_eq_true h2
  · intro hh
    rw [if_neg hh] at h3
    exact h3
  · intro hd hg
    rw [hg] at h4
    exact of_decide_eq_true h4
  · intro i nd hg hne
    have hb := hnode i nd hg
    rw [nodeOKb, hg] at hb
    simp only [Bool.and_eq_true] at hb
    have hb1 := hb.1.1
    rw [if_neg hne] at hb1
    simp only [Bool.and_eq_true, Bool.not_eq_true'] at hb1
    refine ⟨by simpa using hb1.1, ?_⟩
    rcases hg2 : ht._nodes.get nd.parent_index with _ | pnd <;> rw [hg2] at hb1
    · exact absurd hb1.2 (by simp)
    · exact ⟨pnd, rfl, of_decide_eq_true hb1.2⟩
  · intro i nd hg j hj
    have hb := hnode i nd hg
    rw [nodeOKb, hg] at hb
    simp only [Bool.and_eq_true, List.all_eq_true] at hb
    have := hb.1.2 j hj
    rcases hg2 : ht._nodes.get j with _ | jnd <;> rw [hg2] at this
    · exact absurd this (by simp)
    · exact ⟨jnd, rfl, by simpa using this⟩
  · intro i nd hg
    have hb := hnode i nd hg
    rw [nodeOKb, hg] at hb
    simp only [Bool.and_eq_true] at hb
    exact of_decide_eq_true hb.2

/-! Characterisation of `_insert`: it allocates exactly one fresh node
holding the key, the value, the cached hash, no children and no parent;
every other slot keeps its tree data; the size grows by one; the table
doubles exactly when the load factor check fires. -/

theorem _insert_tail_props {K V : Type} {htmid : hash_tree K V}
    {nd0 : hash_tree_node K V} {hv i : Nat} {ht' : hash_tree K V}
    (h : (mod? hv
        ({ htmid with
            _nodes := (htmid._nodes.emplace nd0).2 } : hash_tree K V).table_size).bind
      (fun b =>
        (({ htmid with
            _nodes := (htmid._nodes.emplace nd0).2 } : hash_tree K V).insert_map
            b (htmid._nodes.emplace nd0).1).bind
          (fun ht2 => pure ((htmid._nodes.emplace nd0).1, ht2))) = some (i, ht')) :
    ht'._head_index = htmid._head_index ∧
    htmid._nodes.get i = none ∧
    (∃ nd, ht'._nodes.get i = some nd ∧ treeView nd = treeView nd0) ∧
    (∀ j, j ≠ i →
      (htmid._nodes.get j).map treeView = (ht'._nodes.get j).map treeView) ∧
    ht'.size = htmid.size + 1 ∧
    i ≤ htmid._nodes.data.length ∧
    ht'._nodes.data.length ≤ htmid._nodes.data.length + 1 ∧
    ht'._table.length = htmid._table.length := by
  rcases Option.bind_eq_some.mp h with ⟨b, _, h3⟩
  rcases Option.bind_eq_some.mp h3 with ⟨ht2, him, hfin⟩
  simp only [Option.pure_def, Option.some.injEq, Prod.mk.injEq] at hfin
  rcases hfin with ⟨hi, hht'⟩
  subst hht'
  rcases insert_map_props him with ⟨q1, q2, q3, q4, q5⟩
  subst hi
  refine ⟨q1, ?_, ?_, ?_, ?_, ?_, ?_, q5⟩
  · exact emplace_fresh htmid._nodes nd0
  · rcases sameTree_get_some q2 (emplace_get_self htmid._nodes nd0) with
      ⟨nd', hg', e1, e2, e3, e4, e5⟩
    refine ⟨nd', hg', ?_⟩
    rw [treeView, treeView, e1, e2, e3, e4, e5]
  · intro j hj
    have e2 := emplace_get_ne htmid._nodes nd0 hj
    have e3 := q2 j
    rw [e2] at e3
    exact e3
  · rw [q3]
    show (htmid._nodes.emplace _).2.size = _
    rw [emplace_size]
    rfl
  · exact emplace_idx_le htmid._nodes nd0
  · rw [q4]
    show (htmid._nodes.emplace _).2.data.length ≤ _
    rcases emplace_length htmid._nodes nd0 with he | he <;> omega

theorem _insert_props {K V : Type} [DecidableEq K] {hasher : K → Nat}
    {ht : hash_tree K V} {k : K} {v : V} {i : Nat} {ht' : hash_tree K V}
    (h : ht._insert hasher k v = some (i, ht')) :
    ht'._head_index = ht._head_index ∧
    ht._nodes.get i = none ∧
    (∃ nd, ht'._nodes.get i = some nd ∧ nd.key = k ∧ nd.value = v ∧
      nd.hash_value = hasher k ∧ nd.childs = [] ∧
      nd.parent_index = _EMPTY_INDEX) ∧
    (∀ j, j ≠ i → (ht._nodes.get j).map treeView = (ht'._nodes.get j).map treeView) ∧
    ht'.size = ht.size + 1 ∧
    i ≤ ht._nodes.data.length ∧
    ht'._nodes.data.length ≤ ht._nodes.data.length + 1 ∧
    ((10 * ht.size ≤ 9 * ht.table_size ∧ ht'._table.length = ht._table.length) ∨
      (10 * ht.size > 9 * ht.table_size ∧
        ht'._table.length = 2 * ht.table_size)) := by
  rw [hash_tree._insert] at h
  simp only [Option.bind_eq_bind] at h
  split at h
  · next htrig =>
    rcases Option.bind_eq_some.mp h with ⟨y, hy, h2⟩
    rcases rehash_props hy with ⟨m1, m2, m3, m4, m5⟩
    rcases _insert_tail_props h2 with ⟨t1, t2, t3, t4, t5, t6, t7, t8⟩
    refine ⟨t1.trans m1, ?_, ?_, ?_, ?_, ?_, ?_, ?_⟩
    · rcases hg : ht._nodes.get i with _ | nd
      · rfl
      · rcases sameTree_get_some m2 hg with ⟨nd', hg', _⟩
        rw [t2] at hg'
        exact absurd hg' (by simp)
    · rcases t3 with ⟨nd, hg, htv⟩
      rw [treeView, treeView, Prod.mk.injEq, Prod.mk.injEq, Prod.mk.injEq,
        Prod.mk.injEq] at htv
      exact ⟨nd, hg, htv.1, htv.2.1, htv.2.2.1, htv.2.2.2.1, htv.2.2.2.2⟩
    · intro j hj
      exact (m2 j).trans (t4 j hj)
    · rw [t5, m3]
    · omega
    · omega
    · exact Or.inr ⟨htrig, by rw [t8, m5]; exact Nat.mul_comm _ _⟩
  · next htrig =>
    rw [Option.some_bind] at h
    rcases _insert_tail_props h with ⟨t1, t2, t3, t4, t5, t6, t7, t8⟩
    refine ⟨t1, t2, ?_, t4, t5, t6, t7, Or.inl ⟨by omega, t8⟩⟩
    rcases t3 with ⟨nd, hg, htv⟩
    rw [treeView, treeView, Prod.mk.injEq, Prod.mk.injEq, Prod.mk.injEq,
      Prod.mk.injEq] at htv
    exact ⟨nd, hg, htv.1, htv.2.1, htv.2.2.1, htv.2.2.2.1, htv.2.2.2.2⟩

/-! Reachability along children links, and the breadth-first deletion
cascade: under the tree invariants, the cascade deletes exactly the set of
slots reachable from the queued roots and touches nothing else. -/

inductive Reach {K V : Type} (nodes : sparse_vector (hash_tree_node K V))
    (root : Nat) : Nat → Prop where
  | refl : Reach nodes root root
  | step {p c : Nat} {nd : hash_tree_node K V} :
      Reach nodes root p → nodes.get p = some nd → c ∈ nd.childs →
      Reach nodes root c

theorem reach_trans {K V : Type} {nodes : sparse_vector (hash_tree_node K V)}
    {a b c : Nat} (h1 : Reach nodes a b) (h2 : Reach nodes b c) :
    Reach nodes a c := by
  induction h2 with
  | refl => exact h1
  | step _ hg hc ih => exact Reach.step ih hg hc

theorem reach_head_cases {K V : Type}
    {nodes : sparse_vector (hash_tree_node K V)} {q j : Nat}
    (h : Reach nodes q j) :
    j = q ∨ ∃ nd c, nodes.get q = some nd ∧ c ∈ nd.childs ∧ Reach nodes c j := by
  induction h with
  | refl => exact Or.inl rfl
  | step _ hg hc ih =>
    rcases ih with rfl | ⟨nd', c', hg', hc', hr⟩
    · exact Or.inr ⟨_, _, hg, hc, Reach.refl⟩
    · exact Or.inr ⟨nd', c', hg', hc', Reach.step hr hg hc⟩

/-- No live node lists `q` among its children. -/
def NoLiveInEdge {K V : Type} (nodes : sparse_vector (hash_tree_node K V))
    (q : Nat) : Prop :=
  ∀ p nd, nodes.get p = some nd → q ∉ nd.childs

theorem reach_ne_of_no_inedge {K V : Type}
    {nodes : sparse_vector (hash_tree_node K V)} {q x j : Nat}
    (hq : NoLiveInEdge nodes q) (h : Reach nodes x j) (hx : x ≠ q) : j ≠ q := by
  induction h with
  | refl => exact hx
  | step _ hg hc _ =>
    intro he
    exact hq _ _ hg (he ▸ hc)

theorem reach_erase_of {K V : Type}
    {nodes : sparse_vector (hash_tree_node K V)} {q x j : Nat}
    (hq : NoLiveInEdge nodes q) (hx : x ≠ q) (h : Reach nodes x j) :
    Reach (nodes.eraseSlot q) x j := by
  induction h with
  | refl => exact Reach.refl
  | step hp hg hc ih =>
    have hpq := reach_ne_of_no_inedge hq hp hx
    exact Reach.step ih (by rw [sv_eraseSlot_get_ne _ hpq]; exact hg) hc

theorem reach_of_erase {K V : Type}
    {nodes : sparse_vector (hash_tree_node K V)} {q x j : Nat}
    (h : Reach (nodes.eraseSlot q) x j) : Reach nodes x j := by
  induction h with
  | refl => exact Reach.refl
  | step hp hg hc ih =>
    next p c nd =>
    have hpq : p ≠ q := by
      intro he
      rw [he, sv_eraseSlot_get_self] at hg
      exact absurd hg (by simp)
    rw [sv_eraseSlot_get_ne _ hpq] at hg
    exact Reach.step ih hg hc

theorem reach_live {K V : Type}
    {nodes : sparse_vector (hash_tree_node K V)} {q j : Nat}
    (hcl : ∀ p nd, nodes.get p = some nd → ∀ c ∈ nd.childs,
      (nodes.get c).isSome = true)
    (h : Reach nodes q j) (hl : (nodes.get q).isSome = true) :
    (nodes.get j).isSome = true := by
  induction h with
  | refl => exact hl
  | step _ hg hc _ => exact hcl _ _ hg _ hc

/-- The invariant of the cascade loop: the queue is duplicate-free, every
queued slot is live, no live node points to a queued slot, children of live
nodes are live and duplicate-free, and every slot has at most one parent. -/
def CascInv {K V : Type} (nodes : sparse_vector (hash_tree_node K V))
    (queue : List Nat) : Prop :=
  queue.Nodup ∧
  (∀ q ∈ queue, (nodes.get q).isSome = true) ∧
  (∀ q ∈ queue, NoLiveInEdge nodes q) ∧
  (∀ p nd, nodes.get p = some nd →
    (∀ c ∈ nd.childs, (nodes.get c).isSome = true) ∧ nd.childs.Nodup) ∧
  (∀ p p' nd nd' c, nodes.get p = some nd → nodes.get p' = some nd' →
    c ∈ nd.childs → c ∈ nd'.childs → p = p')

theorem cascade_spec {K V : Type} :
    ∀ (fuel : Nat) (nodes : sparse_vector (hash_tree_node K V))
      (queue : List Nat), CascInv nodes queue → nodes.size < fuel →
      ∃ nodes', cascade fuel nodes queue = some nodes' ∧
        (∀ j, (∃ q ∈ queue, Reach nodes q j) → nodes'.get j = none) ∧
        (∀ j, ¬ (∃ q ∈ queue, Reach nodes q j) → nodes'.get j = nodes.get j) ∧
        nodes'.data.length = nodes.data.length
  | fuel, nodes, [], _, _ => by
    refine ⟨nodes, by cases fuel <;> rfl, ?_, fun j _ => rfl, rfl⟩
    intro j hj
    simp at hj
  | 0, nodes, q :: rest, _, hsz => absurd hsz (by omega)
  | fuel + 1, nodes, q :: rest, hinv, hsz => by
    rcases hinv with ⟨hnd, hlive, hnie, hchild, huniq⟩
    have hql : (nodes.get q).isSome = true := hlive q (by simp)
    rcases Option.isSome_iff_exists.mp hql with ⟨nd, hq⟩
    have hqnie : NoLiveInEdge nodes q := hnie q (by simp)
    have hrestq : ∀ x ∈ rest, x ≠ q := by
      intro x hx he
      exact (List.nodup_cons.mp hnd).1 (he ▸ hx)
    have hcq : ∀ c ∈ nd.childs, c ≠ q := by
      intro c hc he
      exact hqnie q nd hq (he ▸ hc)
    have hinv' : CascInv (nodes.eraseSlot q) (rest ++ nd.childs) := by
      refine ⟨?_, ?_, ?_, ?_, ?_⟩
      · rw [List.nodup_append]
        refine ⟨(List.nodup_cons.mp hnd).2, (hchild q nd hq).2, ?_⟩
        intro c hc hc2
        exact hnie c (by simp [hc]) q nd hq hc2
      · intro x hx
        rcases List.mem_append.mp hx with hx | hx
        · rw [sv_eraseSlot_get_ne _ (hrestq x hx)]
          exact hlive x (by simp [hx])
        · rw [sv_eraseSlot_get_ne _ (hcq x hx)]
          exact (hchild q nd hq).1 x hx
      · intro x hx p pnd hp hmem
        have hpq : p ≠ q := by
          intro he
          rw [he, sv_eraseSlot_get_self] at hp
          exact absurd hp (by simp)
        rw [sv_eraseSlot_get_ne _ hpq] at hp
        rcases List.mem_append.mp hx with hx | hx
        · exact hnie x (by simp [hx]) p pnd hp hmem
        · exact hpq (huniq p q pnd nd x hp hq hmem hx)
      · intro p pnd hp
        have hpq : p ≠ q := by
          intro he
          rw [he, sv_eraseSlot_get_self] at hp
          exact absurd hp (by simp)
        rw [sv_eraseSlot_get_ne _ hpq] at hp
        refine ⟨?_, (hchild p pnd hp).2⟩
        intro c hc
        have hcqe : c ≠ q := by
          intro he
          exact hqnie p pnd hp (he ▸ hc)
        rw [sv_eraseSlot_get_ne _ hcqe]
        exact (hchild p pnd hp).1 c hc
      · intro p p' pnd pnd' c hp hp' hc hc'
        have hpq : p ≠ q := by
          intro he
          rw [he, sv_eraseSlot_get_self] at hp
          exact absurd hp (by simp)
        have hpq' : p' ≠ q := by
          intro he
          rw [he, sv_eraseSlot_get_self] at hp'
          exact absurd hp' (by simp)
        rw [sv_eraseSlot_get_ne _ hpq] at hp
        rw [sv_eraseSlot_get_ne _ hpq'] at hp'
        exact huniq p p' pnd pnd' c hp hp' hc hc'
    have hsz' : (nodes.eraseSlot q).size < fuel := by
      have := sv_eraseSlot_size hq
      omega
    rcases cascade_spec fuel (nodes.eraseSlot q) (rest ++ nd.childs) hinv' hsz'
      with ⟨nodes', hrun, hdel, hkeep, hlen⟩
    have hstep : cascade (fuel + 1) nodes (q :: rest) = some nodes' := by
      rw [cascade, hq]
      exact hrun
    -- translating reachability between the original and the erased store
    have hreach : ∀ j, (∃ x ∈ q :: rest, Reach nodes x j) ↔
        (j = q ∨ ∃ x ∈ rest ++ nd.childs, Reach (nodes.eraseSlot q) x j) := by
      intro j
      constructor
      · rintro ⟨x, hx, hr⟩
        rcases List.mem_cons.mp hx with rfl | hx
        · rcases reach_head_cases hr with rfl | ⟨nd', c, hg', hc, hr'⟩
          · exact Or.inl rfl
          · rw [hq] at hg'
            cases hg'
            refine Or.inr ⟨c, List.mem_append.mpr (Or.inr hc), ?_⟩
            exact reach_erase_of hqnie (hcq c hc) hr'
        · exact Or.inr ⟨x, List.mem_append.mpr (Or.inl hx),
            reach_erase_of hqnie (hrestq x hx) hr⟩
      · rintro (rfl | ⟨x, hx, hr⟩)
        · exact ⟨_, List.mem_cons_self _ _, Reach.refl⟩
        · rcases List.mem_append.mp hx with hx' | hx'
          · exact ⟨x, by simp [hx'], reach_of_erase hr⟩
          · refine ⟨q, by simp, ?_⟩
            exact reach_trans (Reach.step Reach.refl hq hx') (reach_of_erase hr)
    refine ⟨nodes', hstep, ?_, ?_, hlen.trans (sv_eraseSlot_length _ _)⟩
    · intro j hj
      rcases (hreach j).mp hj with rfl | hj'
      · by_cases hjr : ∃ x ∈ rest ++ nd.childs, Reach (nodes.eraseSlot j) x j
        · exact hdel j hjr
        · rw [hkeep j hjr, sv_eraseSlot_get_self]
      · exact hdel j hj'
    · intro j hj
      have hj2 := (hreach j).not.mp hj
      push_neg at hj2
      have hjq : j ≠ q := hj2.1
      rw [hkeep j (by
        intro hc
        rcases hc with ⟨x, hx, hr⟩
        exact hj2.2 x hx hr)]
      exact sv_eraseSlot_get_ne _ hjq

theorem sameTree_isSome {K V : Type}
    {a b : sparse_vector (hash_tree_node K V)} (h : sameTree a b) (j : Nat) :
    (a.get j).isSome = (b.get j).isSome := by
  have := h j
  rcases hg : a.get j with _ | nd <;> rcases hg' : b.get j with _ | nd' <;>
    rw [hg, hg'] at this <;> simp at this ⊢

theorem sv_setSlot_isSome_of_live {α : Type} {sv : sparse_vector α} {i : Nat}
    (a : α) {b : α} (h : sv.get i = some b) (j : Nat) :
    ((sv.setSlot i a).get j).isSome = (sv.get j).isSome := by
  by_cases hj : j = i
  · subst hj
    rw [sv_setSlot_get_self a (sv_live_lt h), h]
    rfl
  · rw [sv_setSlot_get_ne _ _ hj]

/-- Counting deletions: if one store is obtained from another of the same
length by killing some slots, the live count drops by exactly the number of
killed slots. -/
theorem count_sub {α : Type} :
    ∀ (l l' : List (Option α)), l'.length = l.length →
      (∀ j, ((lGet l' j).getD none).isSome = true →
        ((lGet l j).getD none).isSome = true) →
      svCount l' + (List.range l.length).countP
        (fun j => ((lGet l j).getD none).isSome && !((lGet l' j).getD none).isSome)
        = svCount l
  | [], [], _, _ => rfl
  | [], o :: t, hlen, _ => by simp at hlen
  | o :: t, [], hlen, _ => by simp at hlen
  | o :: t, o' :: t', hlen, hsub => by
    have hlen' : t'.length = t.length := by simpa using hlen
    have hsub' : ∀ j, ((lGet t' j).getD none).isSome = true →
        ((lGet t j).getD none).isSome = true := fun j => hsub (j + 1)
    have ih := count_sub t t' hlen' hsub'
    rw [List.length_cons, List.range_succ_eq_map, List.countP_cons,
      List.countP_map]
    have hshift : ((fun j => ((lGet (o :: t) j).getD none).isSome &&
        !((lGet (o' :: t') j).getD none).isSome) ∘ Nat.succ) =
        (fun j => ((lGet t j).getD none).isSome &&
          !((lGet t' j).getD none).isSome) := by
      funext j
      rfl
    rw [hshift]
    have h0 : ((lGet (o :: t) 0).getD none) = o := rfl
    have h0' : ((lGet (o' :: t') 0).getD none) = o' := rfl
    rw [h0, h0']
    cases o with
    | none =>
      have ho' : o' = none := by
        cases o' with
        | none => rfl
        | some b =>
          have := hsub 0 (by rw [h0']; rfl)
          rw [h0] at this
          simp at this
      subst ho'
      simpa [svCount] using ih
    | some a =>
      cases o' with
      | none =>
        simp only [svCount]
        simp at ih ⊢
        omega
      | some b =>
        simp only [svCount]
        simp at ih ⊢
        omega

/-! Characterisation of a non-root `erase`: the target is unlinked from its
parent's child list and the whole subtree reachable from it through children
links is removed; every surviving node keeps its key, value and parent, and
keeps its children except that the target's parent loses the occurrences of
the target; the size drops by the number of removed slots; the table either
stays or is halved by the shrink policy. -/

theorem erase_nonroot_props {K V : Type} [DecidableEq K] {hasher : K → Nat}
    {ht : hash_tree K V} {key : K} {i : Nat} {ht' : hash_tree K V}
    (hwf : WF ht)
    (hidx : ht.index hasher key = some i)
    (hne : i ≠ ht._head_index)
    (h : ht.erase hasher key = some ht') :
    ∃ ndi, ht._nodes.get i = some ndi ∧
      ht'._head_index = ht._head_index ∧
      ht'._nodes.data.length = ht._nodes.data.length ∧
      (∀ j, (ht'._nodes.get j).isSome = true ↔
        ((ht._nodes.get j).isSome = true ∧ ¬ Reach ht._nodes i j)) ∧
      (∀ j nd', ht'._nodes.get j = some nd' → ∃ nd, ht._nodes.get j = some nd ∧
        nd'.key = nd.key ∧ nd'.value = nd.value ∧
        nd'.parent_index = nd.parent_index ∧
        nd'.childs = (if j = ndi.parent_index
          then nd.childs.filter (fun c => c ≠ i) else nd.childs)) ∧
      ht'.size + (List.range ht._nodes.data.length).countP
        (fun j => (ht._nodes.get j).isSome && !((ht'._nodes.get j).isSome))
        = ht.size ∧
      (ht'._table.length = ht._table.length ∨
        (5 * ht'.size < ht._table.length ∧
          ht'._table.length = ht._table.length / 2)) := by
  rw [hash_tree.erase, hidx] at h
  simp only [Option.bind_eq_bind, Option.some_bind] at h
  rw [if_neg hne] at h
  rcases hgi : ht._nodes.get i with _ | ndi <;> rw [hgi] at h
  · rw [Option.none_bind] at h
    exact absurd h (by simp)
  rcases hwf.parent_link i ndi hgi hne with ⟨hpne, pnd, hp, himem⟩
  simp only [ite_true, reduceIte] at h
  rw [if_pos hpne] at h
  rcases Option.bind_eq_some.mp h with ⟨nodes1, hn1, h3⟩
  simp only [remove_child, hgi, hp] at hn1
  cases hn1
  set N1 : sparse_vector (hash_tree_node K V) :=
    ht._nodes.setSlot ndi.parent_index
      { pnd with childs := pnd.childs.filter (fun c => c ≠ i) } with hN1
  have hN1live : ∀ j, (N1.get j).isSome = (ht._nodes.get j).isSome :=
    sv_setSlot_isSome_of_live _ hp
  have hN1pi : N1.get ndi.parent_index =
      some { pnd with childs := pnd.childs.filter (fun c => c ≠ i) } :=
    sv_setSlot_get_self _ (sv_live_lt hp)
  have hN1ne : ∀ j, j ≠ ndi.parent_index → N1.get j = ht._nodes.get j :=
    fun j hj => sv_setSlot_get_ne _ _ hj
  have hN1size : N1.size = ht._nodes.size := sv_setSlot_size_of_live _ hp
  have hN1len : N1.data.length = ht._nodes.data.length := sv_setSlot_length _ _ _
  -- children of live N1 nodes, as lists, are sublists of the originals
  have hN1childs : ∀ p nd', N1.get p = some nd' → ∃ nd,
      ht._nodes.get p = some nd ∧ nd'.parent_index = nd.parent_index ∧
      (∀ c ∈ nd'.childs, c ∈ nd.childs) ∧
      (nd.childs.Nodup → nd'.childs.Nodup) := by
    intro p nd' hpn
    by_cases hppi : p = ndi.parent_index
    · subst hppi
      rw [hN1pi] at hpn
      cases hpn
      exact ⟨pnd, hp, rfl, fun c hc => (List.mem_filter.mp hc).1,
        fun hnd => hnd.filter _⟩
    · rw [hN1ne p hppi] at hpn
      exact ⟨nd', hpn, rfl, fun c hc => hc, fun hnd => hnd⟩
  have hinv : CascInv N1 [i] := by
    refine ⟨List.nodup_singleton _, ?_, ?_, ?_, ?_⟩
    · intro q hq
      rcases List.mem_singleton.mp hq with rfl
      rw [hN1live, hgi]
      rfl
    · intro q hq
      rcases List.mem_singleton.mp hq with rfl
      intro p nd' hpn him
      by_cases hppi : p = ndi.parent_index
      · subst hppi
        rw [hN1pi] at hpn
        cases hpn
        rcases List.mem_filter.mp him with ⟨_, hcon⟩
        simp at hcon
      · rw [hN1ne p hppi] at hpn
        exact hppi (wf_unique_parent hwf hpn hp him himem)
    · intro p nd' hpn
      rcases hN1childs p nd' hpn with ⟨nd, hpo, _, hsub, hnd⟩
      refine ⟨?_, hnd (hwf.childs_nodup p nd hpo)⟩
      intro c hc
      rcases hwf.child_link p nd hpo c (hsub c hc) with ⟨cnd, hcg, _⟩
      rw [hN1live, hcg]
      rfl
    · intro p p' nd1 nd1' c hp1 hp1' hc1 hc1'
      rcases hN1childs p nd1 hp1 with ⟨nda, hpa, _, hsa, _⟩
      rcases hN1childs p' nd1' hp1' with ⟨ndb, hpb, _, hsb, _⟩
      exact wf_unique_parent hwf hpa hpb (hsa c hc1) (hsb c hc1')
  rcases cascade_spec (N1.size + 1) N1 [i] hinv (by omega) with
    ⟨nodes2x, hcas, hdel, hkeep, hlen2⟩
  rcases Option.bind_eq_some.mp h3 with ⟨nodes2, hcas2, h4⟩
  rw [hcas] at hcas2
  cases hcas2
  -- reachability in the unlinked store coincides with the original store
  have hreach_fwd : ∀ j, Reach N1 i j → Reach ht._nodes i j := by
    intro j hr
    induction hr with
    | refl => exact Reach.refl
    | step hpr hg hc ih =>
      next p c nd' =>
      rcases hN1childs p nd' hg with ⟨nd, hpo, _, hsub, _⟩
      exact Reach.step ih hpo (hsub c hc)
  have hreach_bwd : ∀ j, Reach ht._nodes i j → Reach N1 i j := by
    intro j hr
    induction hr with
    | refl => exact Reach.refl
    | step hpr hg hc ih =>
      next p c nd =>
      by_cases hci : c = i
      · exact hci ▸ Reach.refl
      · by_cases hppi : p = ndi.parent_index
        · subst hppi
          rw [hp] at hg
          cases hg
          refine Reach.step ih hN1pi ?_
          exact List.mem_filter.mpr ⟨hc, by simpa using hci⟩
        · exact Reach.step ih (by rw [hN1ne p hppi]; exact hg) hc
  have hreach1 : ∀ j, (∃ q ∈ [i], Reach N1 q j) ↔ Reach ht._nodes i j := by
    intro j
    constructor
    · rintro ⟨q, hq, hr⟩
      rcases List.mem_singleton.mp hq with rfl
      exact hreach_fwd j hr
    · intro hr
      exact ⟨i, List.mem_singleton.mpr rfl, hreach_bwd j hr⟩
  -- the final state equals the post-cascade state up to a shrink rehash
  have hfin : ht'._head_index = ht._head_index ∧
      sameTree nodes2x ht'._nodes ∧ ht'.size = nodes2x.size ∧
      ht'._nodes.data.length = nodes2x.data.length ∧
      (ht'._table.length = ht._table.length ∨
        (5 * ht'.size < ht._table.length ∧
          ht'._table.length = ht._table.length / 2)) := by
    split at h4
    · next htrg =>
      rcases rehash_props h4 with ⟨r1, r2, r3, r4, r5⟩
      have hsz : ht'.size = nodes2x.size := r3
      refine ⟨r1, r2, r3, r4, Or.inr ⟨?_, r5⟩⟩
      rw [hsz]
      exact htrg
    · next htrg =>
      cases h4
      exact ⟨rfl, sameTree_refl _, rfl, rfl, Or.inl rfl⟩
  rcases hfin with ⟨f1, f2, f3, f4, f5⟩
  have hlive' : ∀ j, (ht'._nodes.get j).isSome = true ↔
      ((ht._nodes.get j).isSome = true ∧ ¬ Reach ht._nodes i j) := by
    intro j
    rw [← sameTree_isSome f2 j]
    by_cases hr : Reach ht._nodes i j
    · rw [hdel j ((hreach1 j).mpr hr)]
      simp [hr]
    · rw [hkeep j (fun hc => hr ((hreach1 j).mp hc)), hN1live]
      simp [hr]
  refine ⟨ndi, rfl, f1, f4.trans (hlen2.trans hN1len), hlive', ?_, ?_, f5⟩
  · intro j nd' hg'
    rcases sameTree_get_some (sameTree_symm f2) hg' with
      ⟨nd2, hg2, e1, e2, _, e4, e5⟩
    have hnr : ¬ Reach ht._nodes i j := by
      intro hr
      rw [hdel j ((hreach1 j).mpr hr)] at hg2
      exact absurd hg2 (by simp)
    rw [hkeep j (fun hc => hnr ((hreach1 j).mp hc))] at hg2
    by_cases hppi : j = ndi.parent_index
    · subst hppi
      rw [hN1pi] at hg2
      cases hg2
      exact ⟨pnd, hp, e1.symm, e2.symm, e5.symm, by rw [if_pos rfl]; exact e4.symm⟩
    · rw [hN1ne j hppi] at hg2
      exact ⟨nd2, hg2, e1.symm, e2.symm, e5.symm, by rw [if_neg hppi]; exact e4.symm⟩
  · have hsub : ∀ j, ((lGet ht'._nodes.data j).getD none).isSome = true →
        ((lGet ht._nodes.data j).getD none).isSome = true := by
      intro j hj
      exact ((hlive' j).mp hj).1
    have hlen : ht'._nodes.data.length = ht._nodes.data.length :=
      f4.trans (hlen2.trans hN1len)
    exact count_sub ht._nodes.data ht'._nodes.data hlen hsub

theorem map_treeView_isSome {K V : Type} {o o' : Option (hash_tree_node K V)}
    (h : o.map treeView = o'.map treeView) : o.isSome = o'.isSome := by
  cases o <;> cases o' <;> simp at h ⊢

theorem reach_last {K V : Type} {nodes : sparse_vector (hash_tree_node K V)}
    {x j : Nat} (h : Reach nodes x j) :
    j = x ∨ ∃ p nd, nodes.get p = some nd ∧ j ∈ nd.childs := by
  cases h with
  | refl => exact Or.inl rfl
  | step _ hg hc => exact Or.inr ⟨_, _, hg, hc⟩

/-! Characterisation of the parentless `insert`: on an empty-rooted map the
fresh node becomes the root with an empty parent link; otherwise it is
appended as the last child of the current root, which is otherwise
unchanged, and the root identifier does not move. -/

theorem insert_props {K V : Type} [DecidableEq K] {hasher : K → Nat}
    {ht : hash_tree K V} {k : K} {v : V} {ht' : hash_tree K V}
    (hhead : ht._head_index ≠ _EMPTY_INDEX →
      (ht._nodes.get ht._head_index).isSome = true)
    (h : ht.insert hasher k v = some ht') :
    ∃ f, ht._nodes.get f = none ∧
      ((ht._head_index = _EMPTY_INDEX ∧ ht'._head_index = f ∧
        (∃ nd, ht'._nodes.get f = some nd ∧ nd.key = k ∧ nd.value = v ∧
          nd.childs = [] ∧ nd.parent_index = _EMPTY_INDEX) ∧
        (∀ j, j ≠ f →
          (ht._nodes.get j).map treeView = (ht'._nodes.get j).map treeView)) ∨
       (ht._head_index ≠ _EMPTY_INDEX ∧ ht'._head_index = ht._head_index ∧
        f ≠ ht._head_index ∧
        (∃ nd, ht'._nodes.get f = some nd ∧ nd.key = k ∧ nd.value = v ∧
          nd.childs = [] ∧ nd.parent_index = ht._head_index) ∧
        (∃ hd hd', ht._nodes.get ht._head_index = some hd ∧
          ht'._nodes.get ht._head_index = some hd' ∧ hd'.key = hd.key ∧
          hd'.value = hd.value ∧ hd'.parent_index = hd.parent_index ∧
          hd'.childs = hd.childs ++ [f]) ∧
        (∀ j, j ≠ f → j ≠ ht._head_index →
          (ht._nodes.get j).map treeView = (ht'._nodes.get j).map treeView))) ∧
      ht'.size = ht.size + 1 ∧ f ≤ ht._nodes.data.length ∧
      ht'._nodes.data.length ≤ ht._nodes.data.length + 1 ∧
      ((10 * ht.size ≤ 9 * ht.table_size ∧ ht'._table.length = ht._table.length) ∨
        (10 * ht.size > 9 * ht.table_size ∧
          ht'._table.length = 2 * ht.table_size)) := by
  rw [hash_tree.insert] at h
  simp only [Option.bind_eq_bind] at h
  rcases Option.bind_eq_some.mp h with ⟨r, hins, h2⟩
  obtain ⟨f, htA⟩ := r
  dsimp only at h2
  rcases _insert_props hins with ⟨p1, p2, ⟨ndf, hndf, e1, e2, e3, e4, e5⟩, p4, p5, p6, p7, p8⟩
  refine ⟨f, p2, ?_⟩
  split at h2
  · next hhe =>
    rw [p1] at hhe
    cases h2
    exact ⟨Or.inl ⟨hhe, rfl, ⟨ndf, hndf, e1, e2, e4, e5⟩, fun j hj => p4 j hj⟩,
      p5, p6, p7, p8⟩
  · next hhe =>
    rw [p1] at hhe
    have hfh : f ≠ ht._head_index := by
      intro he
      have hh := hhead hhe
      rw [← he] at hh
      rw [p2] at hh
      simp at hh
    have hlivehead : (htA._nodes.get htA._head_index).isSome = true := by
      rw [p1, ← map_treeView_isSome (p4 ht._head_index (fun he => hfh he.symm))]
      exact hhead hhe
    rcases Option.isSome_iff_exists.mp hlivehead with ⟨hd, hhd⟩
    rw [hhd] at h2
    dsimp only at h2
    have hfhA : f ≠ htA._head_index := by rw [p1]; exact hfh
    have hgf2 : (htA._nodes.setSlot htA._head_index
        { hd with childs := hd.childs ++ [f] }).get f = some ndf := by
      rw [sv_setSlot_get_ne _ _ hfhA]
      exact hndf
    rw [hgf2] at h2
    cases h2
    have hfltA : f < htA._nodes.data.length := sv_live_lt hndf
    have hheadlt : htA._head_index < htA._nodes.data.length := sv_live_lt hhd
    set S1 : sparse_vector (hash_tree_node K V) :=
      htA._nodes.setSlot htA._head_index { hd with childs := hd.childs ++ [f] }
      with hS1
    set NN : sparse_vector (hash_tree_node K V) :=
      S1.setSlot f { ndf with parent_index := htA._head_index } with hNN
    have hget_f : NN.get f = some { ndf with parent_index := htA._head_index } := by
      rw [hNN]
      exact sv_setSlot_get_self _ (by rw [hS1, sv_setSlot_length]; exact hfltA)
    have hget_head : NN.get htA._head_index =
        some { hd with childs := hd.childs ++ [f] } := by
      rw [hNN, sv_setSlot_get_ne _ _ (fun he => hfhA he.symm), hS1]
      exact sv_setSlot_get_self _ hheadlt
    have hget_other : ∀ j, j ≠ f → j ≠ htA._head_index →
        NN.get j = htA._nodes.get j := by
      intro j hjf hjh
      rw [hNN, sv_setSlot_get_ne _ _ hjf, hS1, sv_setSlot_get_ne _ _ hjh]
    have hd0fact : ∃ hd0, ht._nodes.get ht._head_index = some hd0 ∧
        hd.key = hd0.key ∧ hd.value = hd0.value ∧
        hd.parent_index = hd0.parent_index ∧ hd.childs = hd0.childs := by
      rcases Option.isSome_iff_exists.mp (hhead hhe) with ⟨hd0, hh0⟩
      have heq := p4 ht._head_index (fun he => hfh he.symm)
      rw [hh0, ← p1, hhd] at heq
      simp only [Option.map_some', Option.some.injEq, treeView,
        Prod.mk.injEq] at heq
      exact ⟨hd0, hh0, heq.1.symm, heq.2.1.symm, heq.2.2.2.2.symm,
        heq.2.2.2.1.symm⟩
    rcases hd0fact with ⟨hd0, hh0, q1, q2, q3, q4⟩
    have hszA : NN.size = htA._nodes.size := by
      rw [hNN, sv_setSlot_size_of_live _ hgf2, hS1, sv_setSlot_size_of_live _ hhd]
    have hlenA : NN.data.length = htA._nodes.data.length := by
      rw [hNN, sv_setSlot_length, hS1, sv_setSlot_length]
    refine ⟨Or.inr ⟨hhe, p1, hfh,
      ⟨{ ndf with parent_index := htA._head_index }, hget_f, e1, e2, e4, p1⟩,
      ⟨hd0, { hd with childs := hd.childs ++ [f] }, hh0, by rw [← p1]; exact hget_head,
        q1, q2, q3, by rw [q4]⟩, ?_⟩, ?_, p6,
      by show NN.data.length ≤ ht._nodes.data.length + 1; omega, p8⟩
    · intro j hjf hjh
      rw [hget_other j hjf (by rw [p1]; exact hjh)]
      exact p4 j hjf
    · show NN.size = ht.size + 1
      rw [hszA]
      exact p5

/-! Characterisation of `insert` with an explicit parent key: the node is
stored first, the parent key is resolved afterwards, and the fresh slot is
appended to the resolved parent's children.  When the parent key resolves to
the freshly inserted node itself (same key, empty map or not), the new node
becomes its own parent. -/

theorem insertP_props {K V : Type} [DecidableEq K] {hasher : K → Nat}
    {ht : hash_tree K V} {k : K} {v : V} {par : K} {ht' : hash_tree K V}
    (h : ht.insert_with_parent hasher k v par = some ht') :
    ∃ f p, ht._nodes.get f = none ∧ ht'._head_index = ht._head_index ∧
      ht'.size = ht.size + 1 ∧ f ≤ ht._nodes.data.length ∧
      ht'._nodes.data.length ≤ ht._nodes.data.length + 1 ∧
      ((10 * ht.size ≤ 9 * ht.table_size ∧ ht'._table.length = ht._table.length) ∨
        (10 * ht.size > 9 * ht.table_size ∧
          ht'._table.length = 2 * ht.table_size)) ∧
      ((p = f ∧
        (∃ nd, ht'._nodes.get f = some nd ∧ nd.key = k ∧ nd.value = v ∧
          nd.childs = [f] ∧ nd.parent_index = f) ∧
        (∀ j, j ≠ f →
          (ht._nodes.get j).map treeView = (ht'._nodes.get j).map treeView)) ∨
       (p ≠ f ∧
        (∃ nd, ht'._nodes.get f = some nd ∧ nd.key = k ∧ nd.value = v ∧
          nd.childs = [] ∧ nd.parent_index = p) ∧
        (∃ pnd pnd', ht._nodes.get p = some pnd ∧ ht'._nodes.get p = some pnd' ∧
          pnd'.key = pnd.key ∧ pnd'.value = pnd.value ∧
          pnd'.parent_index = pnd.parent_index ∧
          pnd'.childs = pnd.childs ++ [f]) ∧
        (∀ j, j ≠ f → j ≠ p →
          (ht._nodes.get j).map treeView = (ht'._nodes.get j).map treeView))) := by
  rw [hash_tree.insert_with_parent] at h
  simp only [Option.bind_eq_bind] at h
  rcases Option.bind_eq_some.mp h with ⟨r, hins, h2⟩
  obtain ⟨f, htA⟩ := r
  dsimp only at h2
  rcases _insert_props hins with ⟨p1, p2, ⟨ndf, hndf, e1, e2, e3, e4, e5⟩, p4, p5, p6, p7, p8⟩
  rcases Option.bind_eq_some.mp h2 with ⟨p, hpidx, h3⟩
  rcases hgp : htA._nodes.get p with _ | pnd1 <;> rw [hgp] at h3
  · exact absurd h3 (by simp)
  dsimp only at h3
  have hflt : f < htA._nodes.data.length := sv_live_lt hndf
  by_cases hpf : p = f
  · subst hpf
    rw [hndf] at hgp
    cases hgp
    have hS1 : (htA._nodes.setSlot p
        { ndf with childs := ndf.childs ++ [p] }).get p =
        some { ndf with childs := ndf.childs ++ [p] } :=
      sv_setSlot_get_self _ hflt
    rw [hS1] at h3
    dsimp only at h3
    cases h3
    have hget_f : ((htA._nodes.setSlot p { ndf with childs := ndf.childs ++ [p] }).setSlot p
        { ndf with childs := ndf.childs ++ [p], parent_index := p }).get p =
        some { ndf with childs := ndf.childs ++ [p], parent_index := p } :=
      sv_setSlot_get_self _ (by rw [sv_setSlot_length]; exact hflt)
    have hget_other : ∀ j, j ≠ p →
        ((htA._nodes.setSlot p { ndf with childs := ndf.childs ++ [p] }).setSlot p
          { ndf with childs := ndf.childs ++ [p], parent_index := p }).get j =
        htA._nodes.get j := by
      intro j hj
      rw [sv_setSlot_get_ne _ _ hj, sv_setSlot_get_ne _ _ hj]
    refine ⟨p, p, p2, p1, ?_, p6, ?_, p8,
      Or.inl ⟨rfl, ⟨_, hget_f, e1, e2, by rw [e4]; rfl, rfl⟩, ?_⟩⟩
    · show ((htA._nodes.setSlot _ _).setSlot _ _).size = ht.size + 1
      rw [sv_setSlot_size_of_live _ hS1, sv_setSlot_size_of_live _ hndf]
      exact p5
    · show ((htA._nodes.setSlot _ _).setSlot _ _).data.length ≤ _
      rw [sv_setSlot_length, sv_setSlot_length]
      exact p7
    · intro j hj
      rw [hget_other j hj]
      exact p4 j hj
  · have hS1f : (htA._nodes.setSlot p
        { pnd1 with childs := pnd1.childs ++ [f] }).get f = some ndf := by
      rw [sv_setSlot_get_ne _ _ (fun he => hpf he.symm)]
      exact hndf
    rw [hS1f] at h3
    dsimp only at h3
    cases h3
    have hplt : p < htA._nodes.data.length := sv_live_lt hgp
    have hget_f : ((htA._nodes.setSlot p { pnd1 with childs := pnd1.childs ++ [f] }).setSlot f
        { ndf with parent_index := p }).get f = some { ndf with parent_index := p } :=
      sv_setSlot_get_self _ (by rw [sv_setSlot_length]; exact hflt)
    have hget_p : ((htA._nodes.setSlot p { pnd1 with childs := pnd1.childs ++ [f] }).setSlot f
        { ndf with parent_index := p }).get p =
        some { pnd1 with childs := pnd1.childs ++ [f] } := by
      rw [sv_setSlot_get_ne _ _ hpf]
      exact sv_setSlot_get_self _ hplt
    have hget_other : ∀ j, j ≠ f → j ≠ p →
        ((htA._nodes.setSlot p { pnd1 with childs := pnd1.childs ++ [f] }).setSlot f
          { ndf with parent_index := p }).get j = htA._nodes.get j := by
      intro j hjf hjp
      rw [sv_setSlot_get_ne _ _ hjf, sv_setSlot_get_ne _ _ hjp]
    have hpnd0 : ∃ pnd0, ht._nodes.get p = some pnd0 ∧ pnd1.key = pnd0.key ∧
        pnd1.value = pnd0.value ∧ pnd1.parent_index = pnd0.parent_index ∧
        pnd1.childs = pnd0.childs := by
      have heq := p4 p hpf
      rcases hg0 : ht._nodes.get p with _ | pnd0 <;> rw [hg0, hgp] at heq
      · simp at heq
      · simp only [Option.map_some', Option.some.injEq, treeView,
          Prod.mk.injEq] at heq
        exact ⟨pnd0, rfl, heq.1.symm, heq.2.1.symm, heq.2.2.2.2.symm,
          heq.2.2.2.1.symm⟩
    rcases hpnd0 with ⟨pnd0, hg0, q1, q2, q3, q4⟩
    refine ⟨f, p, p2, p1, ?_, p6, ?_, p8,
      Or.inr ⟨hpf, ⟨_, hget_f, e1, e2, e4, rfl⟩,
        ⟨pnd0, _, hg0, hget_p, q1, q2, q3, by rw [q4]⟩, ?_⟩⟩
    · show ((htA._nodes.setSlot _ _).setSlot _ _).size = ht.size + 1
      rw [sv_setSlot_size_of_live _ hS1f, sv_setSlot_size_of_live _ hgp]
      exact p5
    · show ((htA._nodes.setSlot _ _).setSlot _ _).data.length ≤ _
      rw [sv_setSlot_length, sv_setSlot_length]
      exact p7
    · intro j hjf hjp
      rw [hget_other j hjf hjp]
      exact p4 j hjf

/-! Characterisation of the two-argument `set_parent` on a well-formed map
when the target is not the root: the target is removed from its old parent's
child list, appended to the resolved new parent's child list, and its parent
link is repointed; nothing else changes. -/

theorem set_parent_props {K V : Type} [DecidableEq K] {hasher : K → Nat}
    {ht : hash_tree K V} {key npar : K} {i : Nat} {ht' : hash_tree K V}
    (hwf : WF ht)
    (hidx : ht.index hasher key = some i)
    (hne : i ≠ ht._head_index)
    (h : ht.set_parent hasher key npar = some ht') :
    ∃ p ndi, ht._nodes.get i = some ndi ∧ (ht._nodes.get p).isSome = true ∧
      ht'._head_index = ht._head_index ∧ ht'.size = ht.size ∧
      ht'._table = ht._table ∧
      ht'._nodes.data.length = ht._nodes.data.length ∧
      (∀ j, (ht'._nodes.get j).isSome = (ht._nodes.get j).isSome) ∧
      (∀ j nd', ht'._nodes.get j = some nd' → ∃ nd, ht._nodes.get j = some nd ∧
        nd'.key = nd.key ∧ nd'.value = nd.value ∧
        nd'.parent_index = (if j = i then p else nd.parent_index) ∧
        nd'.childs =
          ((if j = ndi.parent_index then nd.childs.filter (fun c => c ≠ i)
            else nd.childs) ++ (if j = p then [i] else []))) := by
  rw [hash_tree.set_parent, hidx] at h
  simp only [Option.bind_eq_bind, Option.some_bind] at h
  rcases Option.bind_eq_some.mp h with ⟨p, hpidx, h2⟩
  rcases Option.bind_eq_some.mp h2 with ⟨nodesF, hsp, h3⟩
  simp only [Option.pure_def, Option.some.injEq] at h3
  subst h3
  rw [_set_parent] at hsp
  simp only [Option.bind_eq_bind, Option.some_bind] at hsp
  rcases hgi : ht._nodes.get i with _ | ndi <;> rw [hgi] at hsp
  · rw [Option.none_bind] at hsp
    exact absurd hsp (by simp)
  rcases hwf.parent_link i ndi hgi hne with ⟨hpne, tpnd, htp, himem⟩
  dsimp only at hsp
  rw [if_pos hpne] at hsp
  rcases Option.bind_eq_some.mp hsp with ⟨nodes1, hn1, h4⟩
  simp only [remove_child, hgi, htp] at hn1
  cases hn1
  set N1 : sparse_vector (hash_tree_node K V) :=
    ht._nodes.setSlot ndi.parent_index
      { tpnd with childs := tpnd.childs.filter (fun c => c ≠ i) } with hN1
  have hn1get : ∀ j, N1.get j =
      (if j = ndi.parent_index
        then some { tpnd with childs := tpnd.childs.filter (fun c => c ≠ i) }
        else ht._nodes.get j) := by
    intro j
    by_cases hj : j = ndi.parent_index
    · subst hj
      rw [if_pos rfl, hN1]
      exact sv_setSlot_get_self _ (sv_live_lt htp)
    · rw [if_neg hj, hN1]
      exact sv_setSlot_get_ne _ _ hj
  have hn1live : ∀ j, (N1.get j).isSome = (ht._nodes.get j).isSome := by
    rw [hN1]
    exact sv_setSlot_isSome_of_live _ htp
  rcases hgp1 : N1.get p with _ | pnd1 <;> rw [hgp1] at h4
  · exact absurd h4 (by simp)
  dsimp only at h4
  have hplive : (ht._nodes.get p).isSome = true := by
    rw [← hn1live, hgp1]
    rfl
  have hplt : p < N1.data.length := sv_live_lt hgp1
  set N2 : sparse_vector (hash_tree_node K V) :=
    N1.setSlot p { pnd1 with childs := pnd1.childs ++ [i] } with hN2
  have hn2get : ∀ j, N2.get j =
      (if j = p then some { pnd1 with childs := pnd1.childs ++ [i] }
        else N1.get j) := by
    intro j
    by_cases hj : j = p
    · subst hj
      rw [if_pos rfl, hN2]
      exact sv_setSlot_get_self _ hplt
    · rw [if_neg hj, hN2]
      exact sv_setSlot_get_ne _ _ hj
  have hn2live : ∀ j, (N2.get j).isSome = (ht._nodes.get j).isSome := by
    intro j
    rw [hN2, sv_setSlot_isSome_of_live _ hgp1]
    exact hn1live j
  rcases hgi2 : N2.get i with _ | ndt2 <;> rw [hgi2] at h4
  · have := hn2live i
    rw [hgi2, hgi] at this
    simp at this
  dsimp only at h4
  cases h4
  have hilt2 : i < N2.data.length := sv_live_lt hgi2
  set NF : sparse_vector (hash_tree_node K V) :=
    N2.setSlot i { ndt2 with parent_index := p } with hNF
  have hfget : ∀ j, NF.get j =
      (if j = i then some { ndt2 with parent_index := p } else N2.get j) := by
    intro j
    by_cases hj : j = i
    · subst hj
      rw [if_pos rfl, hNF]
      exact sv_setSlot_get_self _ hilt2
    · rw [if_neg hj, hNF]
      exact sv_setSlot_get_ne _ _ hj
  have hflive : ∀ j, (NF.get j).isSome = (ht._nodes.get j).isSome := by
    intro j
    rw [hNF, sv_setSlot_isSome_of_live _ hgi2]
    exact hn2live j
  have hfsize : NF.size = ht._nodes.size := by
    rw [hNF, sv_setSlot_size_of_live _ hgi2, hN2, sv_setSlot_size_of_live _ hgp1,
      hN1, sv_setSlot_size_of_live _ htp]
  have hflen : NF.data.length = ht._nodes.data.length := by
    rw [hNF, sv_setSlot_length, hN2, sv_setSlot_length, hN1, sv_setSlot_length]
  refine ⟨p, ndi, rfl, hplive, rfl, hfsize, rfl, hflen, hflive, ?_⟩
  -- resolve the node read back at the target after the child append
  have h2i : some ndt2 = (if i = p then some { pnd1 with childs := pnd1.childs ++ [i] }
      else N1.get i) := by rw [← hgi2, hn2get]
  have h1p : some pnd1 = (if p = ndi.parent_index
      then some { tpnd with childs := tpnd.childs.filter (fun c => c ≠ i) }
      else ht._nodes.get p) := by rw [← hgp1, hn1get]
  intro j nd' hg'
  rw [hfget j] at hg'
  by_cases hji : j = i
  · subst hji
    rw [if_pos rfl] at hg'
    cases hg'
    refine ⟨ndi, hgi, ?_⟩
    by_cases hip : j = p
    · rw [if_pos hip] at h2i
      cases h2i
      by_cases hppi : p = ndi.parent_index
      · rw [if_pos hppi] at h1p
        cases h1p
        have htpi : tpnd = ndi := by
          rw [← hppi, ← hip, hgi] at htp
          cases htp
          rfl
        subst htpi
        exact ⟨rfl, rfl, by rw [if_pos rfl],
          by rw [if_pos (hip.trans hppi), if_pos hip]⟩
      · rw [if_neg hppi, ← hip, hgi] at h1p
        cases h1p
        exact ⟨rfl, rfl, by rw [if_pos rfl],
          by rw [if_neg (fun he => hppi (hip ▸ he)), if_pos hip]⟩
    · rw [if_neg hip, hn1get] at h2i
      by_cases hipi : j = ndi.parent_index
      · rw [if_pos hipi] at h2i
        cases h2i
        have htpi : tpnd = ndi := by
          rw [← hipi, hgi] at htp
          cases htp
          rfl
        subst htpi
        exact ⟨rfl, rfl, by rw [if_pos rfl],
          by rw [if_pos hipi, if_neg hip, List.append_nil]⟩
      · rw [if_neg hipi, hgi] at h2i
        cases h2i
        exact ⟨rfl, rfl, by rw [if_pos rfl],
          by rw [if_neg hipi, if_neg hip, List.append_nil]⟩
  · rw [if_neg hji] at hg'
    rw [hn2get j] at hg'
    by_cases hjp : j = p
    · rw [if_pos hjp] at hg'
      cases hg'
      by_cases hjpi : j = ndi.parent_index
      · have hppi : p = ndi.parent_index := by rw [← hjp]; exact hjpi
        rw [if_pos hppi] at h1p
        cases h1p
        rw [← hjpi] at htp
        exact ⟨tpnd, htp, rfl, rfl, by rw [if_neg hji],
          by rw [if_pos hjpi, if_pos hjp]⟩
      · have hppin : ¬ p = ndi.parent_index := fun he => hjpi (by rw [hjp]; exact he)
        rw [if_neg hppin] at h1p
        rcases hg0 : ht._nodes.get p with _ | nd0 <;> rw [hg0] at h1p
        · exact absurd h1p (by simp)
        · cases h1p
          exact ⟨pnd1, by rw [hjp]; exact hg0, rfl, rfl, by rw [if_neg hji],
            by rw [if_neg hjpi, if_pos hjp]⟩
    · rw [if_neg hjp, hn1get j] at hg'
      by_cases hjpi : j = ndi.parent_index
      · rw [if_pos hjpi] at hg'
        cases hg'
        rw [← hjpi] at htp
        exact ⟨tpnd, htp, rfl, rfl, by rw [if_neg hji],
          by rw [if_pos hjpi, if_neg hjp, List.append_nil]⟩
      · rw [if_neg hjpi] at hg'
        exact ⟨nd', hg', rfl, rfl, by rw [if_neg hji],
          by rw [if_neg hjpi, if_neg hjp, List.append_nil]⟩

/-! Preservation of well-formedness by every public operation (with the
root never being the target of a reparent, and insert-with-parent never
running on an empty map). -/

theorem sv_size_zero {α : Type} :
    ∀ {l : List (Option α)}, svCount l = 0 → ∀ i, (lGet l i).getD none = none
  | [], _, _ => rfl
  | none :: l, h, i => by
    cases i with
    | zero => rfl
    | succ n => exact sv_size_zero (by simpa [svCount] using h) n
  | some a :: l, h, i => by simp [svCount] at h

theorem live_one_le {α : Type} {sv : sparse_vector α} {j : Nat}
    (h : (sv.get j).isSome = true) : 1 ≤ sv.size := by
  have := nodup_live_length_le [j] sv (List.nodup_singleton j)
    (by intro s hs; rcases List.mem_singleton.mp hs with rfl; exact h)
  simpa using this

theorem clear_wf {K V : Type} (ht : hash_tree K V) : WF ht.clear := by
  refine ⟨?_, ?_, ?_, ?_, ?_, ?_, ?_⟩
  · show 0 < _EMPTY_INDEX
    rw [_EMPTY_INDEX]
    omega
  · exact ⟨fun _ => rfl, fun _ => rfl⟩
  · intro hh
    exact absurd rfl hh
  · intro hd hg
    exact absurd hg (by simp [hash_tree.clear, sparse_vector.get, lGet])
  · intro i nd hg
    exact absurd hg (by simp [hash_tree.clear, sparse_vector.get, lGet])
  · intro i nd hg
    exact absurd hg (by simp [hash_tree.clear, sparse_vector.get, lGet])
  · intro i nd hg
    exact absurd hg (by simp [hash_tree.clear, sparse_vector.get, lGet])

theorem insert_wf {K V : Type} [DecidableEq K] {hasher : K → Nat}
    {ht : hash_tree K V} {k : K} {v : V} {ht' : hash_tree K V}
    (hwf : WF ht) (hbud : ht._nodes.data.length + 1 < _EMPTY_INDEX)
    (h : ht.insert hasher k v = some ht') : WF ht' := by
  rcases insert_props hwf.head_live h with
    ⟨f, hf, hcase, hsz, hfle, hlen, _⟩
  have hlen' : ht'._nodes.data.length < _EMPTY_INDEX := by omega
  have hfE : f ≠ _EMPTY_INDEX := by omega
  rcases hcase with ⟨hhe, hh', ⟨ndf, hgf, e1, e2, e4, e5⟩, hother⟩ |
    ⟨hhe, hh', hfh, ⟨ndf, hgf, e1, e2, e4, e5⟩,
      ⟨hd, hd', hghd, hghd', q1, q2, q3, q4⟩, hother⟩
  · -- the map was empty: the fresh node is the new root
    have hz : ht.size = 0 := hwf.head_iff.mp hhe
    have hdead : ∀ j, ht._nodes.get j = none := fun j => sv_size_zero hz j
    have honly : ∀ j nd, ht'._nodes.get j = some nd → j = f := by
      intro j nd hg
      by_contra hne
      have := hother j hne
      rw [hdead j] at this
      rw [hg] at this
      simp at this
    refine ⟨hlen', ?_, ?_, ?_, ?_, ?_, ?_⟩
    · rw [hh']
      constructor
      · intro he
        exact absurd he hfE
      · intro hs
        rw [hsz, hz] at hs
        simp at hs
    · intro _
      rw [hh', hgf]
      rfl
    · intro hd hg
      rw [hh', hgf] at hg
      cases hg
      exact e5
    · intro j nd hg hne
      rw [hh'] at hne
      exact absurd (honly j nd hg) hne
    · intro j nd hg c hc
      have := honly j nd hg
      subst this
      rw [hgf] at hg
      cases hg
      rw [e4] at hc
      simp at hc
    · intro j nd hg
      have := honly j nd hg
      subst this
      rw [hgf] at hg
      cases hg
      rw [e4]
      exact List.nodup_nil
  · -- non-empty map: appended as the last child of the root
    have hlive : ∀ j, j ≠ f → (ht'._nodes.get j).isSome = (ht._nodes.get j).isSome := by
      intro j hj
      by_cases hjh : j = ht._head_index
      · subst hjh
        rw [hghd, hghd']
        rfl
      · exact (map_treeView_isSome (hother j hj hjh)).symm
    have htrans : ∀ j nd', j ≠ f → j ≠ ht._head_index →
        ht'._nodes.get j = some nd' → ∃ nd, ht._nodes.get j = some nd ∧
          nd'.key = nd.key ∧ nd'.value = nd.value ∧ nd'.childs = nd.childs ∧
          nd'.parent_index = nd.parent_index := by
      intro j nd' hjf hjh hg
      have heq := hother j hjf hjh
      rcases hg0 : ht._nodes.get j with _ | nd0 <;> rw [hg0, hg] at heq
      · simp at heq
      · simp only [Option.map_some', Option.some.injEq, treeView,
          Prod.mk.injEq] at heq
        exact ⟨nd0, rfl, heq.1.symm, heq.2.1.symm, heq.2.2.2.1.symm,
          heq.2.2.2.2.symm⟩
    have hchildlive : ∀ c, c ∈ hd.childs → (ht._nodes.get c).isSome = true := by
      intro c hc
      rcases hwf.child_link ht._head_index hd hghd c hc with ⟨cnd, hcg, _⟩
      rw [hcg]
      rfl
    have hfnotin : f ∉ hd.childs := by
      intro hmem
      have := hchildlive f hmem
      rw [hf] at this
      simp at this
    refine ⟨hlen', ?_, ?_, ?_, ?_, ?_, ?_⟩
    · rw [hh']
      constructor
      · intro he
        exact absurd he hhe
      · intro hs
        rw [hsz] at hs
        simp at hs
    · intro _
      rw [hh', hghd']
      rfl
    · intro nd hg
      rw [hh', hghd'] at hg
      cases hg
      rw [q3]
      exact hwf.head_root hd hghd
    · intro j nd' hg hne
      rw [hh'] at hne
      by_cases hjf : j = f
      · subst hjf
        rw [hgf] at hg
        cases hg
        rw [e5]
        refine ⟨hhe, hd', hghd', ?_⟩
        rw [q4]
        exact List.mem_append.mpr (Or.inr (by simp))
      · rcases htrans j nd' hjf hne hg with ⟨nd0, hg0, _, _, hch, hpar⟩
        rcases hwf.parent_link j nd0 hg0 hne with ⟨hpE, pnd, hpg, hmem⟩
        rw [hpar]
        refine ⟨hpE, ?_⟩
        by_cases hph : nd0.parent_index = ht._head_index
        · rw [hph, hghd']
          refine ⟨hd', rfl, ?_⟩
          rw [q4]
          rw [hph] at hpg
          rw [hghd] at hpg
          cases hpg
          exact List.mem_append.mpr (Or.inl hmem)
        · have hpf : nd0.parent_index ≠ f := by
            intro he
            rw [he, hf] at hpg
            exact absurd hpg (by simp)
          have heq := hother nd0.parent_index hpf hph
          rcases hgp' : ht'._nodes.get nd0.parent_index with _ | pnd' <;>
            rw [hpg, hgp'] at heq
          · simp at heq
          · simp only [Option.map_some', Option.some.injEq, treeView,
              Prod.mk.injEq] at heq
            refine ⟨pnd', rfl, ?_⟩
            rw [← heq.2.2.2.1]
            exact hmem
    · intro j nd' hg c hc
      by_cases hjf : j = f
      · subst hjf
        rw [hgf] at hg
        cases hg
        rw [e4] at hc
        simp at hc
      · by_cases hjh : j = ht._head_index
        · subst hjh
          rw [hghd'] at hg
          cases hg
          rw [q4] at hc
          rcases List.mem_append.mp hc with hc | hc
          · rcases hwf.child_link ht._head_index hd hghd c hc with ⟨cnd, hcg, hcp⟩
            have hcf : c ≠ f := by
              intro he
              rw [he, hf] at hcg
              exact absurd hcg (by simp)
            have heq := hother c hcf (fun he =>
              wf_head_notin_childs hwf hghd (he ▸ hc))
            rcases hgc' : ht'._nodes.get c with _ | cnd' <;>
              rw [hcg, hgc'] at heq
            · simp at heq
            · simp only [Option.map_some', Option.some.injEq, treeView,
                Prod.mk.injEq] at heq
              exact ⟨cnd', rfl, by rw [← heq.2.2.2.2]; exact hcp⟩
          · rcases List.mem_singleton.mp hc with rfl
            exact ⟨ndf, hgf, e5⟩
        · rcases htrans j nd' hjf hjh hg with ⟨nd0, hg0, _, _, hch, hpar⟩
          rw [hch] at hc
          rcases hwf.child_link j nd0 hg0 c hc with ⟨cnd, hcg, hcp⟩
          have hcf : c ≠ f := by
            intro he
            rw [he, hf] at hcg
            exact absurd hcg (by simp)
          by_cases hch2 : c = ht._head_index
          · exact absurd (hwf.head_root cnd (hch2 ▸ hcg))
              (by rw [hcp]; exact fun he => wf_live_ne_empty hwf hg0 he)
          · have heq := hother c hcf hch2
            rcases hgc' : ht'._nodes.get c with _ | cnd' <;>
              rw [hcg, hgc'] at heq
            · simp at heq
            · simp only [Option.map_some', Option.some.injEq, treeView,
                Prod.mk.injEq] at heq
              exact ⟨cnd', rfl, by rw [← heq.2.2.2.2]; exact hcp⟩
    · intro j nd' hg
      by_cases hjf : j = f
      · subst hjf
        rw [hgf] at hg
        cases hg
        rw [e4]
        exact List.nodup_nil
      · by_cases hjh : j = ht._head_index
        · subst hjh
          rw [hghd'] at hg
          cases hg
          rw [q4]
          rw [List.nodup_append]
          exact ⟨hwf.childs_nodup _ hd hghd, List.nodup_singleton f,
            by intro a ha hb; rcases List.mem_singleton.mp hb with rfl; exact hfnotin ha⟩
        · rcases htrans j nd' hjf hjh hg with ⟨nd0, hg0, _, _, hch, _⟩
          rw [hch]
          exact hwf.childs_nodup j nd0 hg0

/-- Appending a fresh node as a new last child of any live node preserves
well-formedness. -/
theorem append_child_wf {K V : Type} {ht ht' : hash_tree K V} {f p : Nat}
    (hwf : WF ht)
    (hlen' : ht'._nodes.data.length < _EMPTY_INDEX)
    (hf : ht._nodes.get f = none)
    (hh' : ht'._head_index = ht._head_index)
    (hsz : ht'.size = ht.size + 1)
    (hgf : ∃ nd, ht'._nodes.get f = some nd ∧ nd.childs = [] ∧
      nd.parent_index = p)
    (hgp : ∃ pnd pnd', ht._nodes.get p = some pnd ∧
      ht'._nodes.get p = some pnd' ∧ pnd'.key = pnd.key ∧
      pnd'.value = pnd.value ∧ pnd'.parent_index = pnd.parent_index ∧
      pnd'.childs = pnd.childs ++ [f])
    (hother : ∀ j, j ≠ f → j ≠ p →
      (ht._nodes.get j).map treeView = (ht'._nodes.get j).map treeView)
    (hne0 : ht._head_index ≠ _EMPTY_INDEX) : WF ht' := by
  rcases hgf with ⟨ndf, hgf, ef4, ef5⟩
  rcases hgp with ⟨pnd, pnd', hgp, hgp', ep1, ep2, ep3, ep4⟩
  have hpE : p ≠ _EMPTY_INDEX := wf_live_ne_empty hwf hgp
  have hfp : f ≠ p := by
    intro he
    rw [he, hgp] at hf
    exact absurd hf (by simp)
  have hfh : f ≠ ht._head_index := by
    intro he
    have := hwf.head_live hne0
    rw [← he, hf] at this
    simp at this
  have hfE : f ≠ _EMPTY_INDEX := by
    have := sv_live_lt hgf
    omega
  have htransP : ∀ j nd', j ≠ f → ht'._nodes.get j = some nd' →
      ∃ nd, ht._nodes.get j = some nd ∧ nd'.key = nd.key ∧
        nd'.value = nd.value ∧ nd'.parent_index = nd.parent_index ∧
        (nd'.childs = nd.childs ∨ (j = p ∧ nd'.childs = nd.childs ++ [f])) := by
    intro j nd' hjf hg
    by_cases hjp : j = p
    · subst hjp
      rw [hgp'] at hg
      cases hg
      exact ⟨pnd, hgp, ep1, ep2, ep3, Or.inr ⟨rfl, ep4⟩⟩
    · have heq := hother j hjf hjp
      rcases hg0 : ht._nodes.get j with _ | nd0 <;> rw [hg0, hg] at heq
      · simp at heq
      · simp only [Option.map_some', Option.some.injEq, treeView,
          Prod.mk.injEq] at heq
        exact ⟨nd0, rfl, heq.1.symm, heq.2.1.symm, heq.2.2.2.2.symm,
          Or.inl heq.2.2.2.1.symm⟩
  have hliveP : ∀ j, j ≠ f →
      (ht'._nodes.get j).isSome = (ht._nodes.get j).isSome := by
    intro j hjf
    by_cases hjp : j = p
    · subst hjp
      rw [hgp, hgp']
      rfl
    · exact (map_treeView_isSome (hother j hjf hjp)).symm
  have hliveF : ∀ j, (ht._nodes.get j).isSome = true →
      (ht'._nodes.get j).isSome = true := by
    intro j hl
    by_cases hjf : j = f
    · rw [hjf, hgf]; rfl
    · rw [hliveP j hjf]; exact hl
  have hmemP : ∀ q qnd qnd', ht._nodes.get q = some qnd →
      ht'._nodes.get q = some qnd' → ∀ x ∈ qnd.childs, x ∈ qnd'.childs := by
    intro q qnd qnd' hq hq' x hx
    by_cases hqf : q = f
    · rw [hqf, hf] at hq
      exact absurd hq (by simp)
    · rcases htransP q qnd' hqf hq' with ⟨qnd0, hq0, _, _, _, hch⟩
      rw [hq] at hq0
      cases hq0
      rcases hch with hch | ⟨_, hch⟩
      · rw [hch]; exact hx
      · rw [hch]; exact List.mem_append.mpr (Or.inl hx)
  refine ⟨hlen', ?_, ?_, ?_, ?_, ?_, ?_⟩
  · rw [hh', hsz]
    constructor
    · intro he
      exact absurd he hne0
    · intro hs
      simp at hs
  · intro _
    rw [hh']
    exact hliveF ht._head_index (hwf.head_live hne0)
  · intro hd' hg'
    rw [hh'] at hg'
    rcases Option.isSome_iff_exists.mp (hwf.head_live hne0) with ⟨hd, hghd⟩
    rcases htransP ht._head_index hd' hfh.symm hg' with ⟨hd0, hg0, _, _, hpar, _⟩
    rw [hghd] at hg0
    cases hg0
    rw [hpar]
    exact hwf.head_root hd hghd
  · intro j nd' hg' hne
    rw [hh'] at hne
    by_cases hjf : j = f
    · subst hjf
      rw [hgf] at hg'
      cases hg'
      rw [ef5]
      exact ⟨hpE, pnd', hgp', by rw [ep4]; exact List.mem_append.mpr (Or.inr (by simp))⟩
    · rcases htransP j nd' hjf hg' with ⟨nd0, hg0, _, _, hpar, _⟩
      rcases hwf.parent_link j nd0 hg0 hne with ⟨hqE, qnd, hq, hqm⟩
      rw [hpar]
      refine ⟨hqE, ?_⟩
      rcases Option.isSome_iff_exists.mp
        (hliveF nd0.parent_index (by rw [hq]; rfl)) with ⟨qnd', hq'⟩
      exact ⟨qnd', hq', hmemP nd0.parent_index qnd qnd' hq hq' j hqm⟩
  · intro x nd' hg' c hc
    by_cases hxf : x = f
    · subst hxf
      rw [hgf] at hg'
      cases hg'
      rw [ef4] at hc
      simp at hc
    · rcases htransP x nd' hxf hg' with ⟨nd0, hg0, _, _, _, hch⟩
      have hcsrc : c ∈ nd0.childs ∨ (x = p ∧ c = f) := by
        rcases hch with hch | ⟨hxp, hch⟩
        · rw [hch] at hc
          exact Or.inl hc
        · rw [hch] at hc
          rcases List.mem_append.mp hc with hc | hc
          · exact Or.inl hc
          · exact Or.inr ⟨hxp, List.mem_singleton.mp hc⟩
      rcases hcsrc with hc0 | ⟨hxp, hcf⟩
      · rcases hwf.child_link x nd0 hg0 c hc0 with ⟨cnd, hcg, hcp⟩
        have hcf : c ≠ f := by
          intro he
          rw [he, hf] at hcg
          exact absurd hcg (by simp)
        rcases htransP c _ hcf
          ((Option.isSome_iff_exists.mp (hliveF c (by rw [hcg]; rfl))).choose_spec)
          with ⟨cnd0, hcg0, _, _, hcpar, _⟩
        rw [hcg] at hcg0
        cases hcg0
        refine ⟨_, (Option.isSome_iff_exists.mp
          (hliveF c (by rw [hcg]; rfl))).choose_spec, ?_⟩
        rw [hcpar, hcp]
      · subst hcf
        subst hxp
        exact ⟨ndf, hgf, ef5⟩
  · intro x nd' hg'
    by_cases hxf : x = f
    · subst hxf
      rw [hgf] at hg'
      cases hg'
      rw [ef4]
      exact List.nodup_nil
    · rcases htransP x nd' hxf hg' with ⟨nd0, hg0, _, _, _, hch⟩
      rcases hch with hch | ⟨hxp, hch⟩
      · rw [hch]
        exact hwf.childs_nodup x nd0 hg0
      · rw [hch]
        rw [List.nodup_append]
        refine ⟨hwf.childs_nodup x nd0 hg0, List.nodup_singleton f, ?_⟩
        intro a ha hb
        rcases List.mem_singleton.mp hb with rfl
        rcases hwf.child_link x nd0 hg0 a ha with ⟨cnd, hcg, _⟩
        rw [hf] at hcg
        exact absurd hcg (by simp)

theorem insertP_wf {K V : Type} [DecidableEq K] {hasher : K → Nat}
    {ht : hash_tree K V} {k : K} {v : V} {par : K} {ht' : hash_tree K V}
    (hwf : WF ht) (hne0 : ht.size ≠ 0)
    (hbud : ht._nodes.data.length + 1 < _EMPTY_INDEX)
    (h : ht.insert_with_parent hasher k v par = some ht') : WF ht' := by
  have hheadE : ht._head_index ≠ _EMPTY_INDEX := fun he => hne0 (hwf.head_iff.mp he)
  rcases insertP_props h with ⟨f, p, hf, hh', hsz, hfle, hlen, _, hcase⟩
  have hlen' : ht'._nodes.data.length < _EMPTY_INDEX := by omega
  rcases hcase with ⟨hpf, ⟨ndf, hgf, e1, e2, e4, e5⟩, hother⟩ |
    ⟨hpf, ⟨ndf, hgf, e1, e2, e4, e5⟩, ⟨pnd, pnd', hgp, hgp', q1, q2, q3, q4⟩, hother⟩
  · -- the parent key resolved to the freshly inserted node itself
    subst hpf
    have hfh : p ≠ ht._head_index := by
      intro he
      have := hwf.head_live hheadE
      rw [← he, hf] at this
      simp at this
    have htrans : ∀ j nd', j ≠ p → ht'._nodes.get j = some nd' →
        ∃ nd, ht._nodes.get j = some nd ∧ nd'.key = nd.key ∧
          nd'.value = nd.value ∧ nd'.parent_index = nd.parent_index ∧
          nd'.childs = nd.childs := by
      intro j nd' hjf hg
      have heq := hother j hjf
      rcases hg0 : ht._nodes.get j with _ | nd0 <;> rw [hg0, hg] at heq
      · simp at heq
      · simp only [Option.map_some', Option.some.injEq, treeView,
          Prod.mk.injEq] at heq
        exact ⟨nd0, rfl, heq.1.symm, heq.2.1.symm, heq.2.2.2.2.symm,
          heq.2.2.2.1.symm⟩
    have hliveF : ∀ j, (ht._nodes.get j).isSome = true →
        (ht'._nodes.get j).isSome = true := by
      intro j hl
      by_cases hjf : j = p
      · rw [hjf, hgf]; rfl
      · rw [(map_treeView_isSome (hother j hjf)).symm]; exact hl
    refine ⟨hlen', ?_, ?_, ?_, ?_, ?_, ?_⟩
    · rw [hh', hsz]
      exact ⟨fun he => absurd he hheadE, fun hs => by simp at hs⟩
    · intro _
      rw [hh']
      exact hliveF ht._head_index (hwf.head_live hheadE)
    · intro hd' hg'
      rw [hh'] at hg'
      rcases Option.isSome_iff_exists.mp (hwf.head_live hheadE) with ⟨hd, hghd⟩
      rcases htrans ht._head_index hd' (Ne.symm hfh) hg' with ⟨hd0, hg0, _, _, hpar, _⟩
      rw [hghd] at hg0
      cases hg0
      rw [hpar]
      exact hwf.head_root hd hghd
    · intro j nd' hg' hne
      rw [hh'] at hne
      by_cases hjf : j = p
      · subst hjf
        rw [hgf] at hg'
        cases hg'
        rw [e5]
        refine ⟨?_, ndf, hgf, by rw [e4]; simp⟩
        have h1 := sv_live_lt hgf
        omega
      · rcases htrans j nd' hjf hg' with ⟨nd0, hg0, _, _, hpar, _⟩
        rcases hwf.parent_link j nd0 hg0 hne with ⟨hqE, qnd, hq, hqm⟩
        have hqf : nd0.parent_index ≠ p := by
          intro he
          rw [he, hf] at hq
          exact absurd hq (by simp)
        rcases htrans nd0.parent_index _ hqf
          ((Option.isSome_iff_exists.mp (hliveF _ (by rw [hq]; rfl))).choose_spec)
          with ⟨qnd0, hq0, _, _, _, hqch⟩
        rw [hq] at hq0
        cases hq0
        rw [hpar]
        refine ⟨hqE, _, (Option.isSome_iff_exists.mp
          (hliveF _ (by rw [hq]; rfl))).choose_spec, ?_⟩
        rw [hqch]
        exact hqm
    · intro x nd' hg' c hc
      by_cases hxf : x = p
      · subst hxf
        rw [hgf] at hg'
        cases hg'
        rw [e4] at hc
        rcases List.mem_singleton.mp hc with rfl
        exact ⟨ndf, hgf, e5⟩
      · rcases htrans x nd' hxf hg' with ⟨nd0, hg0, _, _, _, hch⟩
        rw [hch] at hc
        rcases hwf.child_link x nd0 hg0 c hc with ⟨cnd, hcg, hcp⟩
        have hcf : c ≠ p := by
          intro he
          rw [he, hf] at hcg
          exact absurd hcg (by simp)
        rcases htrans c _ hcf
          ((Option.isSome_iff_exists.mp (hliveF c (by rw [hcg]; rfl))).choose_spec)
          with ⟨cnd0, hcg0, _, _, hcpar, _⟩
        rw [hcg] at hcg0
        cases hcg0
        refine ⟨_, (Option.isSome_iff_exists.mp
          (hliveF c (by rw [hcg]; rfl))).choose_spec, ?_⟩
        rw [hcpar, hcp]
    · intro x nd' hg'
      by_cases hxf : x = p
      · subst hxf
        rw [hgf] at hg'
        cases hg'
        rw [e4]
        exact List.nodup_singleton _
      · rcases htrans x nd' hxf hg' with ⟨nd0, hg0, _, _, _, hch⟩
        rw [hch]
        exact hwf.childs_nodup x nd0 hg0
  · exact append_child_wf hwf hlen' hf hh' hsz ⟨ndf, hgf, e4, e5⟩
      ⟨pnd, pnd', hgp, hgp', q1, q2, q3, q4⟩
      (fun j hjf hjp => hother j hjf hjp) hheadE

theorem erase_wf {K V : Type} [DecidableEq K] {hasher : K → Nat}
    {ht : hash_tree K V} {key : K} {ht' : hash_tree K V}
    (hwf : WF ht) (h : ht.erase hasher key = some ht') : WF ht' := by
  have hEr := h
  rw [hash_tree.erase] at h
  simp only [Option.bind_eq_bind] at h
  rcases Option.bind_eq_some.mp h with ⟨i, hidx, h2⟩
  by_cases hih : i = ht._head_index
  · rw [if_pos hih] at h2
    simp only [Option.pure_def, Option.some.injEq] at h2
    rw [← h2]
    exact clear_wf ht
  · rcases erase_nonroot_props hwf hidx hih hEr with
      ⟨ndi, hgi, hh', hlen', hlive, hrec, _, _⟩
    have hheadE : ht._head_index ≠ _EMPTY_INDEX := by
      intro he
      have hs := hwf.head_iff.mp he
      have h1 : (ht._nodes.get i).isSome = true := by rw [hgi]; rfl
      have h2 := live_one_le h1
      rw [show ht.size = ht._nodes.size from rfl] at hs
      omega
    have hheadL := hwf.head_live hheadE
    have hnrH : ¬ Reach ht._nodes i ht._head_index := by
      intro hr
      rcases reach_last hr with he | ⟨p, nd, hgp, hmem⟩
      · exact hih he.symm
      · exact wf_head_notin_childs hwf hgp hmem
    have hheadL' : (ht'._nodes.get ht._head_index).isSome = true :=
      (hlive _).mpr ⟨hheadL, hnrH⟩
    have hiDead : (ht'._nodes.get i).isSome = false := by
      rcases hl : (ht'._nodes.get i).isSome with _ | _
      · rfl
      · exact absurd Reach.refl ((hlive i).mp hl).2
    refine ⟨by rw [hlen']; exact hwf.len_lt, ?_, ?_, ?_, ?_, ?_, ?_⟩
    · rw [hh']
      have hs' : 1 ≤ ht'.size := live_one_le hheadL'
      exact ⟨fun he => absurd he hheadE, fun hs => by omega⟩
    · intro _
      rw [hh']
      exact hheadL'
    · intro hd' hg'
      rw [hh'] at hg'
      rcases hrec _ _ hg' with ⟨hd, hghd, _, _, hpar, _⟩
      rw [hpar]
      exact hwf.head_root hd hghd
    · intro j nd' hg' hne
      rw [hh'] at hne
      rcases hrec _ _ hg' with ⟨nd, hgj, _, _, hpar, hch⟩
      rcases hwf.parent_link j nd hgj hne with ⟨hpne, pnd, hgp, hmem⟩
      have hjl : (ht'._nodes.get j).isSome = true := by rw [hg']; rfl
      have hnrj : ¬ Reach ht._nodes i j := ((hlive j).mp hjl).2
      have hnrp : ¬ Reach ht._nodes i nd.parent_index := by
        intro hr
        exact hnrj (Reach.step hr hgp hmem)
      have hpl' : (ht'._nodes.get nd.parent_index).isSome = true :=
        (hlive _).mpr ⟨by rw [hgp]; rfl, hnrp⟩
      rcases Option.isSome_iff_exists.mp hpl' with ⟨pnd', hgp'⟩
      rcases hrec _ _ hgp' with ⟨pnd0, hgp0, _, _, _, hpch⟩
      rw [hgp] at hgp0
      cases hgp0
      have hji : j ≠ i := by
        intro he
        rw [he] at hjl
        rw [hjl] at hiDead
        exact absurd hiDead (by simp)
      rw [hpar]
      refine ⟨hpne, pnd', hgp', ?_⟩
      rw [hpch]
      by_cases hc : nd.parent_index = ndi.parent_index
      · rw [if_pos hc]
        exact List.mem_filter.mpr ⟨hmem, by simpa using hji⟩
      · rw [if_neg hc]
        exact hmem
    · intro x nd' hg' c hc
      rcases hrec _ _ hg' with ⟨nd, hgx, _, _, _, hch⟩
      have hcmem : c ∈ nd.childs := by
        rw [hch] at hc
        by_cases hx : x = ndi.parent_index
        · rw [if_pos hx] at hc
          exact (List.mem_filter.mp hc).1
        · rw [if_neg hx] at hc
          exact hc
      rcases hwf.child_link x nd hgx c hcmem with ⟨cnd, hgc, hcp⟩
      have hxl : (ht'._nodes.get x).isSome = true := by rw [hg']; rfl
      have hnrx : ¬ Reach ht._nodes i x := ((hlive x).mp hxl).2
      have hci : c ≠ i := by
        intro he
        rcases hwf.parent_link i ndi hgi hih with ⟨_, qnd, hgq, hqmem⟩
        have hx : x = ndi.parent_index :=
          wf_unique_parent hwf hgx hgq (he ▸ hcmem) hqmem
        rw [hch, if_pos hx] at hc
        exact absurd he (by simpa using (List.mem_filter.mp hc).2)
      have hnrc : ¬ Reach ht._nodes i c := by
        intro hr
        cases hr with
        | refl => exact hci rfl
        | step hp hg hmem =>
          next q qnd =>
          have hq : q = x := wf_unique_parent hwf hg hgx hmem hcmem
          exact hnrx (hq ▸ hp)
      have hcl' : (ht'._nodes.get c).isSome = true :=
        (hlive c).mpr ⟨by rw [hgc]; rfl, hnrc⟩
      rcases Option.isSome_iff_exists.mp hcl' with ⟨cnd', hgc'⟩
      rcases hrec _ _ hgc' with ⟨cnd0, hgc0, _, _, hcp', _⟩
      rw [hgc] at hgc0
      cases hgc0
      exact ⟨cnd', hgc', by rw [hcp', hcp]⟩
    · intro x nd' hg'
      rcases hrec _ _ hg' with ⟨nd, hgx, _, _, _, hch⟩
      rw [hch]
      by_cases hx : x = ndi.parent_index
      · rw [if_pos hx]
        exact (hwf.childs_nodup x nd hgx).filter _
      · rw [if_neg hx]
        exact hwf.childs_nodup x nd hgx

theorem set_parent_wf {K V : Type} [DecidableEq K] {hasher : K → Nat}
    {ht : hash_tree K V} {key npar : K} {i : Nat} {ht' : hash_tree K V}
    (hwf : WF ht)
    (hidx : ht.index hasher key = some i)
    (hne : i ≠ ht._head_index)
    (h : ht.set_parent hasher key npar = some ht') : WF ht' := by
  rcases set_parent_props hwf hidx hne h with
    ⟨p, ndi, hgi, hpl, hh', hsz, _, hlen', hlive, hrec⟩
  rcases Option.isSome_iff_exists.mp hpl with ⟨pnd, hgp⟩
  have hiL' : (ht'._nodes.get i).isSome = true := by rw [hlive, hgi]; rfl
  refine ⟨by rw [hlen']; exact hwf.len_lt, ?_, ?_, ?_, ?_, ?_, ?_⟩
  · rw [hh', hsz]
    exact hwf.head_iff
  · intro hh
    rw [hh'] at hh ⊢
    rw [hlive]
    exact hwf.head_live hh
  · intro hd' hg'
    rw [hh'] at hg'
    rcases hrec _ _ hg' with ⟨hd, hghd, _, _, hpar, _⟩
    rw [hpar, if_neg (Ne.symm hne)]
    exact hwf.head_root hd hghd
  · intro j nd' hg' hjh
    rw [hh'] at hjh
    rcases hrec _ _ hg' with ⟨nd, hgj, _, _, hpar, hch⟩
    by_cases hji : j = i
    · subst hji
      rw [hpar, if_pos rfl]
      have hpL' : (ht'._nodes.get p).isSome = true := by rw [hlive]; exact hpl
      rcases Option.isSome_iff_exists.mp hpL' with ⟨pnd', hgp'⟩
      rcases hrec _ _ hgp' with ⟨pnd0, hgp0, _, _, _, hpch⟩
      rw [hgp] at hgp0
      cases hgp0
      refine ⟨wf_live_ne_empty hwf hgp, pnd', hgp', ?_⟩
      rw [hpch, show (if p = p then [j] else []) = [j] from if_pos rfl]
      exact List.mem_append.mpr (Or.inr (List.mem_singleton.mpr rfl))
    · rw [hpar, if_neg hji]
      rcases hwf.parent_link j nd hgj hjh with ⟨hpne, qnd, hgq, hqmem⟩
      have hqL' : (ht'._nodes.get nd.parent_index).isSome = true := by
        rw [hlive, hgq]
        rfl
      rcases Option.isSome_iff_exists.mp hqL' with ⟨qnd', hgq'⟩
      rcases hrec _ _ hgq' with ⟨qnd0, hgq0, _, _, _, hqch⟩
      rw [hgq] at hgq0
      cases hgq0
      refine ⟨hpne, qnd', hgq', ?_⟩
      rw [hqch]
      refine List.mem_append.mpr (Or.inl ?_)
      by_cases hqp : nd.parent_index = ndi.parent_index
      · rw [if_pos hqp]
        exact List.mem_filter.mpr ⟨hqmem, by simpa using hji⟩
      · rw [if_neg hqp]
        exact hqmem
  · intro x nd' hg' c hc
    rcases hrec _ _ hg' with ⟨nd, hgx, _, _, _, hch⟩
    rw [hch] at hc
    rcases List.mem_append.mp hc with hcA | hcB
    · have hcmem : c ∈ nd.childs := by
        by_cases hx : x = ndi.parent_index
        · rw [if_pos hx] at hcA
          exact (List.mem_filter.mp hcA).1
        · rw [if_neg hx] at hcA
          exact hcA
      rcases hwf.child_link x nd hgx c hcmem with ⟨cnd, hgc, hcp⟩
      have hci : c ≠ i := by
        intro he
        have hx : ndi.parent_index = x := by
          rw [he] at hgc
          rw [hgc] at hgi
          cases hgi
          exact hcp
        rw [if_pos hx.symm] at hcA
        exact absurd he (by simpa using (List.mem_filter.mp hcA).2)
      have hcL' : (ht'._nodes.get c).isSome = true := by rw [hlive, hgc]; rfl
      rcases Option.isSome_iff_exists.mp hcL' with ⟨cnd', hgc'⟩
      rcases hrec _ _ hgc' with ⟨cnd0, hgc0, _, _, hcpar, _⟩
      rw [hgc] at hgc0
      cases hgc0
      refine ⟨cnd', hgc', ?_⟩
      rw [hcpar, if_neg hci, hcp]
    · have hxc : x = p ∧ c = i := by
        by_cases hx : x = p
        · rw [if_pos hx] at hcB
          exact ⟨hx, List.mem_singleton.mp hcB⟩
        · rw [if_neg hx] at hcB
          exact absurd hcB (List.not_mem_nil c)
      rcases hxc with ⟨he1, he2⟩
      rcases Option.isSome_iff_exists.mp hiL' with ⟨ind', hgi'⟩
      rcases hrec _ _ hgi' with ⟨ind0, hgi0, _, _, hipar, _⟩
      rw [hgi] at hgi0
      cases hgi0
      rw [he2, he1]
      exact ⟨ind', hgi', by rw [hipar, if_pos rfl]⟩
  · intro x nd' hg'
    rcases hrec _ _ hg' with ⟨nd, hgx, _, _, _, hch⟩
    rw [hch]
    have hAnodup : (if x = ndi.parent_index
        then nd.childs.filter (fun c => c ≠ i) else nd.childs).Nodup := by
      by_cases hx : x = ndi.parent_index
      · rw [if_pos hx]
        exact (hwf.childs_nodup x nd hgx).filter _
      · rw [if_neg hx]
        exact hwf.childs_nodup x nd hgx
    by_cases hxp : x = p
    · rw [if_pos hxp]
      have hiA : i ∉ (if x = ndi.parent_index
          then nd.childs.filter (fun c => c ≠ i) else nd.childs) := by
        by_cases hx : x = ndi.parent_index
        · rw [if_pos hx]
          intro hmem
          have hcon := (List.mem_filter.mp hmem).2
          simp at hcon
        · rw [if_neg hx]
          intro hmem
          rcases hwf.child_link x nd hgx i hmem with ⟨ind0, hgi0, hip⟩
          rw [hgi] at hgi0
          cases hgi0
          exact hx hip.symm
      rw [List.nodup_append]
      exact ⟨hAnodup, List.nodup_singleton _,
        fun a ha hb => hiA (List.mem_singleton.mp hb ▸ ha)⟩
    · rw [if_neg hxp, List.append_nil]
      exact hAnodup

theorem init_wf (K V : Type) : WF (hash_tree.init K V) := by
  refine ⟨?_, ⟨fun _ => rfl, fun _ => rfl⟩, ?_, ?_, ?_, ?_, ?_⟩
  · show 0 < _EMPTY_INDEX
    rw [_EMPTY_INDEX]
    omega
  · intro hh
    exact absurd rfl hh
  · intro hd hg
    exact absurd hg (by simp [hash_tree.init, sparse_vector.get, lGet])
  · intro i nd hg
    exact absurd hg (by simp [hash_tree.init, sparse_vector.get, lGet])
  · intro i nd hg
    exact absurd hg (by simp [hash_tree.init, sparse_vector.get, lGet])
  · intro i nd hg
    exact absurd hg (by simp [hash_tree.init, sparse_vector.get, lGet])

theorem stepSafe_wf_len {K V : Type} [DecidableEq K] {hasher : K → Nat}
    {ht : hash_tree K V} {op : Op K V} {ht' : hash_tree K V}
    (hwf : WF ht) (hbud : ht._nodes.data.length + 1 < _EMPTY_INDEX)
    (h : stepSafe hasher ht op = some ht') :
    WF ht' ∧ ht'._nodes.data.length ≤ ht._nodes.data.length + 1 := by
  cases op with
  | ins k v =>
    have h2 : ht.insert hasher k v = some ht' := h
    refine ⟨insert_wf hwf hbud h2, ?_⟩
    rcases insert_props hwf.head_live h2 with ⟨_, _, _, _, _, hlen, _⟩
    exact hlen
  | insP k v p =>
    have h2 : (if ht.size = 0 then none
        else ht.insert_with_parent hasher k v p) = some ht' := h
    split at h2
    · exact absurd h2 (by simp)
    · next hsz =>
      refine ⟨insertP_wf hwf hsz hbud h2, ?_⟩
      rcases insertP_props h2 with ⟨_, _, _, _, _, _, hlen, _, _⟩
      exact hlen
  | er k =>
    have h2 : ht.erase hasher k = some ht' := h
    refine ⟨erase_wf hwf h2, ?_⟩
    rw [hash_tree.erase] at h2
    simp only [Option.bind_eq_bind] at h2
    rcases Option.bind_eq_some.mp h2 with ⟨i, hidx, h3⟩
    by_cases hih : i = ht._head_index
    · rw [if_pos hih] at h3
      simp only [Option.pure_def, Option.some.injEq] at h3
      rw [← h3]
      have hcl : (ht.clear)._nodes.data.length = 0 := rfl
      omega
    · rw [if_neg hih] at h3
      rcases erase_nonroot_props hwf hidx hih h2 with ⟨_, _, _, hlen, _, _, _, _⟩
      omega
  | setPar k p =>
    have h2 : (match ht.index hasher k with
      | none => none
      | some i =>
        if i = ht._head_index then none
        else ht.set_parent hasher k p) = some ht' := h
    rcases hidx : ht.index hasher k with _ | i <;> rw [hidx] at h2
    · exact absurd h2 (by simp)
    · dsimp only at h2
      split at h2
      · exact absurd h2 (by simp)
      · next hih =>
        rcases set_parent_props hwf hidx hih h2 with
          ⟨_, _, _, _, _, _, _, hlen, _, _⟩
        exact ⟨set_parent_wf hwf hidx hih h2, by omega⟩

theorem runSafeFrom_wf {K V : Type} [DecidableEq K] {hasher : K → Nat}
    {ops : List (Op K V)} {ht ht' : hash_tree K V} (hwf : WF ht)
    (hbud : ht._nodes.data.length + ops.length < _EMPTY_INDEX)
    (h : runSafeFrom hasher ht ops = some ht') : WF ht' := by
  induction ops generalizing ht with
  | nil =>
    have h2 : some ht = some ht' := h
    cases h2
    exact hwf
  | cons op ops ih =>
    have h2 : (stepSafe hasher ht op).bind
        (fun ht1 => runSafeFrom hasher ht1 ops) = some ht' := h
    rcases Option.bind_eq_some.mp h2 with ⟨ht1, hstep, hrest⟩
    have hc : (op :: ops).length = ops.length + 1 := rfl
    rcases stepSafe_wf_len hwf (by omega) hstep with ⟨hwf1, hl1⟩
    exact ih hwf1 (by omega) hrest

theorem _insert_table_pos {K V : Type} [DecidableEq K] {hasher : K → Nat}
    {ht : hash_tree K V} {k : K} {v : V} {r : Nat × hash_tree K V}
    (h : ht._insert hasher k v = some r) : 1 ≤ ht.table_size := by
  rw [hash_tree._insert] at h
  simp only [Option.bind_eq_bind] at h
  split at h
  · next htrig =>
    rcases Option.bind_eq_some.mp h with ⟨y, hy, h2⟩
    rcases rehash_props hy with ⟨_, _, _, _, m5⟩
    rcases Option.bind_eq_some.mp h2 with ⟨b, hb, _⟩
    rw [mod?] at hb
    split at hb
    · exact absurd hb (by simp)
    · next hz =>
      have hz' : y._table.length ≠ 0 := hz
      show 1 ≤ ht._table.length
      have m5' : y._table.length = ht._table.length * 2 := m5
      omega
  · next htrig =>
    rw [Option.some_bind] at h
    rcases Option.bind_eq_some.mp h with ⟨b, hb, _⟩
    rw [mod?] at hb
    split at hb
    · exact absurd hb (by simp)
    · next hz =>
      have hz' : ht._table.length ≠ 0 := hz
      show 1 ≤ ht._table.length
      omega

theorem remove_child_size {K V : Type}
    {nodes nodes' : sparse_vector (hash_tree_node K V)} {i : Nat}
    (h : remove_child nodes i = some nodes') :
    nodes'.size = nodes.size ∧ nodes'.data.length = nodes.data.length ∧
      ∀ j, (nodes'.get j).isSome = (nodes.get j).isSome := by
  rw [remove_child] at h
  split at h
  · exact absurd h (by simp)
  · next cnd hgc =>
    split at h
    · exact absurd h (by simp)
    · next pnd hgp =>
      cases h
      exact ⟨sv_setSlot_size_of_live _ hgp, sv_setSlot_length _ _ _,
        sv_setSlot_isSome_of_live _ hgp⟩

theorem _set_parent_tail_size {K V : Type}
    {nodes1 nodesF : sparse_vector (hash_tree_node K V)} {i p : Nat}
    (h : (match nodes1.get p with
      | none => none
      | some pnd =>
        match (nodes1.setSlot p { pnd with childs := pnd.childs ++ [i] }).get i with
        | none => none
        | some nd =>
          some ((nodes1.setSlot p { pnd with childs := pnd.childs ++ [i] }).setSlot i
            { nd with parent_index := p })) = some nodesF) :
    nodesF.size = nodes1.size ∧ nodesF.data.length = nodes1.data.length := by
  rcases hgp : nodes1.get p with _ | pnd <;> rw [hgp] at h
  · exact absurd h (by simp)
  dsimp only at h
  rcases hgi2 : (nodes1.setSlot p { pnd with childs := pnd.childs ++ [i] }).get i
    with _ | nd2 <;> rw [hgi2] at h
  · exact absurd h (by simp)
  cases h
  constructor
  · rw [sv_setSlot_size_of_live _ hgi2, sv_setSlot_size_of_live _ hgp]
  · rw [sv_setSlot_length, sv_setSlot_length]

theorem set_parent_size_table {K V : Type} [DecidableEq K] {hasher : K → Nat}
    {ht : hash_tree K V} {key npar : K} {ht' : hash_tree K V}
    (h : ht.set_parent hasher key npar = some ht') :
    ht'.size = ht.size ∧ ht'._table = ht._table ∧
      ht'._nodes.data.length = ht._nodes.data.length := by
  rw [hash_tree.set_parent] at h
  simp only [Option.bind_eq_bind] at h
  rcases Option.bind_eq_some.mp h with ⟨i, hidx, h2⟩
  rcases Option.bind_eq_some.mp h2 with ⟨p, hpidx, h3⟩
  rcases Option.bind_eq_some.mp h3 with ⟨nodesF, hsp, h4⟩
  simp only [Option.pure_def, Option.some.injEq] at h4
  subst h4
  rw [_set_parent] at hsp
  simp only [Option.bind_eq_bind] at hsp
  rcases hgi : ht._nodes.get i with _ | ndi <;> rw [hgi] at hsp
  · rw [Option.none_bind] at hsp
    exact absurd hsp (by simp)
  dsimp only at hsp
  split at hsp
  · rcases Option.bind_eq_some.mp hsp with ⟨nodes1, hn1, h5⟩
    rcases remove_child_size hn1 with ⟨hsz1, hlen1, _⟩
    rcases _set_parent_tail_size h5 with ⟨q1, q2⟩
    refine ⟨?_, rfl, ?_⟩
    · show nodesF.size = ht._nodes.size
      rw [q1, hsz1]
    · show nodesF.data.length = ht._nodes.data.length
      rw [q2, hlen1]
  · rw [Option.some_bind] at hsp
    rcases _set_parent_tail_size hsp with ⟨q1, q2⟩
    exact ⟨q1, rfl, q2⟩

theorem step_load {K V : Type} [DecidableEq K] {hasher : K → Nat}
    {ht : hash_tree K V} {op : Op K V} {ht' : hash_tree K V}
    (hwf : WF ht) (hinv : LoadInv ht) (h : step hasher ht op = some ht') :
    LoadInv ht' := by
  have eth : ht.table_size = ht._table.length := rfl
  have eth' : ht'.table_size = ht'._table.length := rfl
  cases op with
  | ins k v =>
    have h2 : ht.insert hasher k v = some ht' := h
    have h3 := h2
    rw [hash_tree.insert] at h3
    simp only [Option.bind_eq_bind] at h3
    rcases Option.bind_eq_some.mp h3 with ⟨r, hins, _⟩
    have hts := _insert_table_pos hins
    rcases insert_props hwf.head_live h2 with ⟨_, _, _, hsz, _, _, htab⟩
    rw [LoadInv] at hinv ⊢
    rcases htab with ⟨hle, htl⟩ | ⟨hgt, htl⟩ <;> omega
  | insP k v p =>
    have h2 : ht.insert_with_parent hasher k v p = some ht' := h
    have h3 := h2
    rw [hash_tree.insert_with_parent] at h3
    simp only [Option.bind_eq_bind] at h3
    rcases Option.bind_eq_some.mp h3 with ⟨r, hins, _⟩
    have hts := _insert_table_pos hins
    rcases insertP_props h2 with ⟨_, _, _, _, hsz, _, _, htab, _⟩
    rw [LoadInv] at hinv ⊢
    rcases htab with ⟨hle, htl⟩ | ⟨hgt, htl⟩ <;> omega
  | er k =>
    have h2 : ht.erase hasher k = some ht' := h
    have h3 := h2
    rw [hash_tree.erase] at h3
    simp only [Option.bind_eq_bind] at h3
    rcases Option.bind_eq_some.mp h3 with ⟨i, hidx, h4⟩
    by_cases hih : i = ht._head_index
    · rw [if_pos hih] at h4
      simp only [Option.pure_def, Option.some.injEq] at h4
      rw [← h4]
      rw [LoadInv]
      have e1 : (ht.clear).size = 0 := rfl
      omega
    · rw [if_neg hih] at h4
      rcases erase_nonroot_props hwf hidx hih h2 with
        ⟨_, _, _, _, _, _, hsize, htab⟩
      rw [LoadInv] at hinv ⊢
      rcases htab with htl | ⟨hsm, htl⟩ <;> omega
  | setPar k p =>
    have h2 : ht.set_parent hasher k p = some ht' := h
    rcases set_parent_size_table h2 with ⟨hsz, htb, _⟩
    rw [LoadInv] at hinv ⊢
    rw [eth', htb, hsz]
    omega

theorem step_table_min {K V : Type} [DecidableEq K] {hasher : K → Nat}
    {ht : hash_tree K V} {op : Op K V} {ht' : hash_tree K V}
    (hwf : WF ht) (h2 : 2 ≤ ht.table_size) (h : step hasher ht op = some ht') :
    2 ≤ ht'.table_size ∨ ht' = ht.clear := by
  have eth : ht.table_size = ht._table.length := rfl
  have eth' : ht'.table_size = ht'._table.length := rfl
  cases op with
  | ins k v =>
    have hx : ht.insert hasher k v = some ht' := h
    rcases insert_props hwf.head_live hx with ⟨_, _, _, _, _, _, htab⟩
    refine Or.inl ?_
    rcases htab with ⟨_, htl⟩ | ⟨_, htl⟩ <;> omega
  | insP k v p =>
    have hx : ht.insert_with_parent hasher k v p = some ht' := h
    rcases insertP_props hx with ⟨_, _, _, _, _, _, _, htab, _⟩
    refine Or.inl ?_
    rcases htab with ⟨_, htl⟩ | ⟨_, htl⟩ <;> omega
  | er k =>
    have hx : ht.erase hasher k = some ht' := h
    have h3 := hx
    rw [hash_tree.erase] at h3
    simp only [Option.bind_eq_bind] at h3
    rcases Option.bind_eq_some.mp h3 with ⟨i, hidx, h4⟩
    by_cases hih : i = ht._head_index
    · rw [if_pos hih] at h4
      simp only [Option.pure_def, Option.some.injEq] at h4
      exact Or.inr h4.symm
    · rw [if_neg hih] at h4
      rcases erase_nonroot_props hwf hidx hih hx with
        ⟨ndi, hgi, hh', _, _, _, _, htab⟩
      refine Or.inl ?_
      rcases htab with htl | ⟨hsm, htl⟩
      · omega
      · have hwf' := erase_wf hwf hx
        have hheadE : ht._head_index ≠ _EMPTY_INDEX := by
          intro he
          have hs := hwf.head_iff.mp he
          have hl : (ht._nodes.get i).isSome = true := by rw [hgi]; rfl
          have hone := live_one_le hl
          rw [show ht.size = ht._nodes.size from rfl] at hs
          omega
        have hs' : ht'.size ≠ 0 := by
          intro hz
          exact hheadE (by rw [← hh']; exact hwf'.head_iff.mpr hz)
        have es : ht'.size = ht'.size := rfl
        omega
  | setPar k p =>
    have hx : ht.set_parent hasher k p = some ht' := h
    rcases set_parent_size_table hx with ⟨_, htb, _⟩
    refine Or.inl ?_
    rw [eth', htb]
    omega

theorem nextPres_refl {K V : Type} (nodes : sparse_vector (hash_tree_node K V)) :
    NextPres nodes nodes :=
  fun _ nd hg => ⟨nd, hg, rfl, rfl, rfl, fun _ => rfl⟩

theorem nextPres_trans {K V : Type}
    {a b c : sparse_vector (hash_tree_node K V)}
    (h1 : NextPres a b) (h2 : NextPres b c) : NextPres a c := by
  intro j nd hg
  rcases h1 j nd hg with ⟨nd', hg', e1, e2, e3, e4⟩
  rcases h2 j nd' hg' with ⟨nd'', hg'', f1, f2, f3, f4⟩
  refine ⟨nd'', hg'', f1.trans e1, f2.trans e2, f3.trans e3, ?_⟩
  intro hne
  rw [f4 (by rw [e4 hne]; exact hne), e4 hne]

theorem insert_map_chain_next {K V : Type} {x : Nat} :
    ∀ {fuel i : Nat} {nodes out : sparse_vector (hash_tree_node K V)},
      insert_map_chain nodes x fuel i = some out → NextPres nodes out
  | 0, _, _, _, h => by simp [insert_map_chain] at h
  | fuel + 1, i, nodes, out, h => by
    rw [insert_map_chain] at h
    split at h
    · exact absurd h (by simp)
    · next nd hg =>
      split at h
      · next hnE =>
        cases h
        intro j ndj hgj
        by_cases hji : j = i
        · subst hji
          rw [hg] at hgj
          cases hgj
          exact ⟨{ nd with next_index := x },
            sv_setSlot_get_self _ (sv_live_lt hg), rfl, rfl, rfl,
            fun hne => absurd hnE hne⟩
        · exact ⟨ndj, by rw [sv_setSlot_get_ne _ _ hji]; exact hgj,
            rfl, rfl, rfl, fun _ => rfl⟩
      · exact insert_map_chain_next h

theorem index_chain_preserved {K V : Type} [DecidableEq K]
    {nodes nodes' : sparse_vector (hash_tree_node K V)} {hv : Nat} {key : K}
    (hnp : NextPres nodes nodes') :
    ∀ {fuel fuel' i r : Nat}, index_chain nodes hv key fuel i = some r →
      r ≠ _EMPTY_INDEX → fuel ≤ fuel' →
      index_chain nodes' hv key fuel' i = some r
  | 0, _, _, _, h, _, _ => by simp [index_chain] at h
  | fuel + 1, fuel', i, r, h, hr, hle => by
    rw [index_chain] at h
    split at h
    · exact absurd h (by simp)
    · next nd hg =>
      rcases hnp _ _ hg with ⟨nd', hg', e1, e2, _, e4⟩
      cases fuel' with
      | zero => omega
      | succ f2 =>
        rw [index_chain, hg']
        dsimp only
        split at h
        · next hnE =>
          split at h
          · next hm =>
            cases h
            have hm' : nd'.hash_value = hv ∧ nd'.key = key := by
              rw [e1, e2]
              exact hm
            by_cases hnE' : nd'.next_index = _EMPTY_INDEX
            · rw [if_pos hnE', if_pos hm']
            · rw [if_neg hnE', if_pos hm']
          · cases h
            exact absurd rfl hr
        · next hnE =>
          split at h
          · next hm =>
            cases h
            have hm' : nd'.hash_value = hv ∧ nd'.key = key := by
              rw [e1, e2]
              exact hm
            by_cases hnE' : nd'.next_index = _EMPTY_INDEX
            · rw [if_pos hnE', if_pos hm']
            · rw [if_neg hnE', if_pos hm']
          · next hm =>
            have hm' : ¬ (nd'.hash_value = hv ∧ nd'.key = key) := by
              rw [e1, e2]
              exact hm
            have hnx : nd'.next_index = nd.next_index := e4 hnE
            rw [if_neg (by rw [hnx]; exact hnE), if_neg hm', hnx]
            exact index_chain_preserved hnp h hr (by omega)

theorem index_preserved {K V : Type} [DecidableEq K] {hasher : K → Nat}
    {ht ht' : hash_tree K V} {key : K} {r : Nat}
    (htb : ht'._table = ht._table)
    (hlen : ht._nodes.data.length ≤ ht'._nodes.data.length)
    (hnp : NextPres ht._nodes ht'._nodes)
    (h : ht.index hasher key = some r) (hr : r ≠ _EMPTY_INDEX) :
    ht'.index hasher key = some r := by
  rw [hash_tree.index] at h ⊢
  simp only [Option.bind_eq_bind] at h ⊢
  rcases Option.bind_eq_some.mp h with ⟨b, hb, h2⟩
  have hts : ht'.table_size = ht.table_size := by
    show ht'._table.length = ht._table.length
    rw [htb]
  rw [hts, hb, Option.some_bind, htb]
  rcases hg : lGet ht._table b with _ | c0 <;> rw [hg] at h2
  · exact absurd h2 (by simp)
  dsimp only at h2 ⊢
  by_cases hc : c0 = _EMPTY_INDEX
  · rw [if_pos hc] at h2
    simp only [Option.pure_def, Option.some.injEq] at h2
    exact absurd h2.symm hr
  · rw [if_neg hc] at h2
    rw [if_neg hc]
    exact index_chain_preserved hnp h2 hr (by omega)

theorem _insert_chain_props {K V : Type} [DecidableEq K] {hasher : K → Nat}
    {ht : hash_tree K V} {k : K} {v : V} {f : Nat} {htA : hash_tree K V}
    (hnogrow : ¬ 10 * ht.size > 9 * ht.table_size)
    (hins : ht._insert hasher k v = some (f, htA)) :
    ht._nodes.get f = none ∧ NextPres ht._nodes htA._nodes ∧
      ht._nodes.data.length ≤ htA._nodes.data.length ∧
      (htA._table = ht._table ∨
        ∃ b, mod? (hasher k) ht.table_size = some b ∧
          lGet ht._table b = some _EMPTY_INDEX ∧
          htA._table = lSet ht._table b f) := by
  rw [hash_tree._insert] at hins
  simp only [Option.bind_eq_bind] at hins
  rw [if_neg hnogrow, Option.some_bind] at hins
  rcases Option.bind_eq_some.mp hins with ⟨b, hb, h3⟩
  rcases Option.bind_eq_some.mp h3 with ⟨ht2, him, hfin⟩
  simp only [Option.pure_def, Option.some.injEq, Prod.mk.injEq] at hfin
  rcases hfin with ⟨hif, hht2⟩
  subst hht2
  subst hif
  set ND : hash_tree_node K V :=
    { key := k, value := v, hash_value := hasher k, childs := []
      parent_index := _EMPTY_INDEX, next_index := _EMPTY_INDEX } with hND
  have hnp1 : NextPres ht._nodes (ht._nodes.emplace ND).2 := by
    intro j nd hg
    have hj : j ≠ (ht._nodes.emplace ND).1 := by
      intro he
      rw [he, emplace_fresh] at hg
      exact absurd hg (by simp)
    exact ⟨nd, by rw [emplace_get_ne _ _ hj]; exact hg, rfl, rfl, rfl,
      fun _ => rfl⟩
  have hlen1 : ht._nodes.data.length ≤ (ht._nodes.emplace ND).2.data.length := by
    rcases emplace_length ht._nodes ND with he | he <;> omega
  refine ⟨emplace_fresh _ _, ?_⟩
  rw [hash_tree.insert_map] at him
  split at him
  · exact absurd him (by simp)
  · next c0 hgc0 =>
    split at him
    · next hc0E =>
      cases him
      exact ⟨hnp1, hlen1, Or.inr ⟨b, hb, by rw [← hc0E]; exact hgc0, rfl⟩⟩
    · next hc0E =>
      rcases Option.map_eq_some'.mp him with ⟨nodesB, hchain, hA⟩
      rw [← hA]
      rcases insert_map_chain_props hchain with ⟨_, _, hlenB⟩
      have hlenB' : nodesB.data.length = (ht._nodes.emplace ND).2.data.length :=
        hlenB
      refine ⟨nextPres_trans hnp1 (insert_map_chain_next hchain), ?_,
        Or.inl rfl⟩
      show ht._nodes.data.length ≤ nodesB.data.length
      omega

theorem insert_link_props {K V : Type} [DecidableEq K] {hasher : K → Nat}
    {ht : hash_tree K V} {k : K} {v : V} {ht' : hash_tree K V} {f : Nat}
    {htA : hash_tree K V}
    (hins : ht._insert hasher k v = some (f, htA))
    (hfh : htA._head_index ≠ _EMPTY_INDEX → f ≠ htA._head_index)
    (h : ht.insert hasher k v = some ht') :
    NextPres htA._nodes ht'._nodes ∧ ht'._table = htA._table ∧
      ht'._nodes.data.length = htA._nodes.data.length := by
  rw [hash_tree.insert] at h
  simp only [Option.bind_eq_bind] at h
  rcases Option.bind_eq_some.mp h with ⟨r, hins2, h2⟩
  rw [hins] at hins2
  cases hins2
  dsimp only at h2
  split at h2
  · next hhe =>
    simp only [Option.pure_def, Option.some.injEq] at h2
    subst h2
    exact ⟨nextPres_refl _, rfl, rfl⟩
  · next hhe =>
    have hfh' : f ≠ htA._head_index := hfh hhe
    rcases hhd : htA._nodes.get htA._head_index with _ | hd <;> rw [hhd] at h2
    · exact absurd h2 (by simp)
    dsimp only at h2
    rcases hgf : (htA._nodes.setSlot htA._head_index
        { hd with childs := hd.childs ++ [f] }).get f with _ | nd2 <;>
      rw [hgf] at h2
    · exact absurd h2 (by simp)
    simp only [Option.pure_def, Option.some.injEq] at h2
    subst h2
    rw [sv_setSlot_get_ne _ _ hfh'] at hgf
    refine ⟨?_, rfl, ?_⟩
    · intro j nd hg
      by_cases hjf : j = f
      · rw [hjf] at hg ⊢
        rw [hg] at hgf
        have e : nd = nd2 := Option.some.inj hgf
        have hlt : f < (htA._nodes.setSlot htA._head_index
            { hd with childs := hd.childs ++ [f] }).data.length := by
          rw [sv_setSlot_length]
          exact sv_live_lt hg
        exact ⟨{ nd2 with parent_index := htA._head_index },
          sv_setSlot_get_self _ hlt, by rw [← e], by rw [← e], by rw [← e],
          fun _ => by rw [← e]⟩
      · rw [show (((htA._nodes.setSlot htA._head_index
            { hd with childs := hd.childs ++ [f] }).setSlot f
            { nd2 with parent_index := htA._head_index }).get j)
            = ((htA._nodes.setSlot htA._head_index
              { hd with childs := hd.childs ++ [f] }).get j)
          from sv_setSlot_get_ne _ _ hjf]
        by_cases hjh : j = htA._head_index
        · rw [hjh] at hg ⊢
          rw [hhd] at hg
          have e : hd = nd := Option.some.inj hg
          exact ⟨{ hd with childs := hd.childs ++ [f] },
            sv_setSlot_get_self _ (sv_live_lt hhd), by rw [← e], by rw [← e],
            by rw [← e], fun _ => by rw [← e]⟩
        · exact ⟨nd, by rw [sv_setSlot_get_ne _ _ hjh]; exact hg,
            rfl, rfl, rfl, fun _ => rfl⟩
    · show ((htA._nodes.setSlot _ _).setSlot _ _).data.length = _
      rw [sv_setSlot_length, sv_setSlot_length]

theorem runSafe_wf {K V : Type} [DecidableEq K] {hasher : K → Nat}
    {ops : List (Op K V)} {ht' : hash_tree K V}
    (hbud : ops.length < _EMPTY_INDEX)
    (h : runSafe hasher ops = some ht') : WF ht' := by
  refine runSafeFrom_wf (init_wf K V) ?_ h
  have h0 : (hash_tree.init K V)._nodes.data.length = 0 := rfl
  omega

theorem lGet_mem {α : Type} : ∀ {l : List α} {i : Nat} {a : α},
    lGet l i = some a → a ∈ l
  | [], _, _, h => by simp [lGet] at h
  | b :: l, 0, a, h => by
    cases h
    exact List.mem_cons_self _ _
  | _ :: _, _ + 1, _, h => List.mem_cons_of_mem _ (lGet_mem h)

theorem mem_lGet {α : Type} : ∀ {l : List α} {a : α},
    a ∈ l → ∃ i, lGet l i = some a
  | [], a, h => absurd h (List.not_mem_nil a)
  | b :: l, a, h => by
    rcases List.mem_cons.mp h with he | hm
    · exact ⟨0, by rw [he]; rfl⟩
    · rcases mem_lGet hm with ⟨i, hi⟩
      exact ⟨i + 1, hi⟩

theorem lGet_nodup_inj {α : Type} : ∀ {l : List α} {s t : Nat} {a : α},
    l.Nodup → lGet l s = some a → lGet l t = some a → s = t
  | [], _, _, _, _, hs, _ => by simp [lGet] at hs
  | _ :: _, 0, 0, _, _, _, _ => rfl
  | b :: l, 0, t + 1, a, hnd, hs, hht => by
    cases hs
    have hht' : lGet l t = some b := hht
    exact absurd (lGet_mem hht') (List.nodup_cons.mp hnd).1
  | b :: l, s + 1, 0, a, hnd, hs, hht => by
    cases hht
    have hs' : lGet l s = some b := hs
    exact absurd (lGet_mem hs') (List.nodup_cons.mp hnd).1
  | b :: l, s + 1, t + 1, a, hnd, hs, hht => by
    rw [lGet_nodup_inj (List.nodup_cons.mp hnd).2 hs hht]

theorem svCount_ex {α : Type} :
    ∀ {l : List (Option α)}, 0 < svCount l → ∃ j a, lGet l j = some (some a)
  | [], h => by simp [svCount] at h
  | none :: l, h => by
    rcases svCount_ex (l := l) (by simpa [svCount] using h) with ⟨j, a, hj⟩
    exact ⟨j + 1, a, by simpa [lGet] using hj⟩
  | some a :: l, _ => ⟨0, a, rfl⟩

theorem size_le_of_live_subset {α : Type} :
    ∀ (L : List Nat) (sv : sparse_vector α),
      (∀ j, (sv.get j).isSome = true → j ∈ L) → sv.size ≤ L.length
  | [], sv, hall => by
    by_contra hlt
    have hpos : 0 < sv.size := by omega
    rcases svCount_ex hpos with ⟨j, a, hj⟩
    have hl : (sv.get j).isSome = true := by rw [sv_get_of_lGet hj]; rfl
    exact absurd (hall j hl) (List.not_mem_nil j)
  | x :: L, sv, hall => by
    rcases hx : sv.get x with _ | a
    · have hs := size_le_of_live_subset L sv (fun j hj => by
        rcases List.mem_cons.mp (hall j hj) with he | hm
        · rw [he, hx] at hj
          simp at hj
        · exact hm)
      simp only [List.length_cons]
      omega
    · have hsub : ∀ j, ((sv.eraseSlot x).get j).isSome = true → j ∈ L := by
        intro j hj
        have hjx : j ≠ x := by
          intro he
          rw [he, sv_eraseSlot_get_self] at hj
          simp at hj
        rw [sv_eraseSlot_get_ne _ hjx] at hj
        rcases List.mem_cons.mp (hall j hj) with he | hm
        · exact absurd he hjx
        · exact hm
      have hrec := size_le_of_live_subset L (sv.eraseSlot x) hsub
      have hsz := sv_eraseSlot_size hx
      simp only [List.length_cons]
      omega

theorem bfs_closed {K V : Type} {ht : hash_tree K V} {m : Nat}
    {it : hash_tree_iterator K V} (hinv : BfsInv ht m it)
    (hproc : it._visit.length ≤ m) :
    ∀ j, Reach ht._nodes ht._head_index j → j ∈ it._visit := by
  rcases hinv with ⟨_, _, h0, _, _, hE, _, _⟩
  intro j hr
  induction hr with
  | refl => exact lGet_mem h0
  | step hp hg hc ih =>
    next p c nd =>
    rcases mem_lGet ih with ⟨s, hs⟩
    have hslt : s < it._visit.length := lGet_some_lt hs
    rcases hE s (by omega) with ⟨p', nd', off, hs', hg', _, _, hch⟩
    rw [hs] at hs'
    cases hs'
    rw [hg] at hg'
    cases hg'
    rcases mem_lGet hc with ⟨q, hq⟩
    exact lGet_mem (hch q c hq)

theorem bfs_start {K V : Type} {ht : hash_tree K V} (hwf : WF ht)
    (hne : ht._head_index ≠ _EMPTY_INDEX) : BfsInv ht 0 ht.begin := by
  refine ⟨rfl, rfl, rfl, List.nodup_singleton _, ?_, ?_, ?_, ?_⟩
  · intro j hj
    rcases List.mem_singleton.mp hj with rfl
    exact hwf.head_live hne
  · intro t ht2
    exact absurd ht2 (by omega)
  · intro s c hs hg
    have hl := lGet_some_lt hg
    have e : ht.begin._visit.length = 1 := rfl
    exact absurd hs (by omega)
  · exact Nat.zero_le _

theorem bfs_step {K V : Type} {ht : hash_tree K V} (hwf : WF ht)
    (hroot : ∀ j, (ht._nodes.get j).isSome = true →
      Reach ht._nodes ht._head_index j)
    {m : Nat} {it : hash_tree_iterator K V} (hinv : BfsInv ht m it)
    (hm : m < ht.size) :
    ∃ it', it.step = some it' ∧ BfsInv ht (m + 1) it' := by
  have hlt : m < it._visit.length := by
    by_contra hle
    push_neg at hle
    have hall : ∀ j, (ht._nodes.get j).isSome = true → j ∈ it._visit :=
      fun j hj => bfs_closed hinv hle j (hroot j hj)
    have hsz := size_le_of_live_subset it._visit ht._nodes hall
    have e : ht.size = ht._nodes.size := rfl
    omega
  rcases hinv with ⟨e1, e2, h0, hnd, hlive, hE, hF, hmlen⟩
  rcases lGet_lt_isSome hlt with ⟨vm, hvm⟩
  have hvml : (ht._nodes.get vm).isSome = true := hlive vm (lGet_mem hvm)
  rcases Option.isSome_iff_exists.mp hvml with ⟨ndm, hgm⟩
  refine ⟨{ it with _visit := it._visit ++ ndm.childs, _index := it._index + 1 }, ?_, ?_⟩
  · rw [hash_tree_iterator.step, e2, hvm]
    dsimp only
    rw [e1, hgm]
  · refine ⟨e1, by rw [e2], ?_, ?_, ?_, ?_, ?_, ?_⟩
    · show lGet (it._visit ++ ndm.childs) 0 = some ht._head_index
      rw [lGet_append_left _ (lGet_some_lt h0)]
      exact h0
    · show (it._visit ++ ndm.childs).Nodup
      rw [List.nodup_append]
      refine ⟨hnd, hwf.childs_nodup vm ndm hgm, ?_⟩
      intro a ha hac
      rcases mem_lGet ha with ⟨s, hsa⟩
      by_cases hs0 : s = 0
      · rw [hs0, h0] at hsa
        cases hsa
        exact wf_head_notin_childs hwf hgm hac
      · rcases hF s a (by omega) hsa with ⟨t, p, nd, htm, hpt, hgp, hmem⟩
        have hpv : p = vm := wf_unique_parent hwf hgp hgm hmem hac
        rw [hpv] at hpt
        have := lGet_nodup_inj hnd hpt hvm
        omega
    · intro j hj
      rcases List.mem_append.mp hj with hjv | hjc
      · exact hlive j hjv
      · rcases hwf.child_link vm ndm hgm j hjc with ⟨jnd, hjg, _⟩
        rw [hjg]
        rfl
    · intro t htlt
      rcases Nat.lt_or_ge t m with htm | htm
      · rcases hE t htm with ⟨p, nd, off, ha, hb, hc2, hd, he⟩
        refine ⟨p, nd, off, ?_, hb, hc2, ?_, ?_⟩
        · rw [lGet_append_left _ (lGet_some_lt ha)]
          exact ha
        · show off + nd.childs.length ≤ (it._visit ++ ndm.childs).length
          rw [List.length_append]
          omega
        · intro q c hq
          have hoq : off + q < it._visit.length := by
            have := lGet_some_lt hq
            omega
          rw [lGet_append_left _ hoq]
          exact he q c hq
      · have htm' : t = m := by omega
        subst htm'
        refine ⟨vm, ndm, it._visit.length, ?_, hgm, hlt, ?_, ?_⟩
        · rw [lGet_append_left _ hlt]
          exact hvm
        · show it._visit.length + ndm.childs.length ≤
            (it._visit ++ ndm.childs).length
          rw [List.length_append]
        · intro q c hq
          rw [lGet_append_right]
          exact hq
    · intro s c hs0 hsc
      rcases Nat.lt_or_ge s it._visit.length with hsl | hsl
      · rw [lGet_append_left _ hsl] at hsc
        rcases hF s c hs0 hsc with ⟨t, p, nd, htm, hpt, hgp, hmem⟩
        exact ⟨t, p, nd, by omega,
          by rw [lGet_append_left _ (lGet_some_lt hpt)]; exact hpt, hgp, hmem⟩
      · have hse : s = it._visit.length + (s - it._visit.length) := by omega
        rw [hse, lGet_append_right] at hsc
        exact ⟨m, vm, ndm, by omega,
          by rw [lGet_append_left _ hlt]; exact hvm, hgm, lGet_mem hsc⟩
    · show m + 1 ≤ (it._visit ++ ndm.childs).length
      rw [List.length_append]
      omega

theorem stepN_snoc {K V : Type} :
    ∀ (m : Nat) (it : hash_tree_iterator K V),
      stepN (m + 1) it = (stepN m it).bind (fun x => x.step)
  | 0, it => by
    show it.step.bind (stepN 0) = (some it).bind (fun x => x.step)
    rw [Option.some_bind]
    cases h : it.step <;> rfl
  | m + 1, it => by
    show it.step.bind (stepN (m + 1)) =
      (it.step.bind (stepN m)).bind (fun x => x.step)
    rw [Option.bind_assoc]
    cases h : it.step
    · rfl
    · rw [Option.some_bind, Option.some_bind]
      exact stepN_snoc m _

theorem bfs_run {K V : Type} {ht : hash_tree K V} (hwf : WF ht)
    (hroot : ∀ j, (ht._nodes.get j).isSome = true →
      Reach ht._nodes ht._head_index j)
    (hne : ht._head_index ≠ _EMPTY_INDEX) :
    ∀ m, m ≤ ht.size → ∃ it, stepN m ht.begin = some it ∧ BfsInv ht m it
  | 0, _ => ⟨ht.begin, rfl, bfs_start hwf hne⟩
  | m + 1, hle => by
    rcases bfs_run hwf hroot hne m (by omega) with ⟨it, hs, hinv⟩
    rcases bfs_step hwf hroot hinv (by omega) with ⟨it', hstep, hinv'⟩
    refine ⟨it', ?_, hinv'⟩
    rw [stepN_snoc, hs, Option.some_bind, hstep]

/-- C1 (amended): under the guarded operations — an insert with an explicit
parent requires a non-empty map, and `set_parent` never targets the slot
stored as the root — every run from the fresh container ends in a state
where each live node with an empty parent link is the stored root and the
map is empty exactly when the stored root identifier is the empty sentinel.
The unguarded forms break the invariant (see the counterexample). -/
theorem C1_single_root {K V : Type} [DecidableEq K] (hasher : K → Nat)
    (ops : List (Op K V)) (ht' : hash_tree K V)
    (hbud : ops.length < _EMPTY_INDEX)
    (h : runSafe hasher ops = some ht') : C1Prop ht' :=
  wf_c1prop (runSafe_wf hbud h)

/-- C1 witness: a concrete guarded run ending in a state satisfying the
single-root property. -/
theorem C1_single_root_witness :
    ([Op.ins 0 0, Op.ins 1 1] : List (Op Nat Nat)).length < _EMPTY_INDEX ∧
      runSafe id [Op.ins 0 0, Op.ins 1 1] = some exPair ∧ C1Prop exPair :=
  ⟨by decide, rfl,
    C1_single_root id [Op.ins 0 0, Op.ins 1 1] exPair (by decide) rfl⟩

/-- C1 counterexample: an insert whose parent key resolves to the node just
inserted yields a non-empty map whose root identifier is the empty
sentinel, and reparenting the root followed by erasing its new parent
yields an empty map whose root identifier is still set. -/
theorem C1_counterexample :
    (run id [Op.insP 5 7 5] = some exSelfLoop ∧ exSelfLoop.size = 1 ∧
      exSelfLoop._head_index = _EMPTY_INDEX ∧ ¬ C1Prop exSelfLoop) ∧
    (run id [Op.ins 0 0, Op.ins 1 1, Op.setPar 0 1, Op.er 1] = some exDangling ∧
      exDangling.size = 0 ∧ exDangling._head_index = 0 ∧
      ¬ C1Prop exDangling) := by
  refine ⟨⟨rfl, rfl, rfl, ?_⟩, ⟨rfl, rfl, rfl, ?_⟩⟩
  · intro hc
    exact absurd (hc.2.mpr rfl) (by decide)
  · intro hc
    exact absurd (hc.2.mp rfl) (by decide)

/-- C2: erasing a stored non-root key removes exactly the slots reachable
from it along children links, preserves every other node's key, value,
parent and children — except the erased node's former parent, whose child
list loses precisely the occurrences of the erased slot — and decreases
`size` by exactly the number of removed slots. -/
theorem C2_cascade_complete {K V : Type} [DecidableEq K] {hasher : K → Nat}
    {ht : hash_tree K V} {key : K} {i : Nat} {ht' : hash_tree K V}
    (hwf : WF ht)
    (hidx : ht.index hasher key = some i)
    (hne : i ≠ ht._head_index)
    (h : ht.erase hasher key = some ht') :
    ∃ ndi, ht._nodes.get i = some ndi ∧
      (∀ j, (ht'._nodes.get j).isSome = true ↔
        ((ht._nodes.get j).isSome = true ∧ ¬ Reach ht._nodes i j)) ∧
      ht'.size + (List.range ht._nodes.data.length).countP
        (fun j => (ht._nodes.get j).isSome && !((ht'._nodes.get j).isSome))
        = ht.size ∧
      (∀ j, ((ht._nodes.get j).isSome && !((ht'._nodes.get j).isSome)) = true ↔
        ((ht._nodes.get j).isSome = true ∧ Reach ht._nodes i j)) ∧
      (∀ j nd', ht'._nodes.get j = some nd' → ∃ nd, ht._nodes.get j = some nd ∧
        nd'.key = nd.key ∧ nd'.value = nd.value ∧
        nd'.parent_index = nd.parent_index ∧
        nd'.childs = (if j = ndi.parent_index
          then nd.childs.filter (fun c => c ≠ i) else nd.childs)) := by
  rcases erase_nonroot_props hwf hidx hne h with
    ⟨ndi, hgi, _, _, hlive, hrec, hsz, _⟩
  refine ⟨ndi, hgi, hlive, hsz, ?_, hrec⟩
  intro j
  constructor
  · intro hb
    simp only [Bool.and_eq_true, Bool.not_eq_true'] at hb
    rcases hb with ⟨h1, h2⟩
    refine ⟨h1, ?_⟩
    by_contra hnr
    have hl := (hlive j).mpr ⟨h1, hnr⟩
    rw [hl] at h2
    exact absurd h2 (by simp)
  · intro hb
    rcases hb with ⟨h1, hr⟩
    simp only [Bool.and_eq_true, Bool.not_eq_true']
    refine ⟨h1, ?_⟩
    rcases hb2 : (ht'._nodes.get j).isSome with _ | _
    · rfl
    · exact absurd hr ((hlive j).mp hb2).2

/-- C2 witness: erasing key 1 from the three-node chain removes the two
reachable slots and nothing else. -/
theorem C2_cascade_complete_witness :
    exChain3.erase id 1 = some exChain3Erased ∧
    (∃ ndi, exChain3._nodes.get 1 = some ndi ∧
      (∀ j, (exChain3Erased._nodes.get j).isSome = true ↔
        ((exChain3._nodes.get j).isSome = true ∧
          ¬ Reach exChain3._nodes 1 j)) ∧
      exChain3Erased.size + (List.range exChain3._nodes.data.length).countP
        (fun j => (exChain3._nodes.get j).isSome &&
          !((exChain3Erased._nodes.get j).isSome)) = exChain3.size ∧
      (∀ j, ((exChain3._nodes.get j).isSome &&
          !((exChain3Erased._nodes.get j).isSome)) = true ↔
        ((exChain3._nodes.get j).isSome = true ∧ Reach exChain3._nodes 1 j)) ∧
      (∀ j nd', exChain3Erased._nodes.get j = some nd' →
        ∃ nd, exChain3._nodes.get j = some nd ∧
          nd'.key = nd.key ∧ nd'.value = nd.value ∧
          nd'.parent_index = nd.parent_index ∧
          nd'.childs = (if j = ndi.parent_index
            then nd.childs.filter (fun c => c ≠ 1) else nd.childs))) :=
  ⟨rfl, @C2_cascade_complete Nat Nat _ id exChain3 1 1 exChain3Erased
    (wf_of_wfb rfl) rfl (by decide) rfl⟩

/-- C3: erasing via a key that resolves to the stored root clears the whole
map: the result is the cleared container, the size is zero, the root is
unset and no slot is live, regardless of the prior contents. -/
theorem C3_root_erase_clears {K V : Type} [DecidableEq K] {hasher : K → Nat}
    {ht : hash_tree K V} {key : K} {ht' : hash_tree K V}
    (hidx : ht.index hasher key = some ht._head_index)
    (h : ht.erase hasher key = some ht') :
    ht' = ht.clear ∧ ht'.size = 0 ∧ ht'._head_index = _EMPTY_INDEX ∧
      ∀ j, ht'._nodes.get j = none := by
  rw [hash_tree.erase, hidx] at h
  simp only [Option.bind_eq_bind, Option.some_bind] at h
  rw [if_pos trivial] at h
  simp only [Option.pure_def, Option.some.injEq] at h
  subst h
  exact ⟨rfl, rfl, rfl, fun j => rfl⟩

/-- C3 witness: erasing the root key of the two-node example empties it. -/
theorem C3_root_erase_clears_witness :
    exPair.index id 0 = some exPair._head_index ∧
    exPair.erase id 0 = some exCleared ∧
    (exCleared = exPair.clear ∧ exCleared.size = 0 ∧
      exCleared._head_index = _EMPTY_INDEX ∧
      ∀ j, exCleared._nodes.get j = none) :=
  ⟨rfl, rfl, @C3_root_erase_clears Nat Nat _ id exPair 0 exCleared rfl rfl⟩

/-- C4: the spec demands that an insert whose parent key does not resolve
fail with an explicit parent-not-found signal and leave the map unchanged;
the code instead stores the node before resolving the parent.  With a
wholly absent parent key the code indexes the store with the empty sentinel
— undefined behaviour (`none` here) reached only after the node was already
stored — and with the parent key equal to the inserted key the insert
"succeeds": the parent resolves to the node just inserted, which ends up
stored as its own parent while the map was supposed to stay unchanged. -/
theorem C4_insert_parent_not_atomic :
    (hash_tree.init Nat Nat).insert_with_parent id 5 7 6 = none ∧
    (hash_tree.init Nat Nat).insert_with_parent id 5 7 5 = some exSelfLoop ∧
    exSelfLoop.size = 1 ∧
    (∃ nd, exSelfLoop._nodes.get 0 = some nd ∧ nd.key = 5 ∧
      nd.parent_index = 0 ∧ nd.childs = [0]) :=
  ⟨rfl, rfl, rfl, ⟨⟨5, 7, 5, [0], 0, _EMPTY_INDEX⟩, rfl, rfl, rfl, rfl⟩⟩

/-- C5 (amended): between public operations the code maintains only the
slack bound `10*size ≤ 9*table_size + 10` — the load factor may exceed
MAX_LOAD by up to one node — and any single operation that changes the
table size restores `load_factor ≤ MAX_LOAD`.  The claimed MIN_LOAD lower
bound does not hold after a shrink-triggering erase, which halves the table
only once (see the counterexample). -/
theorem C5_load_factor {K V : Type} [DecidableEq K] {hasher : K → Nat}
    {ht : hash_tree K V} {op : Op K V} {ht' : hash_tree K V}
    (hwf : WF ht) (hinv : LoadInv ht)
    (hts2 : ht.table_size = 0 ∨ 2 ≤ ht.table_size)
    (h : step hasher ht op = some ht') :
    LoadInv ht' ∧
      (ht'.table_size ≠ ht.table_size → 10 * ht'.size ≤ 9 * ht'.table_size) := by
  refine ⟨step_load hwf hinv h, ?_⟩
  intro hne
  have e1 : ht.table_size = ht._table.length := rfl
  have e2 : ht'.table_size = ht'._table.length := rfl
  rw [LoadInv] at hinv
  cases op with
  | ins k v =>
    have h2 : ht.insert hasher k v = some ht' := h
    have h3 := h2
    rw [hash_tree.insert] at h3
    simp only [Option.bind_eq_bind] at h3
    rcases Option.bind_eq_some.mp h3 with ⟨r, hins, _⟩
    have hts := _insert_table_pos hins
    rcases insert_props hwf.head_live h2 with ⟨_, _, _, hsz, _, _, htab⟩
    rcases htab with ⟨_, htl⟩ | ⟨hgt, htl⟩
    · exact absurd (e2.trans (htl.trans e1.symm)) hne
    · rcases hts2 with h0 | h2ts
      · omega
      · rw [e2, htl]
        rcases Nat.lt_or_ge ht.table_size 3 with h3 | h3 <;> omega
  | insP k v p =>
    have h2 : ht.insert_with_parent hasher k v p = some ht' := h
    have h3 := h2
    rw [hash_tree.insert_with_parent] at h3
    simp only [Option.bind_eq_bind] at h3
    rcases Option.bind_eq_some.mp h3 with ⟨r, hins, _⟩
    have hts := _insert_table_pos hins
    rcases insertP_props h2 with ⟨_, _, _, _, hsz, _, _, htab, _⟩
    rcases htab with ⟨_, htl⟩ | ⟨hgt, htl⟩
    · exact absurd (e2.trans (htl.trans e1.symm)) hne
    · rcases hts2 with h0 | h2ts
      · omega
      · rw [e2, htl]
        rcases Nat.lt_or_ge ht.table_size 3 with h3 | h3 <;> omega
  | er k =>
    have h2 : ht.erase hasher k = some ht' := h
    have h3 := h2
    rw [hash_tree.erase] at h3
    simp only [Option.bind_eq_bind] at h3
    rcases Option.bind_eq_some.mp h3 with ⟨i, hidx, h4⟩
    by_cases hih : i = ht._head_index
    · rw [if_pos hih] at h4
      simp only [Option.pure_def, Option.some.injEq] at h4
      have es : ht'.size = 0 := by rw [← h4]; rfl
      have et : ht'.table_size = 0 := by rw [← h4]; rfl
      omega
    · rw [if_neg hih] at h4
      rcases erase_nonroot_props hwf hidx hih h2 with
        ⟨_, _, _, _, _, _, _, htab⟩
      rcases htab with htl | ⟨hsm, htl⟩
      · exact absurd (e2.trans (htl.trans e1.symm)) hne
      · rw [e2, htl]
        omega
  | setPar k p =>
    have h2 : ht.set_parent hasher k p = some ht' := h
    rcases set_parent_size_table h2 with ⟨_, htb, _⟩
    exact absurd (e2.trans ((congrArg List.length htb).trans e1.symm)) hne

/-- C5 witness: a growth-triggering insert from a two-node state restores
the MAX_LOAD bound and keeps the slack invariant. -/
theorem C5_load_factor_witness :
    step id exPair (Op.ins 2 2) = some exPairIns ∧
    (LoadInv exPairIns ∧
      (exPairIns.table_size ≠ exPair.table_size →
        10 * exPairIns.size ≤ 9 * exPairIns.table_size)) :=
  ⟨rfl, @C5_load_factor Nat Nat _ id exPair (Op.ins 2 2) exPairIns
    (wf_of_wfb rfl)
    (by show 10 * exPair.size ≤ 9 * exPair.table_size + 10; decide)
    (Or.inr (by decide)) rfl⟩

/-- C5 counterexample: erasing the root's child of a nine-node chain
triggers the shrink rehash, yet the final load factor is below MIN_LOAD
(5·size < table_size, i.e. size/table_size < 0.2). -/
theorem C5_counterexample :
    run id [Op.ins 0 0, Op.insP 1 1 0, Op.insP 2 2 1, Op.insP 3 3 2,
      Op.insP 4 4 3, Op.insP 5 5 4, Op.insP 6 6 5, Op.insP 7 7 6,
      Op.insP 8 8 7] = some exChain9 ∧
    step id exChain9 (Op.er 1) = some exChain9Erased ∧
    exChain9Erased.table_size ≠ exChain9.table_size ∧
    5 * exChain9Erased.size < exChain9Erased.table_size :=
  ⟨rfl, rfl, by decide, by decide⟩

/-- C6 (amended): every public operation on a well-formed state with at
least two buckets either leaves at least two buckets or is the clearing
root erase, which resets the table to zero buckets — so the claimed
two-bucket minimum fails exactly at `clear` (see the counterexample). -/
theorem C6_table_min {K V : Type} [DecidableEq K] {hasher : K → Nat}
    {ht : hash_tree K V} {op : Op K V} {ht' : hash_tree K V}
    (hwf : WF ht) (h2 : 2 ≤ ht.table_size)
    (h : step hasher ht op = some ht') :
    2 ≤ ht'.table_size ∨ ht' = ht.clear :=
  step_table_min hwf h2 h

/-- C6 witness: a non-root erase from the three-node chain keeps at least
two buckets. -/
theorem C6_table_min_witness :
    step id exChain3 (Op.er 1) = some exChain3Erased ∧
    (2 ≤ exChain3Erased.table_size ∨ exChain3Erased = exChain3.clear) :=
  ⟨rfl, @C6_table_min Nat Nat _ id exChain3 (Op.er 1) exChain3Erased
    (wf_of_wfb rfl) (by decide) rfl⟩

/-- C6 counterexample: erasing the root leaves a zero-bucket table. -/
theorem C6_counterexample :
    run id [Op.ins 0 0, Op.er 0] = some exCleared ∧
    exCleared.table_size = 0 :=
  ⟨rfl, rfl⟩

/-- C7: a parentless insert on an empty map makes the fresh node the root
with an empty parent link; otherwise the fresh node is appended as the last
child of the current root, whose own record and the root identifier are
otherwise unchanged. -/
theorem C7_parentless_insert {K V : Type} [DecidableEq K] {hasher : K → Nat}
    {ht : hash_tree K V} {k : K} {v : V} {ht' : hash_tree K V}
    (hwf : WF ht)
    (h : ht.insert hasher k v = some ht') :
    ∃ f, ht._nodes.get f = none ∧
      ((ht._head_index = _EMPTY_INDEX ∧ ht'._head_index = f ∧
        (∃ nd, ht'._nodes.get f = some nd ∧ nd.key = k ∧ nd.value = v ∧
          nd.childs = [] ∧ nd.parent_index = _EMPTY_INDEX) ∧
        (∀ j, j ≠ f →
          (ht._nodes.get j).map treeView = (ht'._nodes.get j).map treeView)) ∨
       (ht._head_index ≠ _EMPTY_INDEX ∧ ht'._head_index = ht._head_index ∧
        f ≠ ht._head_index ∧
        (∃ nd, ht'._nodes.get f = some nd ∧ nd.key = k ∧ nd.value = v ∧
          nd.childs = [] ∧ nd.parent_index = ht._head_index) ∧
        (∃ hd hd', ht._nodes.get ht._head_index = some hd ∧
          ht'._nodes.get ht._head_index = some hd' ∧ hd'.key = hd.key ∧
          hd'.value = hd.value ∧ hd'.parent_index = hd.parent_index ∧
          hd'.childs = hd.childs ++ [f]) ∧
        (∀ j, j ≠ f → j ≠ ht._head_index →
          (ht._nodes.get j).map treeView = (ht'._nodes.get j).map treeView))) ∧
      ht'.size = ht.size + 1 :=
  match insert_props hwf.head_live h with
  | ⟨f, p2, p3, p5, _, _, _⟩ => ⟨f, p2, p3, p5⟩

/-- C7 witness: inserting key 2 into the two-node example appends slot 2 as
the last child of the root. -/
theorem C7_parentless_insert_witness :
    exPair.insert id 2 2 = some exPairIns ∧
    (∃ f, exPair._nodes.get f = none ∧
      ((exPair._head_index = _EMPTY_INDEX ∧ exPairIns._head_index = f ∧
        (∃ nd, exPairIns._nodes.get f = some nd ∧ nd.key = 2 ∧ nd.value = 2 ∧
          nd.childs = [] ∧ nd.parent_index = _EMPTY_INDEX) ∧
        (∀ j, j ≠ f → (exPair._nodes.get j).map treeView
          = (exPairIns._nodes.get j).map treeView)) ∨
       (exPair._head_index ≠ _EMPTY_INDEX ∧
        exPairIns._head_index = exPair._head_index ∧
        f ≠ exPair._head_index ∧
        (∃ nd, exPairIns._nodes.get f = some nd ∧ nd.key = 2 ∧ nd.value = 2 ∧
          nd.childs = [] ∧ nd.parent_index = exPair._head_index) ∧
        (∃ hd hd', exPair._nodes.get exPair._head_index = some hd ∧
          exPairIns._nodes.get exPair._head_index = some hd' ∧
          hd'.key = hd.key ∧ hd'.value = hd.value ∧
          hd'.parent_index = hd.parent_index ∧
          hd'.childs = hd.childs ++ [f]) ∧
        (∀ j, j ≠ f → j ≠ exPair._head_index →
          (exPair._nodes.get j).map treeView
            = (exPairIns._nodes.get j).map treeView))) ∧
      exPairIns.size = exPair.size + 1) :=
  ⟨rfl, @C7_parentless_insert Nat Nat _ id exPair 2 2 exPairIns
    (wf_of_wfb rfl) rfl⟩

/-- C8 (amended): on a well-formed state whose live nodes are all reachable
from the stored root, iterating from `begin` by repeated increment takes
exactly `size` increments to reach an iterator equal to `end`, dereferences
the value of one distinct live node per step, visits every live node
exactly once, and visits in breadth-first order: each visited node's
children occupy a contiguous later block of the visitation sequence, in the
order of its child list.  For an empty map `begin` equals `end`.  Without
the reachability hypothesis the property fails: a reparent below a
descendant detaches a cycle and the iteration runs out of visitable slots
(see the counterexample). -/
theorem C8_breadth_first {K V : Type} {ht : hash_tree K V}
    (hwf : WF ht)
    (hroot : ∀ j, (ht._nodes.get j).isSome = true →
      Reach ht._nodes ht._head_index j) :
    (ht.size = 0 → ht.begin.eqIter ht.end_) ∧
    (0 < ht.size → ∃ itF, stepN ht.size ht.begin = some itF ∧
      itF.eqIter ht.end_ ∧
      itF._visit.length = ht.size ∧ itF._visit.Nodup ∧
      (∀ j, (ht._nodes.get j).isSome = true ↔ j ∈ itF._visit) ∧
      (∀ m, m < ht.size → ∃ itm, stepN m ht.begin = some itm ∧
        ¬ itm.eqIter ht.end_ ∧
        (∃ j nd, lGet itm._visit m = some j ∧ ht._nodes.get j = some nd ∧
          itm.deref = some nd.value)) ∧
      (∀ t p nd q c, lGet itF._visit t = some p →
        ht._nodes.get p = some nd → lGet nd.childs q = some c →
        ∃ off, t < off ∧ lGet itF._visit (off + q) = some c ∧
          ∀ q2 c2, lGet nd.childs q2 = some c2 →
            lGet itF._visit (off + q2) = some c2)) := by
  constructor
  · intro hsz
    show (0 : Nat) = ht.size
    omega
  · intro hpos
    have hne : ht._head_index ≠ _EMPTY_INDEX := by
      intro he
      have := hwf.head_iff.mp he
      omega
    rcases bfs_run hwf hroot hne ht.size (Nat.le_refl _) with ⟨itF, hsF, hinvF⟩
    obtain ⟨e1, e2, h0, hnd, hlive, hE, hF, hmlen⟩ := hinvF
    have hlen_le : itF._visit.length ≤ ht.size :=
      nodup_live_length_le itF._visit ht._nodes hnd hlive
    have hall : ∀ j, (ht._nodes.get j).isSome = true → j ∈ itF._visit :=
      fun j hj => bfs_closed ⟨e1, e2, h0, hnd, hlive, hE, hF, hmlen⟩
        (by omega) j (hroot j hj)
    have hlen_ge := size_le_of_live_subset itF._visit ht._nodes hall
    have hesz : ht.size = ht._nodes.size := rfl
    have hlen : itF._visit.length = ht.size := by omega
    refine ⟨itF, hsF, ?_, hlen, hnd, ?_, ?_, ?_⟩
    · show itF._index = ht.end_._index
      rw [e2]
      rfl
    · intro j
      exact ⟨fun hj => hall j hj, fun hj => hlive j hj⟩
    · intro m hm
      rcases bfs_run hwf hroot hne m (by omega) with ⟨itm, hsm, hinvm⟩
      obtain ⟨f1, f2, g0, gnd, glive, gE, gF, gmlen⟩ := hinvm
      rcases bfs_step hwf hroot ⟨f1, f2, g0, gnd, glive, gE, gF, gmlen⟩ hm
        with ⟨it2, hstep, _⟩
      rw [hash_tree_iterator.step] at hstep
      rcases hv : lGet itm._visit itm._index with _ | vm <;> rw [hv] at hstep
      · exact absurd hstep (by simp)
      dsimp only at hstep
      rcases hg : itm._nodes.get vm with _ | ndm <;> rw [hg] at hstep
      · exact absurd hstep (by simp)
      refine ⟨itm, hsm, ?_, vm, ndm, ?_, ?_, ?_⟩
      · show ¬ itm._index = ht.end_._index
        rw [f2]
        show ¬ m = ht.size
        omega
      · rw [← f2]
        exact hv
      · rw [← f1]
        exact hg
      · rw [hash_tree_iterator.deref, hv]
        dsimp only
        rw [hg]
    · intro t p nd q c hpt hgp hqc
      have htlt : t < ht.size := by
        have := lGet_some_lt hpt
        omega
      rcases hE t htlt with ⟨p', nd', off, hpt', hgp', hoff, _, hch⟩
      rw [hpt] at hpt'
      cases hpt'
      rw [hgp] at hgp'
      cases hgp'
      exact ⟨off, hoff, hch q c hqc, fun q2 c2 hq2 => hch q2 c2 hq2⟩

/-- C8 witness: the single-node example iterates in one step from `begin`
to `end`, dereferencing the root's value. -/
theorem C8_breadth_first_witness :
    (exSingle.size = 0 → exSingle.begin.eqIter exSingle.end_) ∧
    (0 < exSingle.size → ∃ itF, stepN exSingle.size exSingle.begin = some itF ∧
      itF.eqIter exSingle.end_ ∧
      itF._visit.length = exSingle.size ∧ itF._visit.Nodup ∧
      (∀ j, (exSingle._nodes.get j).isSome = true ↔ j ∈ itF._visit) ∧
      (∀ m, m < exSingle.size → ∃ itm, stepN m exSingle.begin = some itm ∧
        ¬ itm.eqIter exSingle.end_ ∧
        (∃ j nd, lGet itm._visit m = some j ∧
          exSingle._nodes.get j = some nd ∧ itm.deref = some nd.value)) ∧
      (∀ t p nd q c, lGet itF._visit t = some p →
        exSingle._nodes.get p = some nd → lGet nd.childs q = some c →
        ∃ off, t < off ∧ lGet itF._visit (off + q) = some c ∧
          ∀ q2 c2, lGet nd.childs q2 = some c2 →
            lGet itF._visit (off + q2) = some c2)) :=
  @C8_breadth_first Nat Nat exSingle (wf_of_wfb rfl)
    (fun j hj => by
      match j with
      | 0 => exact Reach.refl
      | j + 1 =>
        rw [show exSingle._nodes.get (j + 1) = none from rfl] at hj
        simp at hj)

/-- C8 counterexample: after reparenting a node below its own descendant
the map holds three nodes but the iteration from `begin` fails on the
second increment — the visitation sequence is exhausted before `size`
steps, so the detached nodes are never visited and the iterator never
reaches `end`. -/
theorem C8_counterexample :
    run id [Op.ins 0 0, Op.ins 1 1, Op.insP 2 2 1, Op.setPar 1 2]
      = some exCycle ∧
    exCycle.size = 3 ∧ wfb exCycle = true ∧
    stepN 2 exCycle.begin = none :=
  ⟨rfl, rfl, rfl, rfl⟩

/-- C9: the source's `contains` calls `index()` without passing the key; no
such member overload exists, so the member cannot compile and containment
cannot be claimed to agree with lookup.  For the spec-mandated semantics
`contains_spec` — resolving the supplied key through the hash index
succeeds — containment does agree with `at`: it returns true exactly when
`at` would succeed. -/
theorem C9_contains_lookup {K V : Type} [DecidableEq K] {hasher : K → Nat}
    {ht : hash_tree K V} (hwf : WF ht) (key : K) :
    contains_spec hasher ht key = true ↔ (ht.at_ hasher key).isSome = true := by
  rw [contains_spec]
  constructor
  · intro hc
    rcases hidx : ht.index hasher key with _ | i <;> rw [hidx] at hc
    · simp at hc
    · dsimp only at hc
      have hiE : i ≠ _EMPTY_INDEX := by simpa using hc
      rcases index_live hidx hiE with ⟨nd, hg, _, _⟩
      rw [hash_tree.at_]
      simp only [Option.bind_eq_bind]
      rw [hidx, Option.some_bind, hg]
      rfl
  · intro ha
    rw [hash_tree.at_] at ha
    simp only [Option.bind_eq_bind] at ha
    rcases hidx : ht.index hasher key with _ | i <;> rw [hidx] at ha
    · simp at ha
    · rw [Option.some_bind] at ha
      rcases hg : ht._nodes.get i with _ | nd <;> rw [hg] at ha
      · simp at ha
      · dsimp only
        have hilt := sv_live_lt hg
        have hlt := hwf.len_lt
        simp only [bne_iff_ne, ne_eq]
        omega

/-- C9 witness: in the two-node example, containment of the present key 1
agrees with the success of `at`. -/
theorem C9_contains_lookup_witness :
    contains_spec id exPair 1 = true ↔ (exPair.at_ id 1).isSome = true :=
  @C9_contains_lookup Nat Nat _ id exPair (wf_of_wfb rfl) 1

/-- C10: inserting an already-present key never updates or replaces the
existing node: a second node holding the key is allocated, `size()` grows by
exactly one, and — when the insert does not trigger a rehash — a subsequent
`at` still returns the previously stored value, because the new node is
appended at the tail of its bucket chain and lookup returns the first chain
match. -/
theorem C10_duplicate_insert {K V : Type} [DecidableEq K] {hasher : K → Nat}
    {ht : hash_tree K V} {k : K} {v0 v : V} {ht' : hash_tree K V}
    (hwf : WF ht)
    (hat : ht.at_ hasher k = some v0)
    (hnogrow : 10 * ht.size ≤ 9 * ht.table_size)
    (h : ht.insert hasher k v = some ht') :
    ht'.size = ht.size + 1 ∧
    ht'.at_ hasher k = some v0 ∧
    (∃ f nd', ht._nodes.get f = none ∧ ht'._nodes.get f = some nd' ∧
      nd'.key = k ∧ nd'.value = v) := by
  -- unpack the successful lookup
  have hat2 := hat
  rw [hash_tree.at_] at hat2
  simp only [Option.bind_eq_bind] at hat2
  rcases Option.bind_eq_some.mp hat2 with ⟨i0, hidx, h2⟩
  rcases hget : ht._nodes.get i0 with _ | nd0 <;> rw [hget] at h2
  · exact absurd h2 (by simp)
  simp only [Option.pure_def, Option.some.injEq] at h2
  have hi0E : i0 ≠ _EMPTY_INDEX := by
    have h1 := sv_live_lt hget
    have h3 := hwf.len_lt
    omega
  -- the fresh node and the size growth
  rcases insert_props hwf.head_live h with ⟨f, hfresh, hdisj, hsize, _, _, _⟩
  have hnode : ∃ nd', ht'._nodes.get f = some nd' ∧ nd'.key = k ∧
      nd'.value = v := by
    rcases hdisj with ⟨_, _, ⟨nd, hgf, e1, e2, _, _⟩, _⟩ |
      ⟨_, _, _, ⟨nd, hgf, e1, e2, _, _⟩, _, _⟩ <;> exact ⟨nd, hgf, e1, e2⟩
  -- the private insert stage
  have h3 := h
  rw [hash_tree.insert] at h3
  simp only [Option.bind_eq_bind] at h3
  rcases Option.bind_eq_some.mp h3 with ⟨r, hins, _⟩
  obtain ⟨f2, htA⟩ := r
  have hnogrow' : ¬ 10 * ht.size > 9 * ht.table_size := by omega
  rcases _insert_chain_props hnogrow' hins with ⟨hf2, hnpA, hlenA, htabA⟩
  rcases _insert_props hins with ⟨hhA, _, _, _, _, _, _, _⟩
  have hfh : htA._head_index ≠ _EMPTY_INDEX → f2 ≠ htA._head_index := by
    intro hhe he
    rw [hhA] at hhe he
    have := hwf.head_live hhe
    rw [← he, hf2] at this
    simp at this
  rcases insert_link_props hins hfh h with ⟨hnpB, htabB, hlenB⟩
  -- the bucket of the key was not empty, so the table is unchanged
  have htab : ht'._table = ht._table := by
    rcases htabA with he | ⟨b, hb, hbe, _⟩
    · rw [htabB, he]
    · exfalso
      have hidx2 := hidx
      rw [hash_tree.index] at hidx2
      simp only [Option.bind_eq_bind] at hidx2
      rcases Option.bind_eq_some.mp hidx2 with ⟨b', hb', h4⟩
      rw [hb'] at hb
      have hbb : b' = b := Option.some.inj hb
      rw [hbb, hbe] at h4
      dsimp only at h4
      rw [if_pos rfl] at h4
      simp only [Option.pure_def, Option.some.injEq] at h4
      exact hi0E h4.symm
  have hnp : NextPres ht._nodes ht'._nodes := nextPres_trans hnpA hnpB
  have hlen : ht._nodes.data.length ≤ ht'._nodes.data.length := by omega
  have hidx' : ht'.index hasher k = some i0 :=
    index_preserved htab hlen hnp hidx hi0E
  rcases hnp i0 nd0 hget with ⟨nd0', hget', _, _, hval, _⟩
  refine ⟨hsize, ?_, ⟨f, ?_⟩⟩
  · rw [hash_tree.at_]
    simp only [Option.bind_eq_bind]
    rw [hidx', Option.some_bind, hget']
    dsimp only
    simp only [Option.pure_def, Option.some.injEq]
    rw [hval, h2]
  · rcases hnode with ⟨nd', hgf, e1, e2⟩
    exact ⟨nd', hfresh, hgf, e1, e2⟩

/-- C10 witness: re-inserting key 0 with value 7 into the single-node
example keeps `at 0` returning the old value 0, grows the size by one, and
stores a second node holding key 0. -/
theorem C10_duplicate_insert_witness :
    exSingle.at_ id 0 = some 0 ∧
    10 * exSingle.size ≤ 9 * exSingle.table_size ∧
    exSingle.insert id 0 7 = some exSingleDup ∧
    (exSingleDup.size = exSingle.size + 1 ∧
      exSingleDup.at_ id 0 = some 0 ∧
      (∃ f nd', exSingle._nodes.get f = none ∧
        exSingleDup._nodes.get f = some nd' ∧
        nd'.key = 0 ∧ nd'.value = 7)) :=
  ⟨rfl, by decide, rfl,
    @C10_duplicate_insert Nat Nat _ id exSingle 0 0 7 exSingleDup
      (wf_of_wfb rfl) rfl (by decide) rfl⟩

end Byte
